import Mathlib

/-!
# Undo/redo stack of a document (`src/document-undo.cpp`)

A shallow embedding of the undo engine.  The functions of
`document-undo.cpp` are translated one by one over an explicit document
state; the XML layer they call (`xml/repr.h`, `xml/event-fns.h`) is not
among the sources and is modelled from the specification.
-/

namespace Inkscape

/-! ## The XML layer: tree, mutations, event records -/

/-- Modelled from the spec: the Mutable Tree Node store of section 3 (the
`xml/` node classes are missing).  Nodes are opaque handles (`Nat`); every
node has an attribute mapping (absence is distinct from the empty string),
an optional text content, an ordered sequence of children and a parent
back-reference.  A detached node keeps its data in the store, which is what
lets a removal record recreate the removed subtree.  `count` is the number
of parent links of the store: linking a child adds one, unlinking a child
takes one away.  An ancestor walk never needs more steps than there are
links. -/
structure Tree where
  attr : Nat → String → Option String
  content : Nat → Option String
  children : Nat → List Nat
  parent : Nat → Option Nat
  count : Nat

/-- Modelled from the spec: the invariants of section 3.  The position of
a node among its siblings is well defined (no node occurs twice in a child
list), a child has exactly the parent whose list holds it, the tree is
acyclic (some rank strictly decreases along every parent link), and the
nodes that have a parent are no more than `count`. -/
structure Tree.WF (t : Tree) : Prop where
  nodup : ∀ p, (t.children p).Nodup
  parent_of_child : ∀ p c, c ∈ t.children p → t.parent c = some p
  acyclic : ∃ r : Nat → Nat, ∀ n p, t.parent n = some p → r p < r n
  links : ∃ s : Finset Nat, (∀ n p, t.parent n = some p → n ∈ s) ∧ s.card ≤ t.count

/-- Modelled from the spec: the unlogged attribute write underlying
`setAttribute` (value `none` removes the attribute). -/
def Tree.setAttr (t : Tree) (n : Nat) (k : String) (v : Option String) : Tree :=
  { t with attr := fun n' k' => if n' = n ∧ k' = k then v else t.attr n' k' }

/-- Modelled from the spec: the unlogged content write underlying
`setContent`. -/
def Tree.setContent (t : Tree) (n : Nat) (v : Option String) : Tree :=
  { t with content := fun n' => if n' = n then v else t.content n' }

/-- Modelled from the spec: link `c` as the child of `p` at position `i`. -/
def Tree.insertChildAt (t : Tree) (p c i : Nat) : Tree :=
  { t with
    children := fun q => if q = p then (t.children p).insertIdx i c else t.children q
    parent := fun x => if x = c then some p else t.parent x
    count := t.count + 1 }

/-- Modelled from the spec: unlink the child `c` of `p` found at position
`i`; the node keeps its own data and becomes parentless. -/
def Tree.removeChildAt (t : Tree) (p c i : Nat) : Tree :=
  { t with
    children := fun q => if q = p then (t.children p).eraseIdx i else t.children q
    parent := fun x => if x = c then none else t.parent x
    count := t.count - 1 }

/-- Modelled from the spec: place `c` right after the reference sibling
(`none`: first; a reference that is not in the list: last). -/
def insertAfter : Option Nat → Nat → List Nat → List Nat
  | none, c, l => c :: l
  | some _, c, [] => [c]
  | some r, c, x :: xs => if x = r then x :: c :: xs else x :: insertAfter (some r) c xs

/-- Modelled from the spec: the sibling right before `c` in a child list
(`none` when `c` is first or absent): the reference sibling of `c`. -/
def prevSibling (c : Nat) : List Nat → Option Nat
  | [] => none
  | [_] => none
  | x :: y :: rest => if x = c then none else if y = c then some x else prevSibling c (y :: rest)

/-- Modelled from the spec: move the child `c` of `p` right after the
reference sibling. -/
def Tree.moveChild (t : Tree) (p c : Nat) (ref : Option Nat) : Tree :=
  { t with
    children := fun q =>
      if q = p then insertAfter ref c ((t.children p).erase c) else t.children q }

/-- Modelled from the spec: walk the parent links from `n` upwards for at
most `fuel` steps and tell whether `a` is met (`a` is `n` or one of its
ancestors). -/
def Tree.reaches (t : Tree) (a : Nat) : Nat → Nat → Bool
  | 0, n => decide (n = a)
  | fuel + 1, n =>
    if n = a then true
    else match t.parent n with
      | none => false
      | some p => Tree.reaches t a fuel p

/-- Modelled from the spec: `a` is `n` itself or an ancestor of `n`, found
by a walk of at most `count` parent links. -/
def Tree.isAncestor (t : Tree) (a n : Nat) : Bool :=
  t.reaches a t.count n

/-- Modelled from the spec: the relation the ancestor test decides, `a` is
`n` itself or is reached from `n` by following parent links. -/
inductive Tree.Anc (t : Tree) (a : Nat) : Nat → Prop where
  | self : Tree.Anc t a a
  | up (n q : Nat) (h : t.parent n = some q) (hq : Tree.Anc t a q) : Tree.Anc t a n

/-- Modelled from the spec: the Event Record of section 3, one variant per
mutation kind, with the fields the spec lists. -/
inductive Event where
  | ChildAdded (parent child index : Nat) (referenceSibling : Option Nat)
  | ChildRemoved (parent child index : Nat)
  | ChildOrderChanged (parent child : Nat) (oldRef newRef : Option Nat)
  | AttributeChanged (node : Nat) (key : String) (oldValue newValue : Option String)
  | ContentChanged (node : Nat) (oldText newText : Option String)
  deriving DecidableEq, Repr

/-- Modelled from the spec: `apply(tree)` of section 4.2, the forward
mutation of a record. -/
def Event.apply : Event → Tree → Tree
  | .ChildAdded p c i _, t => t.insertChildAt p c i
  | .ChildRemoved p c i, t => t.removeChildAt p c i
  | .ChildOrderChanged p c _ newRef, t => t.moveChild p c newRef
  | .AttributeChanged n k _ newValue, t => t.setAttr n k newValue
  | .ContentChanged n _ newText, t => t.setContent n newText

/-- Modelled from the spec: application of the inverse of a record (old and
new swapped, Add and Remove swapped), section 3 and 4.2. -/
def Event.applyInverse : Event → Tree → Tree
  | .ChildAdded p c i _, t => t.removeChildAt p c i
  | .ChildRemoved p c i, t => t.insertChildAt p c i
  | .ChildOrderChanged p c oldRef _, t => t.moveChild p c oldRef
  | .AttributeChanged n k oldValue _, t => t.setAttr n k oldValue
  | .ContentChanged n oldText _, t => t.setContent n oldText

/-- An event log (`Inkscape::XML::Event *`): the records of one transaction
in chronological order; the empty list is the `NULL` log. -/
abbrev Log := List Event

/-- Modelled from the spec: the mutation entry points of section 4.1. -/
inductive Mutation where
  | setAttribute (node : Nat) (key : String) (value : Option String)
  | setContent (node : Nat) (text : Option String)
  | appendChild (parent child : Nat) (afterSibling : Option Nat)
  | removeChild (parent child : Nat)
  | reorderChild (parent child : Nat) (newAfterSibling : Option Nat)
  deriving DecidableEq, Repr

/-- Modelled from the spec: position at which a child placed after the
reference sibling lands. -/
def insertIndex (ref : Option Nat) (l : List Nat) : Nat :=
  match ref with
  | none => 0
  | some r => l.indexOf r + 1

/-- Modelled from the spec: section 4.1.  Performs a mutation on the live
tree and synthesizes its record; `none` stands for "nothing applied, nothing
to record": an idempotent write, or a rejected operation (child already has
a parent, child is an ancestor of the parent, node is not a child of the
stated parent, reference sibling is not a child of the parent). -/
def Mutation.perform : Mutation → Tree → Option (Tree × Event)
  | .setAttribute n k v, t =>
    if t.attr n k = v then none
    else some (t.setAttr n k v, .AttributeChanged n k (t.attr n k) v)
  | .setContent n v, t =>
    if t.content n = v then none
    else some (t.setContent n v, .ContentChanged n (t.content n) v)
  | .appendChild p c after, t =>
    if (t.parent c).isSome then none
    else if t.isAncestor c p then none
    else if (match after with | none => false | some r => decide (r ∉ t.children p)) then none
    else
      let i := insertIndex after (t.children p)
      some (t.insertChildAt p c i, .ChildAdded p c i after)
  | .removeChild p c, t =>
    if c ∈ t.children p then
      let i := (t.children p).indexOf c
      some (t.removeChildAt p c i, .ChildRemoved p c i)
    else none
  | .reorderChild p c newAfter, t =>
    if c ∉ t.children p then none
    else if (match newAfter with
        | none => false
        | some r => decide (r = c ∨ r ∉ t.children p)) then none
    else if prevSibling c (t.children p) = newAfter then none
    else some (t.moveChild p c newAfter,
      .ChildOrderChanged p c (prevSibling c (t.children p)) newAfter)

/-- Modelled from the spec: `sp_repr_undo_log`, section 4.2: the inverses of
the records are applied in reverse chronological order (last mutation undone
first). -/
def undoLog : Log → Tree → Tree
  | [], t => t
  | e :: rest, t => e.applyInverse (undoLog rest t)

/-- Modelled from the spec: `sp_repr_replay_log`, section 4.2: the records
are applied in forward chronological order. -/
def replayLog : Log → Tree → Tree
  | [], t => t
  | e :: rest, t => replayLog rest (e.apply t)

/-- Modelled from the spec: section 4.3, two sequential records that
collapse into one: attribute changes of the same (node, key) and content
changes of the same node keep the first old value and the last new value. -/
def mergeRecords : Event → Event → Option Event
  | .AttributeChanged n k old _, .AttributeChanged n' k' _ new =>
    if n = n' ∧ k = k' then some (.AttributeChanged n k old new) else none
  | .ContentChanged n old _, .ContentChanged n' _ new =>
    if n = n' then some (.ContentChanged n old new) else none
  | _, _ => none

/-- Modelled from the spec: the coalescer of section 4.3: runs of sequential
mergeable records are collapsed, everything else keeps its order. -/
def coalesceRecords : Log → Log
  | [] => []
  | e :: rest =>
    match coalesceRecords rest with
    | [] => [e]
    | e' :: rest' =>
      match mergeRecords e e' with
      | some m => m :: rest'
      | none => e :: e' :: rest'

/-- Modelled from the spec: `sp_repr_coalesce_log (a, b)` (`xml/event.cpp`
is missing): the log `b` is appended to the earlier log `a`, record order
preserved, and the result re-coalesced (section 4.3). -/
def sp_repr_coalesce_log (a b : Log) : Log :=
  coalesceRecords (a ++ b)

/-! ## The document state -/

/-- A notification delivered to the undo stack observers
(`doc->priv->undoStackObservers`), with the log it carries. -/
inductive Notification where
  | UndoCommitEvent (log : Log)
  | UndoEvent (log : Log)
  | RedoEvent (log : Log)
  deriving DecidableEq, Repr

/-- The part of `SPDocument` (with its `priv` and its `rdoc`) that
`document-undo.cpp` reads and writes.  `tree`, `in_transaction` and `log`
are the state of the XML document `rdoc` (node store, transaction flag,
records accumulated by the open transaction); `partialLog` is
`priv->partial`; `observed` is the trace of the notifications sent to
`priv->undoStackObservers`, oldest first. -/
structure SPDocument where
  tree : Tree
  rroot : Nat
  in_transaction : Bool
  log : Log
  sensitive : Bool
  partialLog : Log
  undo : List Log
  redo : List Log
  history_size : Int
  actionkey : Option String
  virgin : Bool
  observed : List Notification

/-- Modelled from the spec: the mutation hook of section 4.1: the mutation
is applied to the live tree and, only while a transaction is open, its
record is handed to the active log. -/
def SPDocument.mutate (doc : SPDocument) (m : Mutation) : SPDocument :=
  match m.perform doc.tree with
  | none => doc
  | some (t, e) =>
    { doc with tree := t, log := if doc.in_transaction then doc.log ++ [e] else doc.log }

/-- A sequence of mutations, performed in order. -/
def SPDocument.mutateAll (doc : SPDocument) : List Mutation → SPDocument
  | [] => doc
  | m :: ms => SPDocument.mutateAll (doc.mutate m) ms

/-- Modelled from the spec: `sp_repr_set_attr (node, key, value)`, the
`setAttribute` entry point with a present value. -/
def sp_repr_set_attr (doc : SPDocument) (node : Nat) (key value : String) : SPDocument :=
  doc.mutate (.setAttribute node key (some value))

/-- Modelled from the spec: `sp_repr_begin_transaction`: Idle to Open with
an empty accumulator; nothing happens when a transaction is already open
(section 4.4). -/
def sp_repr_begin_transaction (doc : SPDocument) : SPDocument :=
  if doc.in_transaction then doc else { doc with in_transaction := true, log := [] }

/-- Modelled from the spec: `sp_repr_commit_undoable`: closes the
transaction and hands out the finished log, adjacent redundant records
merged (section 4.3); the accumulator is left empty. -/
def sp_repr_commit_undoable (doc : SPDocument) : Log × SPDocument :=
  (coalesceRecords doc.log, { doc with in_transaction := false, log := [] })

/-- Modelled from the spec: `sp_repr_rollback`: the accumulated records are
undone on the live tree in reverse order and discarded, the transaction is
closed (section 4.4, `cancel`). -/
def sp_repr_rollback (doc : SPDocument) : SPDocument :=
  { doc with tree := undoLog doc.log doc.tree, in_transaction := false, log := [] }

/-- Modelled from the spec: `sp_repr_undo_log (log)` on the tree of the
document.  Every call in `document-undo.cpp` is made with the transaction
closed, so the replay itself is not recorded. -/
def sp_repr_undo_log (log : Log) (doc : SPDocument) : SPDocument :=
  { doc with tree := undoLog log doc.tree }

/-- Modelled from the spec: `sp_repr_replay_log (log)` on the tree of the
document, called with the transaction closed. -/
def sp_repr_replay_log (log : Log) (doc : SPDocument) : SPDocument :=
  { doc with tree := replayLog log doc.tree }

/-- The glib call `g_slist_remove (list, data)`: removes the first element
holding `data`. -/
def g_slist_remove (list : List Log) (data : Log) : List Log :=
  list.erase data

/-- The glib call `g_slist_prepend (list, data)`. -/
def g_slist_prepend (list : List Log) (data : Log) : List Log :=
  data :: list

/-! ## `document-undo.cpp` -/

/-- `sp_document_set_undo_sensitive` (lines 87-106). -/
def sp_document_set_undo_sensitive (doc : SPDocument) (sensitive : Bool) : SPDocument :=
  if sensitive = doc.sensitive then doc
  else if sensitive then
    { sp_repr_begin_transaction doc with sensitive := true }
  else
    let committed := sp_repr_commit_undoable doc
    { committed.2 with
      partialLog := sp_repr_coalesce_log committed.2.partialLog committed.1
      sensitive := false }

/-- `sp_document_get_undo_sensitive` (lines 108-113). -/
def sp_document_get_undo_sensitive (doc : SPDocument) : Bool :=
  doc.sensitive

/-- `sp_document_reset_key` (lines 121-126). -/
def sp_document_reset_key (doc : SPDocument) : SPDocument :=
  { doc with actionkey := none }

/-- The loop of `sp_document_clear_undo` (lines 292-301), one entry per
iteration. -/
def clear_undo_loop : List Log → SPDocument → SPDocument
  | [], doc => doc
  | _ :: next, doc =>
    clear_undo_loop next { doc with undo := next, history_size := doc.history_size - 1 }

/-- `sp_document_clear_undo` (lines 289-302). -/
def sp_document_clear_undo (doc : SPDocument) : SPDocument :=
  clear_undo_loop doc.undo doc

/-- The loop of `sp_document_clear_redo` (lines 307-316), one entry per
iteration. -/
def clear_redo_loop : List Log → SPDocument → SPDocument
  | [], doc => doc
  | _ :: next, doc =>
    clear_redo_loop next { doc with redo := next, history_size := doc.history_size - 1 }

/-- `sp_document_clear_redo` (lines 304-317). -/
def sp_document_clear_redo (doc : SPDocument) : SPDocument :=
  clear_redo_loop doc.redo doc

/-- `sp_document_maybe_done` (lines 128-165).  `none` is the failed
`g_assert (doc->priv->sensitive)`.  `collectOrphans` and
`sp_document_ensure_up_to_date` act on the object layer above the XML tree
and are taken to leave the state modelled here alone. -/
def sp_document_maybe_done (doc : SPDocument) (key : Option String) : Option SPDocument :=
  if !doc.sensitive then none
  else
    let doc1 := sp_document_clear_redo doc
    let committed := sp_repr_commit_undoable doc1
    let log := sp_repr_coalesce_log committed.2.partialLog committed.1
    let doc2 := { committed.2 with partialLog := [] }
    if log = [] then
      some (sp_repr_begin_transaction doc2)
    else
      let doc3 :=
        if key.isSome && doc2.actionkey.isSome && decide (key = doc2.actionkey)
            && !doc2.undo.isEmpty then
          { doc2 with undo := doc2.undo.modifyHead (fun data => sp_repr_coalesce_log data log) }
        else
          { doc2 with
            undo := g_slist_prepend doc2.undo log
            history_size := doc2.history_size + 1
            observed := doc2.observed ++ [.UndoCommitEvent log] }
      let doc4 := { doc3 with actionkey := key, virgin := false }
      let doc5 :=
        if (doc4.tree.attr doc4.rroot "sodipodi:modified").isNone then
          sp_repr_set_attr doc4 doc4.rroot "sodipodi:modified" "true"
        else doc4
      some (sp_repr_begin_transaction doc5)

/-- `sp_document_done` (lines 115-119). -/
def sp_document_done (doc : SPDocument) : Option SPDocument :=
  sp_document_maybe_done doc none

/-- `sp_document_cancel` (lines 167-183); `none` is the failed assertion. -/
def sp_document_cancel (doc : SPDocument) : Option SPDocument :=
  if !doc.sensitive then none
  else
    let doc1 := sp_repr_rollback doc
    let doc2 :=
      if doc1.partialLog ≠ [] then
        { sp_repr_undo_log doc1.partialLog doc1 with partialLog := [] }
      else doc1
    some (sp_repr_begin_transaction doc2)

/-- `finish_incomplete_transaction` (lines 187-197); the `g_warning` and the
debug print have no effect on the state. -/
def finish_incomplete_transaction (doc : SPDocument) : SPDocument :=
  let committed := sp_repr_commit_undoable doc
  let log := committed.1
  let doc1 := committed.2
  if log ≠ [] ∨ doc1.partialLog ≠ [] then
    let doc2 := { doc1 with partialLog := sp_repr_coalesce_log doc1.partialLog log }
    { doc2 with undo := g_slist_prepend doc2.undo doc2.partialLog, partialLog := [] }
  else doc1

/-- `sp_document_undo` (lines 201-243): the returned flag is `ret`; `none`
is the failed `g_assert (doc->priv->sensitive)`.  The application-wide
`inkscape_external_change ()` does not touch the document. -/
def sp_document_undo (doc : SPDocument) : Option (Bool × SPDocument) :=
  if !doc.sensitive then none
  else
    let doc1 := { doc with sensitive := false }
    let doc2 := { doc1 with actionkey := none }
    let doc3 := finish_incomplete_transaction doc2
    let res : Bool × SPDocument :=
      match doc3.undo with
      | log :: _ =>
        let doc4 := { doc3 with undo := g_slist_remove doc3.undo log }
        let doc5 := sp_repr_undo_log log doc4
        let doc6 := { doc5 with redo := g_slist_prepend doc5.redo log }
        let doc7 := sp_repr_set_attr doc6 doc6.rroot "sodipodi:modified" "true"
        (true, { doc7 with observed := doc7.observed ++ [.UndoEvent log] })
      | [] => (false, doc3)
    let doc8 := sp_repr_begin_transaction res.2
    some (res.1, { doc8 with sensitive := true })

/-- `sp_document_redo` (lines 245-287): the returned flag is `ret`; `none`
is the failed `g_assert (doc->priv->sensitive)`. -/
def sp_document_redo (doc : SPDocument) : Option (Bool × SPDocument) :=
  if !doc.sensitive then none
  else
    let doc1 := { doc with sensitive := false }
    let doc2 := { doc1 with actionkey := none }
    let doc3 := finish_incomplete_transaction doc2
    let res : Bool × SPDocument :=
      match doc3.redo with
      | log :: _ =>
        let doc4 := { doc3 with redo := g_slist_remove doc3.redo log }
        let doc5 := sp_repr_replay_log log doc4
        let doc6 := { doc5 with undo := g_slist_prepend doc5.undo log }
        let doc7 := sp_repr_set_attr doc6 doc6.rroot "sodipodi:modified" "true"
        (true, { doc7 with observed := doc7.observed ++ [.RedoEvent log] })
      | [] => (false, doc3)
    let doc8 := sp_repr_begin_transaction res.2
    some (res.1, { doc8 with sensitive := true })

/-! ## Reachable documents -/

/-- A document as it is right after creation: empty stacks, no history, no
action key, nothing pending, the transaction open exactly when the document
is sensitive. -/
def SPDocument.IsInitial (doc : SPDocument) : Prop :=
  doc.undo = [] ∧ doc.redo = [] ∧ doc.history_size = 0 ∧ doc.actionkey = none ∧
  doc.partialLog = [] ∧ doc.log = [] ∧ doc.in_transaction = doc.sensitive

/-- The calls a tool can make on a document: a tree edit or one of the
entry points of `document-undo.cpp`. -/
inductive Op where
  | edit (m : Mutation)
  | set_undo_sensitive (sensitive : Bool)
  | done
  | maybe_done (key : Option String)
  | reset_key
  | cancel
  | undo
  | redo
  | clear_undo
  | clear_redo
  deriving DecidableEq, Repr

/-- The document after one call; `none` when the call fails an assertion. -/
def Op.run : Op → SPDocument → Option SPDocument
  | .edit m, doc => some (doc.mutate m)
  | .set_undo_sensitive s, doc => some (sp_document_set_undo_sensitive doc s)
  | .done, doc => sp_document_done doc
  | .maybe_done key, doc => sp_document_maybe_done doc key
  | .reset_key, doc => some (sp_document_reset_key doc)
  | .cancel, doc => sp_document_cancel doc
  | .undo, doc => (sp_document_undo doc).map Prod.snd
  | .redo, doc => (sp_document_redo doc).map Prod.snd
  | .clear_undo, doc => some (sp_document_clear_undo doc)
  | .clear_redo, doc => some (sp_document_clear_redo doc)

/-- The documents a program can hold: an initial document, followed by any
sequence of calls that return. -/
inductive Reachable : SPDocument → Prop where
  | init (doc : SPDocument) (h : doc.IsInitial) : Reachable doc
  | step (doc doc1 : SPDocument) (op : Op) (h : Reachable doc)
      (hrun : op.run doc = some doc1) : Reachable doc1

/-- The log a commit would finalize now: the saved partial log followed by
the records of the open transaction, coalesced (line 141). -/
def SPDocument.pendingLog (doc : SPDocument) : Log :=
  sp_repr_coalesce_log doc.partialLog (coalesceRecords doc.log)

/-- The root marked modified: `sodipodi:modified` set to `"true"`. -/
def markModified (rroot : Nat) (t : Tree) : Tree :=
  t.setAttr rroot "sodipodi:modified" (some "true")

/-- A sequence of calls, run in order; `none` as soon as one of them fails
an assertion. -/
def runOps : List Op → SPDocument → Option SPDocument
  | [], doc => some doc
  | op :: ops, doc =>
    match op.run doc with
    | none => none
    | some doc1 => runOps ops doc1

/-- A run of commits under one key: each batch of tree edits is followed by
`sp_document_maybe_done (doc, k)`.  Returns the logs finalized by the
commits, in commit order, and the final document. -/
def commitRun (k : String) : List (List Mutation) → SPDocument → Option (List Log × SPDocument)
  | [], doc => some ([], doc)
  | ms :: rest, doc =>
    match sp_document_maybe_done (doc.mutateAll ms) (some k) with
    | none => none
    | some doc1 =>
      (commitRun k rest doc1).map fun r => ((doc.mutateAll ms).pendingLog :: r.1, r.2)

/-- The coalescing of a sequence of logs, in order: each one is coalesced
onto the result so far with `sp_repr_coalesce_log`. -/
def coalesceAll : List Log → Log
  | [] => []
  | L :: Ls => Ls.foldl sp_repr_coalesce_log L

/-- The next commit under any key is a push: whatever tree edits follow,
if they leave a non-empty log to commit then
`sp_document_maybe_done (doc, k)` puts that log on top of the present undo
stack as a new entry, for every key `k`. -/
def NextCommitPushes (doc : SPDocument) : Prop :=
  ∀ (k : String) (ms : List Mutation), (doc.mutateAll ms).pendingLog ≠ [] →
    ∃ doc1, sp_document_maybe_done (doc.mutateAll ms) (some k) = some doc1 ∧
      doc1.undo = (doc.mutateAll ms).pendingLog :: doc.undo

/-- The code that may stand between the disabling and the restoring call of
the save/restore pattern documented at lines 78-85 ("do stuff"): nothing
more, or a tree edit followed by more, or a nested occurrence of the same
pattern followed by more. -/
inductive Region where
  | skip
  | edit (m : Mutation) (rest : Region)
  | nest (inner : Region) (rest : Region)
  deriving Repr

/-- Runs the body of a bracketed region.  A nested occurrence runs
`saved = sp_document_get_undo_sensitive (document)`,
`sp_document_set_undo_sensitive (document, FALSE)`, its own body, and
`sp_document_set_undo_sensitive (document, saved)`.  Returns the final
document and the documents seen after each call, in order. -/
def Region.run : Region → SPDocument → SPDocument × List SPDocument
  | .skip, doc => (doc, [])
  | .edit m rest, doc =>
    let doc1 := doc.mutate m
    let r := rest.run doc1
    (r.1, doc1 :: r.2)
  | .nest inner rest, doc =>
    let saved := sp_document_get_undo_sensitive doc
    let doc1 := sp_document_set_undo_sensitive doc false
    let ri := inner.run doc1
    let doc2 := sp_document_set_undo_sensitive ri.1 saved
    let rr := rest.run doc2
    (rr.1, doc1 :: (ri.2 ++ doc2 :: rr.2))

/-- The save/restore pattern of lines 82-85 around a body.  Returns the
document after the restoring call and the documents seen inside the
bracketed region (after the disabling call and after every call of the
body). -/
def savePattern (body : Region) (doc : SPDocument) : SPDocument × List SPDocument :=
  let saved := sp_document_get_undo_sensitive doc
  let doc1 := sp_document_set_undo_sensitive doc false
  let r := body.run doc1
  (sp_document_set_undo_sensitive r.1 saved, doc1 :: r.2)

/-- A run of commits with `sp_document_done`, each after a batch of tree
edits.  Returns the logs finalized by the commits, in commit order, and the
final document. -/
def doneRun : List (List Mutation) → SPDocument → Option (List Log × SPDocument)
  | [], doc => some ([], doc)
  | ms :: rest, doc =>
    match sp_document_done (doc.mutateAll ms) with
    | none => none
    | some doc1 =>
      (doneRun rest doc1).map fun r => ((doc.mutateAll ms).pendingLog :: r.1, r.2)

/-- Calls `sp_document_undo` the given number of times in a row.  Returns
the flags returned by the calls, in order, and the final document. -/
def undoTimes : Nat → SPDocument → Option (List Bool × SPDocument)
  | 0, doc => some ([], doc)
  | k + 1, doc =>
    match sp_document_undo doc with
    | none => none
    | some r => (undoTimes k r.2).map fun q => (r.1 :: q.1, q.2)

/-- Calls `sp_document_redo` the given number of times in a row.  Returns
the flags returned by the calls, in order, and the final document. -/
def redoTimes : Nat → SPDocument → Option (List Bool × SPDocument)
  | 0, doc => some ([], doc)
  | k + 1, doc =>
    match sp_document_redo doc with
    | none => none
    | some r => (redoTimes k r.2).map fun q => (r.1 :: q.1, q.2)

/-! ## Sample documents -/

/-- A tree of bare nodes: no attribute, no content, no child. -/
def bareTree : Tree :=
  { attr := fun _ _ => none
    content := fun _ => none
    children := fun _ => []
    parent := fun _ => none
    count := 0 }

/-- A freshly created document over `bareTree`, tracking enabled. -/
def freshDocument : SPDocument :=
  { tree := bareTree
    rroot := 0
    in_transaction := true
    log := []
    sensitive := true
    partialLog := []
    undo := []
    redo := []
    history_size := 0
    actionkey := none
    virgin := true
    observed := [] }

/-- The fresh document after the given calls (itself if one of them
fails). -/
def freshDocumentAfter (ops : List Op) : SPDocument :=
  (runOps ops freshDocument).getD freshDocument

/-- The record of setting `width` of node 1 from `old` to `new`. -/
def widthChange (old new : Option String) : Event :=
  .AttributeChanged 1 "width" old new

/-- The tree edit `width := v` on node 1. -/
def setWidth (v : String) : Mutation :=
  .setAttribute 1 "width" (some v)

/-- The fresh document after one uncommitted edit: `width = "10"` on node 1. -/
def editedDocument : SPDocument :=
  freshDocumentAfter [.edit (setWidth "10")]

/-- One edit, committed with `sp_document_done`. -/
def committedDocument : SPDocument :=
  freshDocumentAfter [.edit (setWidth "10"), .done]

/-- One edit, committed and undone: its log sits on the redo stack. -/
def undoneDocument : SPDocument :=
  freshDocumentAfter [.edit (setWidth "10"), .done, .undo]

/-- One edit committed and undone, then a new uncommitted edit. -/
def reeditedDocument : SPDocument :=
  freshDocumentAfter [.edit (setWidth "10"), .done, .undo, .edit (setWidth "20")]

/-- One edit committed under the key `"drag"`, then a new uncommitted
edit. -/
def keyedDocument : SPDocument :=
  freshDocumentAfter [.edit (setWidth "10"), .maybe_done (some "drag"), .edit (setWidth "20")]

/-- One edit committed, then a new uncommitted edit. -/
def pendingOverUndoDocument : SPDocument :=
  freshDocumentAfter [.edit (setWidth "10"), .done, .edit (setWidth "20")]

/-- Two edits committed and both undone, then a new uncommitted edit: the
redo stack holds the two undone logs. -/
def branchedDocument : SPDocument :=
  freshDocumentAfter [.edit (setWidth "10"), .done, .edit (setWidth "20"), .done,
    .undo, .undo, .edit (setWidth "30")]

/-- A document with tracking disabled after an edit: the record of the edit
sits in the partial log. -/
def suspendedDocument : SPDocument :=
  freshDocumentAfter [.edit (setWidth "10"), .set_undo_sensitive false]

/-- An edit saved in the partial log across a sensitivity toggle, then a
second uncommitted edit in the new transaction. -/
def resumedDocument : SPDocument :=
  freshDocumentAfter [.edit (setWidth "10"), .set_undo_sensitive false,
    .set_undo_sensitive true, .edit (.setContent 1 (some "text"))]

/-- One uncommitted edit, then `sp_document_undo`. -/
def danglingDocument : SPDocument :=
  freshDocumentAfter [.edit (setWidth "10"), .undo]

/-- The document at the end of a phase with tracking suppressed: tree edits
`ms1`, then `sp_document_set_undo_sensitive (doc, FALSE)`, then tree edits
`ms2`. -/
def afterSuppressedEdits (doc : SPDocument) (ms1 ms2 : List Mutation) : SPDocument :=
  (sp_document_set_undo_sensitive (doc.mutateAll ms1) false).mutateAll ms2

/-- The document right after tracking is enabled again at the end of the
suppressed phase. -/
def afterResuming (doc : SPDocument) (ms1 ms2 : List Mutation) : SPDocument :=
  sp_document_set_undo_sensitive (afterSuppressedEdits doc ms1 ms2) true

/-! ## `inkscape-application.cpp`: the arguments of actions -/

/-- The value recorded with an action in the action vector: no value, a
`bool`, an `int`, a `double` or a string. -/
inductive ActionVariant where
  | stateless
  | boolean (b : Bool)
  | integer (i : Int)
  | real (d : Float)
  | string (s : String)
  deriving Repr

/-- Lines 947-954 of `parse_actions`: the boolean `b` computed from the
textual value, and whether "Invalid boolean value" is reported. -/
def parse_boolean_value (value : String) : Bool × Bool :=
  if value = "0" ∨ value = "true" ∨ value = "" then (true, false)
  else if value = "1" ∨ value = "false" then (false, false)
  else (false, true)

/-- The body of the loop of `parse_actions` (lines 939-980) for one token
already split at the colon into `action` and `value`: the entries pushed on
the action vector, or `none` when an exception leaves the body.  `lookup`
stands for `lookup_action` and the parameter type of the action found:
`none` when there is no such action, `some none` for an action without
parameter, `some (some t)` for the type string `t`.  `stoi` and `stod` stand
for the library conversions `std::stoi` and `std::stod` of lines 958 and
961, which throw (`none`) on text they cannot convert. -/
def parse_action_token (lookup : String → Option (Option String))
    (stoi : String → Option Int) (stod : String → Option Float)
    (action value : String) : Option (List (String × ActionVariant)) :=
  match lookup action with
  | some (some gtype) =>
    if gtype = "b" then some [(action, .boolean (parse_boolean_value value).1)]
    else if gtype = "i" then (stoi value).map fun i => [(action, .integer i)]
    else if gtype = "d" then (stod value).map fun d => [(action, .real d)]
    else if gtype = "s" then some [(action, .string value)]
    else some []
  | some none => some [(action, .stateless)]
  | none => some [("verb", .string action)]

/-- The function `parse_actions` (lines 922-982) on the tokens of the input,
each already split at the colon: the action vector when the function is
left, and whether it is left by an exception of `std::stoi` or `std::stod`,
which abandons the remaining tokens. -/
def parse_actions (lookup : String → Option (Option String))
    (stoi : String → Option Int) (stod : String → Option Float) :
    List (String × String) → List (String × ActionVariant) →
    List (String × ActionVariant) × Bool
  | [], action_vector => (action_vector, false)
  | token :: rest, action_vector =>
    match parse_action_token lookup stoi stod token.1 token.2 with
    | none => (action_vector, true)
    | some pushed => parse_actions lookup stoi stod rest (action_vector ++ pushed)

/-- A registry of actions with one boolean action, `"toggle"`, one string
action and one action without parameter. -/
def sampleActions (action : String) : Option (Option String) :=
  if action = "toggle" then some (some "b")
  else if action = "select-by-id" then some (some "s")
  else if action = "quit" then some none
  else none

/-! ## `ui/dialog/swatches.cpp`: the palette number parser -/

/-- The character under the cursor of a C string, given by the bytes before
its terminating NUL: `*str`. -/
def cursorChar (str : List Nat) : Nat :=
  str.headD 0

/-- The largest value of an `int`. -/
def INT_MAX : Nat := 2147483647

/-- The test `'0' <= c && c <= '9'` (line 385). -/
def isDecimalDigit (c : Nat) : Bool :=
  decide (48 ≤ c ∧ c ≤ 57)

/-- `skipWhitespace` (lines 377-381): the cursor after the blanks and
tabs. -/
def skipWhitespace : List Nat → List Nat
  | [] => []
  | c :: rest => if c = 32 ∨ c = 9 then skipWhitespace rest else c :: rest

/-- Arithmetic on `int`: the result reduced to the 32-bit two's complement
range.  A signed overflow is undefined in C; the compiled loop of `parseNum`
goes on with the wrapped value, and neither the cursor nor the returned flag
depends on it. -/
def wrapInt (x : Int) : Int :=
  (x + 2147483648) % 4294967296 - 2147483648

/-- The loop of `parseNum` (lines 385-388) from the accumulated `val`:
the final `val` and the cursor. -/
def parseNum_loop : List Nat → Int → Int × List Nat
  | [], val => (val, [])
  | c :: rest, val =>
    if 48 ≤ c ∧ c ≤ 57 then parseNum_loop rest (wrapInt (val * 10 + ((c : Int) - 48)))
    else (val, c :: rest)

/-- `parseNum` (lines 383-391): the returned flag, `val` and the cursor. -/
def parseNum (str : List Nat) : Bool × Int × List Nat :=
  let r := parseNum_loop str 0
  (!(decide (cursorChar r.2 = 0) || decide (cursorChar r.2 = 32) ||
      decide (cursorChar r.2 = 9) || decide (cursorChar r.2 = 13) ||
      decide (cursorChar r.2 = 10)), r.1, r.2)

/-- The entry branch of `_loadPaletteFile` (lines 427-464) on one line of
the file: `some (r, g, b)` when a colour is added, `none` when `hasErr` is
raised; the name of the colour is left out. -/
def parsePaletteEntry (block : List Nat) : Option (Int × Int × Int) :=
  let ptr := skipWhitespace block
  if cursorChar ptr = 0 then none
  else
    let r := parseNum ptr
    if r.1 then none
    else
      let g := parseNum (skipWhitespace r.2.2)
      if g.1 then none
      else
        let b := parseNum (skipWhitespace g.2.2)
        if b.1 then none
        else some (r.2.1, g.2.1, b.2.1)

/-- A run of blanks and tabs, the characters `skipWhitespace` passes. -/
abbrev Blanks (ws : List Nat) : Prop :=
  ∀ c ∈ ws, c = 32 ∨ c = 9

/-- A run of decimal digits. -/
abbrev Digits (ds : List Nat) : Prop :=
  ∀ c ∈ ds, isDecimalDigit c = true

/-- The text `255 128 Orange` followed by a line feed: two numbers and a
name. -/
def twoNumbersAndName : List Nat :=
  [50, 53, 53, 32, 49, 50, 56, 32, 79, 114, 97, 110, 103, 101, 10]

/-- The decimal value of a string of digit characters, most significant
first, as positional notation defines it. -/
def decimalValue (digits : List Nat) : Nat :=
  Nat.ofDigits 10 (digits.reverse.map fun c => c - 48)

/-! ## `sp-use-reference.cpp` -/

/-- The part of the object tree that `SPUseReference::_acceptObject` reads:
`SP_OBJECT_PARENT` and `SP_IS_ITEM` on objects given by their handle. -/
structure SPObjectTree where
  parent : Nat → Option Nat
  is_item : Nat → Bool

/-- The loop of lines 33-37 from `iter`, with a bound on the number of
iterations: `some false` when `iter == obj` is met, `some true` when the
root is passed, `none` when the bound is used up. -/
def acceptObject_loop (tree : SPObjectTree) (obj : Nat) : Nat → Option Nat → Option Bool
  | _, none => some true
  | 0, some _ => none
  | fuel + 1, some iter =>
    if iter = obj then some false else acceptObject_loop tree obj fuel (tree.parent iter)

/-- `SPUseReference::_acceptObject` (lines 28-42) for the reference owned by
`owner`; `SP_IS_ITEM (NULL)` is false. -/
def SPUseReference._acceptObject (tree : SPObjectTree) (owner : Option Nat) (fuel : Nat)
    (obj : Option Nat) : Option Bool :=
  match obj with
  | none => some false
  | some o =>
    if tree.is_item o then acceptObject_loop tree o fuel owner
    else some false

/-- An object tree is acyclic when a depth can be assigned that drops along
every parent link. -/
def SPObjectTree.Acyclic (tree : SPObjectTree) : Prop :=
  ∃ depth : Nat → Nat, ∀ n p, tree.parent n = some p → depth p < depth n

/-- The object `a` is `n` itself or is reached from `n` by following parent
links. -/
inductive SelfOrAncestor (tree : SPObjectTree) (a : Nat) : Nat → Prop where
  | self : SelfOrAncestor tree a a
  | up (n p : Nat) (h : tree.parent n = some p) (hp : SelfOrAncestor tree a p) :
      SelfOrAncestor tree a n

/-- A chain of items: the parent of object `n + 1` is object `n`, object 0
is the root. -/
def chainTree : SPObjectTree :=
  { parent := fun n => if n = 0 then none else some (n - 1)
    is_item := fun _ => true }

/-! ## `libnr/nr-object.cpp`: the class registry -/

/-- The fields of `NRObjectClass` read by the type test.  `parent` names the
class that the pointer `klass->parent` refers to by its slot in `classes`
(class objects never move); `none` is the NULL pointer. -/
structure NRObjectClass where
  type : Nat
  parent : Option Nat
  deriving DecidableEq, Repr

/-- The file-static registry: the slots `classes[0 .. classes_len - 1]`,
each NULL (`none`) or holding a class, and the capacity `classes_size`. -/
structure ClassRegistry where
  classes : List (Option NRObjectClass)
  classes_size : Nat
  deriving DecidableEq, Repr

/-- The static `classes_len`. -/
def ClassRegistry.classes_len (reg : ClassRegistry) : Nat :=
  reg.classes.length

/-- The registry before the first registration (lines 31-33). -/
def emptyRegistry : ClassRegistry :=
  { classes := [], classes_size := 0 }

/-- The loop of `nr_type_is_a` (lines 45-48) from the pointer `klass`, with
a bound on the number of iterations: `none` when the bound is used up (or a
pointer refers to no class, which a registry never holds). -/
def nr_type_is_a_loop (classes : List (Option NRObjectClass)) :
    Nat → Option Nat → Nat → Option Bool
  | _, none, _ => some false
  | 0, some _, _ => none
  | fuel + 1, some slot, test =>
    match classes[slot]? with
    | some (some klass) =>
      if klass.type = test then some true
      else nr_type_is_a_loop classes fuel klass.parent test
    | _ => none

/-- `nr_type_is_a` (lines 35-51), the walk bounded by `fuel` iterations. -/
def nr_type_is_a (reg : ClassRegistry) (fuel : Nat) (type test : Nat) : Option Bool :=
  if ¬ type < reg.classes_len then some false
  else if ¬ test < reg.classes_len then some false
  else
    match reg.classes[type]? with
    | some (some _) => nr_type_is_a_loop reg.classes fuel (some type) test
    | _ => nr_type_is_a_loop reg.classes fuel none test

/-- The first block of `nr_object_register_type` (lines 79-86): the array
is grown by 32 slots when it is full, and on the very first call slot 0 is
set to NULL. -/
def grow_classes (reg : ClassRegistry) : ClassRegistry :=
  if reg.classes_len ≥ reg.classes_size then
    { classes := if reg.classes_len = 0 then [none] else reg.classes
      classes_size := reg.classes_size + 32 }
  else reg

/-- `nr_object_register_type` (lines 68-110): the new type and the registry
after the call.  `none` stands for a `parent` beyond the slot of the new
class, where `classes[parent]` reads memory that was never written.  The
class initialiser `cinit`, a caller-supplied function, is taken to leave
`type` and `parent` as lines 99-100 set them. -/
def nr_object_register_type (parent : Nat) (reg : ClassRegistry) :
    Option (Nat × ClassRegistry) :=
  let reg1 := grow_classes reg
  let type := reg1.classes_len
  let allocated := reg1.classes ++ [some { type := 0, parent := none }]
  match allocated[parent]? with
  | none => none
  | some slot =>
    let klass : NRObjectClass :=
      { type := type, parent := if slot.isSome then some parent else none }
    some (type, { reg1 with classes := reg1.classes ++ [some klass] })

/-- The registries a program can hold when every type is registered with a
parent that was registered before it (or with the parent 0). -/
inductive ClassRegistry.Registered : ClassRegistry → Prop where
  | empty : ClassRegistry.Registered emptyRegistry
  | register (reg reg1 : ClassRegistry) (parent type : Nat)
      (h : ClassRegistry.Registered reg)
      (hcall : nr_object_register_type parent reg = some (type, reg1))
      (hparent : parent < type) : ClassRegistry.Registered reg1

/-- The type `u` is `t` itself or is reached from `t` by following the
parent links fixed at registration. -/
inductive ReachesType (reg : ClassRegistry) (u : Nat) : Nat → Prop where
  | self : ReachesType reg u u
  | up (t p : Nat) (klass : NRObjectClass) (h : reg.classes[t]? = some (some klass))
      (hp : klass.parent = some p) (hr : ReachesType reg u p) : ReachesType reg u t

/-- The invariant of registries: a class sits in the slot of its type, its
parent pointer refers to a class in a lower slot, and every slot from 1 on
holds a class. -/
def ClassRegistry.Sound (reg : ClassRegistry) : Prop :=
  (∀ (i : Nat) (klass : NRObjectClass), reg.classes[i]? = some (some klass) →
    klass.type = i ∧ ∀ p, klass.parent = some p →
      p < i ∧ ∃ kp, reg.classes[p]? = some (some kp)) ∧
  (∀ i, 1 ≤ i → i < reg.classes.length → ∃ klass, reg.classes[i]? = some (some klass))

/-- The registry after `NRObject` is registered (with parent 0). -/
def registryWithObject : ClassRegistry :=
  { classes := [none, some { type := 1, parent := none }], classes_size := 32 }

/-- The registry after `NRActiveObject` is registered with parent
`NRObject`. -/
def registryWithActiveObject : ClassRegistry :=
  { classes := [none, some { type := 1, parent := none }, some { type := 2, parent := some 1 }]
    classes_size := 32 }

/-- The registry after a third class is registered with parent
`NRObject`. -/
def registryWithThree : ClassRegistry :=
  { classes := [none, some { type := 1, parent := none }, some { type := 2, parent := some 1 },
      some { type := 3, parent := some 1 }]
    classes_size := 32 }

/-! ## Listeners of an active object (`libnr/nr-object.cpp`)

The structures `NRObjectListener`, `NRObjectCallbackBlock` and
`NRActiveObject` are declared in `nr-object.h`; the fields below are the
ones `nr-object.cpp` reads and writes.  Pointers (`vector`, `data`) are
numbers, the flexible array `listeners` is a function of the index, and the
`unsigned int` fields `size` and `length` wrap at `2 ^ 32`. -/

/-- One registered listener: `vector`, `size` and `data` as stored by
`nr_active_object_add_listener` (lines 264-266). -/
structure NRObjectListener where
  vector : Nat
  size : Nat
  data : Nat
  deriving DecidableEq, Repr

/-- The callback block: capacity `size`, number of live listeners `length`
and the array `listeners`. -/
structure NRObjectCallbackBlock where
  size : Nat
  length : Nat
  listeners : Nat → NRObjectListener

/-- The part of `NRActiveObject` the listener functions use: `callbacks`,
`none` for NULL. -/
structure NRActiveObject where
  callbacks : Option NRObjectCallbackBlock

/-- The listeners a block holds: slots `0 .. length - 1`, in order. -/
def NRObjectCallbackBlock.live (b : NRObjectCallbackBlock) : List NRObjectListener :=
  (List.range b.length).map b.listeners

/-- The listeners of an object; none when `callbacks` is NULL. -/
def NRActiveObject.live (object : NRActiveObject) : List NRObjectListener :=
  match object.callbacks with
  | none => []
  | some b => b.live

/-- `nr_active_object_add_listener` (lines 248-269).  A block fresh from
`malloc` has `size = 1`, `length = 0` (its slot contents are not read before
they are written; they are zero here); a full block doubles `size`
(`size << 1`, stored back into the `unsigned int` field); the listener is
written at index `length` and `length` is incremented. -/
def nr_active_object_add_listener (object : NRActiveObject) (vector size data : Nat) :
    NRActiveObject :=
  let b0 : NRObjectCallbackBlock :=
    match object.callbacks with
    | none => { size := 1, length := 0, listeners := fun _ => ⟨0, 0, 0⟩ }
    | some b => b
  let b1 : NRObjectCallbackBlock :=
    if b0.length ≥ b0.size then { b0 with size := (b0.size * 2) % 2 ^ 32 } else b0
  { callbacks := some
      { size := b1.size
        length := (b1.length + 1) % 2 ^ 32
        listeners := Function.update b1.listeners b1.length ⟨vector, size, data⟩ } }

/-- The loop of `nr_active_object_remove_listener_by_data` (lines 276-289)
from index `i`, with `fuel` the number of indices left below `length`.  The
result is the new value of `object->callbacks`: at the first listener whose
`data` matches, `length` is decremented, the block is freed when no listener
is left, and otherwise the last listener is copied into slot `i` unless `i`
was the last slot. -/
def remove_listener_loop (b : NRObjectCallbackBlock) (data : Nat) :
    Nat → Nat → Option NRObjectCallbackBlock
  | 0, _ => some b
  | fuel + 1, i =>
    if (b.listeners i).data = data then
      let length := b.length - 1
      if length < 1 then none
      else if length ≠ i then
        some { size := b.size, length := length,
               listeners := Function.update b.listeners i (b.listeners length) }
      else some { size := b.size, length := length, listeners := b.listeners }
    else remove_listener_loop b data fuel (i + 1)

/-- `nr_active_object_remove_listener_by_data` (lines 271-291): nothing
happens without a block; otherwise the loop runs over `i = 0 .. length - 1`. -/
def nr_active_object_remove_listener_by_data (object : NRActiveObject) (data : Nat) :
    NRActiveObject :=
  match object.callbacks with
  | none => object
  | some b => { callbacks := remove_listener_loop b data b.length 0 }

/-- A call of one of the two listener functions. -/
inductive ListenerOp where
  | add (vector size data : Nat)
  | remove (data : Nat)
  deriving DecidableEq, Repr

/-- Performing one call. -/
def ListenerOp.run : ListenerOp → NRActiveObject → NRActiveObject
  | .add vector size data, object => nr_active_object_add_listener object vector size data
  | .remove data, object => nr_active_object_remove_listener_by_data object data

/-- Performing a sequence of calls, first to last. -/
def runListenerOps (ops : List ListenerOp) (object : NRActiveObject) : NRActiveObject :=
  ops.foldl (fun o op => op.run o) object

/-- An object with three listeners whose data pointers are 7, 8 and 7. -/
def threeListeners : NRActiveObject :=
  runListenerOps [.add 1 0 7, .add 2 0 8, .add 3 0 7] { callbacks := none }

/-- An object with the single listener of data pointer 7. -/
def oneListener : NRActiveObject :=
  runListenerOps [.add 1 0 7] { callbacks := none }

/-- A block of capacity 4 holding the three listeners of `threeListeners`. -/
def threeListenersBlock : NRObjectCallbackBlock :=
  { size := 4
    length := 3
    listeners := fun i =>
      match i with
      | 0 => ⟨1, 0, 7⟩
      | 1 => ⟨2, 0, 8⟩
      | _ => ⟨3, 0, 7⟩ }

/-! ## Unicode entry of the text tool (`text-context.cpp`)

`SPTextContext` is declared in `text-context.h`; the three fields below are
the ones the Unicode-entry code uses.  The size of the buffer,
`sizeof(tc->uni)`, is the parameter `N` of the functions that need it; it is
positive, as the size of a C array is.  The key symbols are the values of
`gdkkeysyms.h`, and `MOD__CTRL_ONLY`, the presence of a text object and the
verdict of the input method are inputs carried by the event. -/

/-- The Unicode-entry state of the text tool: `unimode`, the number
`unipos` of buffered hex digits and the buffer `uni`. -/
structure SPTextContext where
  unimode : Bool
  unipos : Nat
  uni : Nat → Nat

/-- A key press as `sp_text_context_root_handler` sees it: the key symbol,
`MOD__CTRL_ONLY`, whether `tc->text || tc->nascent_object` holds, and
whether the test of lines 739-742 lets the key through when the tool is not
in Unicode mode. -/
structure KeyPress where
  group0_keyval : Nat
  ctrl_only : Bool
  has_object : Bool
  im_passes : Bool
  deriving DecidableEq, Repr

def GDK_space : Nat := 0x020
def GDK_KP_Space : Nat := 0xFF80
def GDK_BackSpace : Nat := 0xFF08
def GDK_Return : Nat := 0xFF0D
def GDK_KP_Enter : Nat := 0xFF8D
def GDK_Escape : Nat := 0xFF1B
def GDK_Shift_L : Nat := 0xFFE1
def GDK_Shift_R : Nat := 0xFFE2
def GDK_U : Nat := 0x055
def GDK_u : Nat := 0x075

/-- The glib test `g_ascii_isxdigit`, which looks its argument up as a
`guchar`: `0-9`, `A-F`, `a-f`. -/
def g_ascii_isxdigit (c : Nat) : Bool :=
  let ch := c % 256
  (48 ≤ ch && ch ≤ 57) || (65 ≤ ch && ch ≤ 70) || (97 ≤ ch && ch ≤ 102)

/-- `insert_uni_char` (lines 524-554) on the buffer: when the
`g_return_if_fail` test passes, `unipos` is reset and the buffer emptied;
otherwise the function returns at once.  The text that is inserted is not
part of this state. -/
def insert_uni_char (N : Nat) (tc : SPTextContext) : SPTextContext :=
  if tc.unipos ≠ 0 ∧ tc.unipos < N ∧ tc.uni tc.unipos = 0 then
    { tc with unipos := 0, uni := Function.update tc.uni 0 0 }
  else tc

/-- The switch of lines 753-822, taken in Unicode mode for a key without
`MOD__CTRL_ONLY`.  The result is the new state and the states with which
`insert_uni_char` was called; `none` is the `break` of the Shift keys, which
falls through to the shortcuts. -/
def unimode_switch (N : Nat) (keyval : Nat) (tc : SPTextContext) :
    Option (SPTextContext × List SPTextContext) :=
  if keyval = GDK_space ∨ keyval = GDK_KP_Space then
    if tc.unipos ≠ 0 then some (insert_uni_char N tc, [tc]) else some (tc, [])
  else if keyval = GDK_BackSpace then
    if ¬ tc.unipos < N then some (tc, [])
    else if tc.unipos ≠ 0 then
      some ({ tc with unipos := tc.unipos - 1
                      uni := Function.update tc.uni (tc.unipos - 1) 0 }, [])
    else some (tc, [])
  else if keyval = GDK_Return ∨ keyval = GDK_KP_Enter then
    if tc.unipos ≠ 0 then some ({ insert_uni_char N tc with unimode := false }, [tc])
    else some ({ tc with unimode := false }, [])
  else if keyval = GDK_Escape then some ({ tc with unimode := false }, [])
  else if keyval = GDK_Shift_L ∨ keyval = GDK_Shift_R then none
  else if g_ascii_isxdigit keyval then
    if ¬ tc.unipos < N - 1 then some (tc, [])
    else
      let tc1 : SPTextContext :=
        { tc with unipos := tc.unipos + 1
                  uni := Function.update (Function.update tc.uni tc.unipos (keyval % 256))
                    (tc.unipos + 1) 0 }
      if tc1.unipos = 8 then some (insert_uni_char N tc1, [tc1]) else some (tc1, [])
  else some (tc, [])

/-- The shortcut switch of lines 828 onwards, as far as the Unicode state
goes: only Ctrl+U (lines 844-859) touches it, leaving the mode or entering
it with `unipos = 0`. -/
def shortcut_switch (ev : KeyPress) (tc : SPTextContext) : SPTextContext :=
  if (ev.group0_keyval = GDK_U ∨ ev.group0_keyval = GDK_u) ∧ ev.ctrl_only then
    if tc.unimode then { tc with unimode := false }
    else { tc with unimode := true, unipos := 0 }
  else tc

/-- The `GDK_KEY_PRESS` case of `sp_text_context_root_handler` (lines
727-1183) on the Unicode state: the new state and the states with which
`insert_uni_char` was called. -/
def key_press (N : Nat) (ev : KeyPress) (tc : SPTextContext) :
    SPTextContext × List SPTextContext :=
  if ¬ ev.has_object then (tc, [])
  else if ¬ (tc.unimode || ev.im_passes) then (tc, [])
  else if ¬ ev.ctrl_only ∧ tc.unimode then
    match unimode_switch N ev.group0_keyval tc with
    | some r => r
    | none => (shortcut_switch ev tc, [])
  else (shortcut_switch ev tc, [])

/-- The key presses of a list handled one after the other: for each, the
state after it and the states with which it called `insert_uni_char`. -/
def runKeys (N : Nat) : List KeyPress → SPTextContext →
    List (SPTextContext × List SPTextContext)
  | [], _ => []
  | ev :: evs, tc => key_press N ev tc :: runKeys N evs (key_press N ev tc).1

/-- The buffer invariant: at most 7 digits, `unipos` inside the buffer, and
a NUL after the digits once there is one. -/
def SPTextContext.BufferOk (N : Nat) (tc : SPTextContext) : Prop :=
  tc.unipos ≤ 7 ∧ tc.unipos < N ∧ (tc.unipos ≠ 0 → tc.uni tc.unipos = 0)

/-- A text tool that has not been in Unicode mode yet, with stale buffer
contents. -/
def idleTextContext : SPTextContext :=
  { unimode := false, unipos := 5, uni := fun _ => 65 }

/-- Pressing Ctrl+U in a text object. -/
def ctrlU : KeyPress :=
  { group0_keyval := GDK_u, ctrl_only := true, has_object := true, im_passes := true }

/-- Pressing a plain key in a text object. -/
def plainKey (keyval : Nat) : KeyPress :=
  { group0_keyval := keyval, ctrl_only := false, has_object := true, im_passes := false }

/-- Ctrl+U, the two digits `4` and `1`, then space. -/
def typeLetterA : List KeyPress :=
  [ctrlU, plainKey 52, plainKey 49, plainKey GDK_space]

/-- Ctrl+U and then eight times the digit `0`. -/
def typeEightDigits : List KeyPress :=
  ctrlU :: List.replicate 8 (plainKey 48)

/-! ## Frame lemmas of the XML layer -/

section Frame

variable (doc : SPDocument) (m : Mutation)

@[simp] theorem mutate_undo : (doc.mutate m).undo = doc.undo := by
  unfold SPDocument.mutate; split <;> rfl

@[simp] theorem mutate_redo : (doc.mutate m).redo = doc.redo := by
  unfold SPDocument.mutate; split <;> rfl

@[simp] theorem mutate_history_size : (doc.mutate m).history_size = doc.history_size := by
  unfold SPDocument.mutate; split <;> rfl

@[simp] theorem mutate_actionkey : (doc.mutate m).actionkey = doc.actionkey := by
  unfold SPDocument.mutate; split <;> rfl

@[simp] theorem mutate_sensitive : (doc.mutate m).sensitive = doc.sensitive := by
  unfold SPDocument.mutate; split <;> rfl

@[simp] theorem mutate_partialLog : (doc.mutate m).partialLog = doc.partialLog := by
  unfold SPDocument.mutate; split <;> rfl

@[simp] theorem mutate_in_transaction :
    (doc.mutate m).in_transaction = doc.in_transaction := by
  unfold SPDocument.mutate; split <;> rfl

@[simp] theorem mutate_rroot : (doc.mutate m).rroot = doc.rroot := by
  unfold SPDocument.mutate; split <;> rfl

@[simp] theorem mutate_observed : (doc.mutate m).observed = doc.observed := by
  unfold SPDocument.mutate; split <;> rfl

@[simp] theorem mutate_virgin : (doc.mutate m).virgin = doc.virgin := by
  unfold SPDocument.mutate; split <;> rfl

theorem mutate_log_closed (h : doc.in_transaction = false) :
    (doc.mutate m).log = doc.log := by
  unfold SPDocument.mutate; split <;> simp [h]

end Frame

theorem mutateAll_frame (ms : List Mutation) :
    ∀ doc : SPDocument, (doc.mutateAll ms).undo = doc.undo ∧
      (doc.mutateAll ms).redo = doc.redo ∧
      (doc.mutateAll ms).history_size = doc.history_size ∧
      (doc.mutateAll ms).actionkey = doc.actionkey ∧
      (doc.mutateAll ms).sensitive = doc.sensitive ∧
      (doc.mutateAll ms).partialLog = doc.partialLog ∧
      (doc.mutateAll ms).in_transaction = doc.in_transaction ∧
      (doc.mutateAll ms).rroot = doc.rroot := by
  induction ms with
  | nil => intro doc; exact ⟨rfl, rfl, rfl, rfl, rfl, rfl, rfl, rfl⟩
  | cons m ms ih =>
    intro doc
    have h := ih (doc.mutate m)
    simpa [SPDocument.mutateAll] using h

/-- An attribute write leaves exactly the written value, whether or not the
write was idempotent. -/
@[simp] theorem mutate_setAttribute_tree (doc : SPDocument) (n : Nat) (k : String)
    (v : Option String) :
    (doc.mutate (.setAttribute n k v)).tree = doc.tree.setAttr n k v := by
  unfold SPDocument.mutate Mutation.perform
  by_cases h : doc.tree.attr n k = v
  · simp only [h, if_true]
    cases ht : doc.tree with
    | mk attr content children parent count =>
      simp only [Tree.setAttr, Tree.mk.injEq, and_true, true_and]
      funext n' k'
      by_cases hnk : n' = n ∧ k' = k
      · rw [if_pos hnk]
        obtain ⟨rfl, rfl⟩ := hnk
        rw [ht] at h; exact h
      · rw [if_neg hnk]
  · simp only [h, if_false]

theorem setAttr_attr_self (t : Tree) (n : Nat) (k : String) (v : Option String) :
    (t.setAttr n k v).attr n k = v := by
  simp [Tree.setAttr]

/-! ## Child lists -/

theorem insertIdx_eraseIdx_indexOf (c : Nat) :
    ∀ l : List Nat, c ∈ l → (l.eraseIdx (l.indexOf c)).insertIdx (l.indexOf c) c = l := by
  intro l
  induction l with
  | nil => intro h; simp at h
  | cons x xs ih =>
    intro h
    by_cases hx : x = c
    · subst hx; simp
    · have hc : c ∈ xs := by
        rcases List.mem_cons.mp h with h1 | h1
        · exact absurd h1.symm hx
        · exact h1
      rw [List.indexOf_cons_ne _ hx]
      simp only [List.eraseIdx_cons_succ, List.insertIdx_succ_cons, ih hc]

theorem insertAfter_perm (r : Option Nat) (c : Nat) :
    ∀ l : List Nat, (insertAfter r c l).Perm (c :: l) := by
  intro l
  cases r with
  | none => simp [insertAfter]
  | some r =>
    induction l with
    | nil => simp [insertAfter]
    | cons x xs ih =>
      unfold insertAfter
      split
      · exact List.Perm.swap c x xs
      · exact (List.Perm.cons x ih).trans (List.Perm.swap c x xs)

theorem erase_insertAfter (r : Option Nat) (c : Nat) :
    ∀ l : List Nat, c ∉ l → (insertAfter r c l).erase c = l := by
  intro l
  cases r with
  | none => intro _; simp [insertAfter]
  | some r =>
    induction l with
    | nil => intro _; simp [insertAfter]
    | cons x xs ih =>
      intro h
      have hx : x ≠ c := fun e => h (by simp [e])
      have hxs : c ∉ xs := fun e => h (List.mem_cons_of_mem _ e)
      unfold insertAfter
      split
      · rw [List.erase_cons_tail (by simpa using hx), List.erase_cons_head]
      · rw [List.erase_cons_tail (by simpa using hx), ih hxs]

theorem prevSibling_mem (c : Nat) :
    ∀ l : List Nat, c ∈ l → l.head? ≠ some c →
      ∃ q, prevSibling c l = some q ∧ q ∈ l := by
  intro l
  induction l with
  | nil => intro h; simp at h
  | cons x xs ih =>
    intro h hhead
    have hx : x ≠ c := fun e => hhead (by simp [e])
    have hc : c ∈ xs := by
      rcases List.mem_cons.mp h with h1 | h1
      · exact absurd h1.symm hx
      · exact h1
    cases xs with
    | nil => simp at hc
    | cons y rest =>
      by_cases hy : y = c
      · exact ⟨x, by simp [prevSibling, hx, hy], by simp⟩
      · obtain ⟨q, hq, hmem⟩ := ih hc (by simpa using hy)
        exact ⟨q, by simp only [prevSibling, hx, hy, if_false]; exact hq,
          List.mem_cons_of_mem _ hmem⟩

theorem insertAfter_prevSibling (c : Nat) :
    ∀ l : List Nat, l.Nodup → c ∈ l →
      insertAfter (prevSibling c l) c (l.erase c) = l := by
  intro l
  induction l with
  | nil => intro _ h; simp at h
  | cons x xs ih =>
    intro hnd h
    by_cases hx : x = c
    · subst hx
      cases xs with
      | nil => simp [prevSibling, insertAfter]
      | cons y rest => simp [prevSibling, insertAfter]
    · have hc : c ∈ xs := by
        rcases List.mem_cons.mp h with h1 | h1
        · exact absurd h1.symm hx
        · exact h1
      have hndxs : xs.Nodup := (List.nodup_cons.mp hnd).2
      have hxnot : x ∉ xs := (List.nodup_cons.mp hnd).1
      rw [List.erase_cons_tail (by simpa using hx)]
      cases xs with
      | nil => simp at hc
      | cons y rest =>
        by_cases hy : y = c
        · subst hy
          simp [prevSibling, hx, insertAfter]
        · obtain ⟨q, hq, hmem⟩ := prevSibling_mem c (y :: rest) hc (by simpa using hy)
          have hqx : x ≠ q := fun e => hxnot (e ▸ hmem)
          have hprev : prevSibling c (x :: y :: rest) = prevSibling c (y :: rest) := by
            simp only [prevSibling, hx, hy, if_false]
          rw [hprev, hq, insertAfter, if_neg hqx, ← hq, ih hndxs hc]

/-! ## Every recorded mutation is reversible -/

theorem Tree.ext_fields {a b : Tree} (h1 : a.attr = b.attr) (h2 : a.content = b.content)
    (h3 : a.children = b.children) (h4 : a.parent = b.parent) (h5 : a.count = b.count) :
    a = b := by
  cases a; cases b; simp_all

theorem insertIndex_le (ref : Option Nat) (l : List Nat)
    (h : ∀ r, ref = some r → r ∈ l) : insertIndex ref l ≤ l.length := by
  cases ref with
  | none => simp [insertIndex]
  | some r =>
    have := List.indexOf_lt_length.mpr (h r rfl)
    simp only [insertIndex]
    omega

theorem anc_of_reaches (t : Tree) (a : Nat) :
    ∀ fuel n, t.reaches a fuel n = true → t.Anc a n := by
  intro fuel
  induction fuel with
  | zero =>
    intro n h
    simp only [Tree.reaches, decide_eq_true_eq] at h
    subst h
    exact Tree.Anc.self
  | succ fuel ih =>
    intro n h
    simp only [Tree.reaches] at h
    by_cases hna : n = a
    · subst hna
      exact Tree.Anc.self
    · rw [if_neg hna] at h
      cases hp : t.parent n with
      | none => simp [hp] at h
      | some q =>
        simp only [hp] at h
        exact Tree.Anc.up n q hp (ih q h)

/-- A walk with as many steps as there are linked nodes of rank at most the
rank of the start meets every ancestor. -/
theorem reaches_of_anc (t : Tree) (r : Nat → Nat) (s : Finset Nat)
    (hr : ∀ n p, t.parent n = some p → r p < r n)
    (hs : ∀ n p, t.parent n = some p → n ∈ s) (a : Nat) :
    ∀ fuel n, (s.filter (fun x => r x ≤ r n)).card ≤ fuel → t.Anc a n →
      t.reaches a fuel n = true := by
  intro fuel
  induction fuel with
  | zero =>
    intro n hcard hanc
    cases hanc with
    | self => simp [Tree.reaches]
    | up _ q h hq =>
      have hmem : n ∈ s.filter (fun x => r x ≤ r n) :=
        Finset.mem_filter.mpr ⟨hs n q h, Nat.le_refl _⟩
      have := Finset.card_pos.mpr ⟨n, hmem⟩
      omega
  | succ fuel ih =>
    intro n hcard hanc
    simp only [Tree.reaches]
    by_cases hna : n = a
    · rw [if_pos hna]
    · rw [if_neg hna]
      cases hanc with
      | self => exact absurd rfl hna
      | up _ q h hq =>
        simp only [h]
        apply ih q _ hq
        have hlt := hr n q h
        have hsub : s.filter (fun x => r x ≤ r q) ⊆ s.filter (fun x => r x ≤ r n) := by
          intro x hx
          obtain ⟨hx1, hx2⟩ := Finset.mem_filter.mp hx
          exact Finset.mem_filter.mpr ⟨hx1, by omega⟩
        have hmem : n ∈ s.filter (fun x => r x ≤ r n) :=
          Finset.mem_filter.mpr ⟨hs n q h, Nat.le_refl _⟩
        have hnot : n ∉ s.filter (fun x => r x ≤ r q) := by
          intro hx
          have := (Finset.mem_filter.mp hx).2
          omega
        have hss : s.filter (fun x => r x ≤ r q) ⊂ s.filter (fun x => r x ≤ r n) :=
          (Finset.ssubset_iff_of_subset hsub).mpr ⟨n, hmem, hnot⟩
        have := Finset.card_lt_card hss
        omega

/-- In a well-formed tree the ancestor test is exact: it answers true if
and only if `a` is `n` or is reached from `n` along the parent links. -/
theorem isAncestor_iff (t : Tree) (hwf : t.WF) (a n : Nat) :
    t.isAncestor a n = true ↔ t.Anc a n := by
  constructor
  · exact anc_of_reaches t a t.count n
  · intro hanc
    obtain ⟨r, hr⟩ := hwf.acyclic
    obtain ⟨s, hs, hcard⟩ := hwf.links
    apply reaches_of_anc t r s hr hs a t.count n _ hanc
    exact le_trans (Finset.card_filter_le _ _) hcard

/-- Linking a parentless node `c` under `p` keeps the tree acyclic when `c`
is neither `p` nor an ancestor of `p`. -/
theorem insertChildAt_acyclic (t : Tree) (p c i : Nat) (hpc : t.parent c = none)
    (hanc : ¬ t.Anc c p)
    (hacyc : ∃ r : Nat → Nat, ∀ n q, t.parent n = some q → r q < r n) :
    ∃ r : Nat → Nat, ∀ n q, (t.insertChildAt p c i).parent n = some q → r q < r n := by
  classical
  obtain ⟨r, hr⟩ := hacyc
  refine ⟨fun x => if t.Anc c x then r x + r p + 1 else r x, ?_⟩
  intro n q h
  simp only [Tree.insertChildAt] at h
  by_cases hn : n = c
  · subst hn
    simp only [if_true, Option.some.injEq] at h
    subst h
    simp only [Tree.Anc.self, if_true, hanc, if_false]
    omega
  · simp only [hn, if_false] at h
    have hlt := hr n q h
    by_cases han : t.Anc c n
    · have haq : t.Anc c q := by
        cases han with
        | self => exact absurd rfl hn
        | up _ q1 h1 hq1 =>
          rw [h] at h1
          cases h1
          exact hq1
      simp only [han, haq, if_true]
      omega
    · have haq : ¬ t.Anc c q := fun hq => han (Tree.Anc.up n q h hq)
      simp only [han, haq, if_false]
      exact hlt

theorem perform_setAttribute_sound (n : Nat) (k : String) (v : Option String)
    (t t1 : Tree) (e : Event) (hwf : t.WF)
    (h : (Mutation.setAttribute n k v).perform t = some (t1, e)) :
    e.applyInverse t1 = t ∧ e.apply t = t1 ∧ t1.WF := by
  simp only [Mutation.perform] at h
  split at h
  · cases h
  · simp only [Option.some.injEq, Prod.mk.injEq] at h
    obtain ⟨rfl, rfl⟩ := h
    refine ⟨?_, rfl, ⟨hwf.nodup, hwf.parent_of_child, hwf.acyclic, hwf.links⟩⟩
    apply Tree.ext_fields <;> try rfl
    funext n' k'
    simp only [Event.applyInverse, Tree.setAttr]
    by_cases hnk : n' = n ∧ k' = k
    · obtain ⟨rfl, rfl⟩ := hnk; simp
    · simp [hnk]

theorem perform_setContent_sound (n : Nat) (v : Option String)
    (t t1 : Tree) (e : Event) (hwf : t.WF)
    (h : (Mutation.setContent n v).perform t = some (t1, e)) :
    e.applyInverse t1 = t ∧ e.apply t = t1 ∧ t1.WF := by
  simp only [Mutation.perform] at h
  split at h
  · cases h
  · simp only [Option.some.injEq, Prod.mk.injEq] at h
    obtain ⟨rfl, rfl⟩ := h
    refine ⟨?_, rfl, ⟨hwf.nodup, hwf.parent_of_child, hwf.acyclic, hwf.links⟩⟩
    apply Tree.ext_fields <;> try rfl
    funext n'
    simp only [Event.applyInverse, Tree.setContent]
    by_cases hn : n' = n
    · subst hn; simp
    · simp [hn]

theorem perform_appendChild_sound (p c : Nat) (after : Option Nat)
    (t t1 : Tree) (e : Event) (hwf : t.WF)
    (h : (Mutation.appendChild p c after).perform t = some (t1, e)) :
    e.applyInverse t1 = t ∧ e.apply t = t1 ∧ t1.WF := by
  simp only [Mutation.perform] at h
  split at h
  · cases h
  · rename_i hpar
    split at h
    · cases h
    · rename_i hanc
      split at h
      · cases h
      · rename_i hafter
        simp only [Option.some.injEq, Prod.mk.injEq] at h
        obtain ⟨rfl, rfl⟩ := h
        have hpc : t.parent c = none := by
          cases hq : t.parent c with
          | none => rfl
          | some q => simp [hq] at hpar
        have hnanc : ¬ t.Anc c p := fun ha => hanc ((isAncestor_iff t hwf c p).mpr ha)
        have hcl : ∀ q, c ∉ t.children q := fun q hc => by
          have := hwf.parent_of_child q c hc
          rw [hpc] at this; cases this
        have hle : insertIndex after (t.children p) ≤ (t.children p).length := by
          apply insertIndex_le
          intro r hr
          subst hr
          simpa using hafter
        refine ⟨?_, rfl, ⟨?_, ?_, ?_, ?_⟩⟩
        · apply Tree.ext_fields <;> try rfl
          · funext q
            simp only [Event.applyInverse, Tree.removeChildAt, Tree.insertChildAt]
            by_cases hq : q = p
            · subst hq; simp [List.eraseIdx_insertIdx]
            · simp [hq]
          · funext x
            simp only [Event.applyInverse, Tree.removeChildAt, Tree.insertChildAt]
            by_cases hx : x = c
            · subst hx; simp [hpc]
            · simp [hx]
        rotate_left 2
        · exact insertChildAt_acyclic t p c _ hpc hnanc hwf.acyclic
        · obtain ⟨s, hs, hcard⟩ := hwf.links
          refine ⟨insert c s, ?_, ?_⟩
          · intro n q hn
            simp only [Tree.insertChildAt] at hn
            by_cases hnc : n = c
            · subst hnc
              exact Finset.mem_insert_self _ _
            · simp only [hnc, if_false] at hn
              exact Finset.mem_insert_of_mem (hs n q hn)
          · have := Finset.card_insert_le c s
            change (insert c s).card ≤ t.count + 1
            omega
        · intro q
          simp only [Tree.insertChildAt]
          by_cases hq : q = p
          · subst hq
            simp only [if_true]
            exact (List.perm_insertIdx c (t.children q) hle).nodup_iff.mpr
              (List.nodup_cons.mpr ⟨hcl q, hwf.nodup q⟩)
          · simp only [hq, if_false]; exact hwf.nodup q
        · intro q x hx
          simp only [Tree.insertChildAt] at hx ⊢
          by_cases hq : q = p
          · subst hq
            simp only [if_true] at hx
            have hx1 := (List.perm_insertIdx c (t.children q) hle).mem_iff.mp hx
            by_cases hxc : x = c
            · simp [hxc]
            · simp only [hxc, if_false]
              rcases List.mem_cons.mp hx1 with h1 | h1
              · exact absurd h1 hxc
              · exact hwf.parent_of_child q x h1
          · simp only [hq, if_false] at hx
            have hxc : x ≠ c := fun e => hcl q (e ▸ hx)
            simp only [hxc, if_false]
            exact hwf.parent_of_child q x hx

theorem perform_removeChild_sound (p c : Nat)
    (t t1 : Tree) (e : Event) (hwf : t.WF)
    (h : (Mutation.removeChild p c).perform t = some (t1, e)) :
    e.applyInverse t1 = t ∧ e.apply t = t1 ∧ t1.WF := by
  simp only [Mutation.perform] at h
  split at h
  · rename_i hc
    simp only [Option.some.injEq, Prod.mk.injEq] at h
    obtain ⟨rfl, rfl⟩ := h
    have hpc : t.parent c = some p := hwf.parent_of_child p c hc
    obtain ⟨s, hs, hcard⟩ := hwf.links
    have hcs : c ∈ s := hs c p hpc
    have hpos : 0 < s.card := Finset.card_pos.mpr ⟨c, hcs⟩
    refine ⟨?_, rfl, ⟨?_, ?_, ?_, ?_⟩⟩
    · apply Tree.ext_fields <;> try rfl
      · funext q
        simp only [Event.applyInverse, Tree.removeChildAt, Tree.insertChildAt]
        by_cases hq : q = p
        · subst hq
          simp only [if_true]
          exact insertIdx_eraseIdx_indexOf c (t.children q) hc
        · simp [hq]
      · funext x
        simp only [Event.applyInverse, Tree.removeChildAt, Tree.insertChildAt]
        by_cases hx : x = c
        · subst hx; simp [hpc]
        · simp [hx]
      · change t.count - 1 + 1 = t.count
        omega
    rotate_left 2
    · obtain ⟨r, hr⟩ := hwf.acyclic
      refine ⟨r, ?_⟩
      intro n q hn
      simp only [Tree.removeChildAt] at hn
      by_cases hnc : n = c
      · simp [hnc] at hn
      · simp only [hnc, if_false] at hn
        exact hr n q hn
    · refine ⟨s.erase c, ?_, ?_⟩
      · intro n q hn
        simp only [Tree.removeChildAt] at hn
        by_cases hnc : n = c
        · simp [hnc] at hn
        · simp only [hnc, if_false] at hn
          exact Finset.mem_erase.mpr ⟨hnc, hs n q hn⟩
      · rw [Finset.card_erase_of_mem hcs]
        change s.card - 1 ≤ t.count - 1
        omega
    · intro q
      simp only [Tree.removeChildAt]
      by_cases hq : q = p
      · subst hq
        simp only [if_true]
        exact (List.eraseIdx_sublist _ _).nodup (hwf.nodup q)
      · simp only [hq, if_false]; exact hwf.nodup q
    · intro q x hx
      simp only [Tree.removeChildAt] at hx ⊢
      by_cases hq : q = p
      · subst hq
        simp only [if_true, List.eraseIdx_indexOf_eq_erase] at hx
        have hx1 := ((hwf.nodup q).mem_erase_iff).mp hx
        simp only [hx1.1, if_false]
        exact hwf.parent_of_child q x hx1.2
      · simp only [hq, if_false] at hx
        have hxp := hwf.parent_of_child q x hx
        have hxc : x ≠ c := fun e => by
          rw [e, hpc] at hxp
          exact hq (Option.some.inj hxp).symm
        simp only [hxc, if_false]
        exact hxp
  · cases h

theorem perform_reorderChild_sound (p c : Nat) (newAfter : Option Nat)
    (t t1 : Tree) (e : Event) (hwf : t.WF)
    (h : (Mutation.reorderChild p c newAfter).perform t = some (t1, e)) :
    e.applyInverse t1 = t ∧ e.apply t = t1 ∧ t1.WF := by
  simp only [Mutation.perform] at h
  split at h
  · cases h
  · rename_i hc
    split at h
    · cases h
    · split at h
      · cases h
      · simp only [Option.some.injEq, Prod.mk.injEq] at h
        obtain ⟨rfl, rfl⟩ := h
        have hc1 : c ∈ t.children p := by simpa using hc
        have hnd := hwf.nodup p
        have hnot : c ∉ (t.children p).erase c := hnd.not_mem_erase
        refine ⟨?_, rfl, ⟨?_, ?_, hwf.acyclic, hwf.links⟩⟩
        · apply Tree.ext_fields <;> try rfl
          funext q
          simp only [Event.applyInverse, Tree.moveChild]
          by_cases hq : q = p
          · subst hq
            simp only [if_true]
            rw [erase_insertAfter newAfter c _ hnot]
            exact insertAfter_prevSibling c (t.children q) hnd hc1
          · simp [hq]
        · intro q
          simp only [Tree.moveChild]
          by_cases hq : q = p
          · subst hq
            simp only [if_true]
            exact (insertAfter_perm newAfter c _).nodup_iff.mpr
              (List.nodup_cons.mpr ⟨hnot, hnd.erase c⟩)
          · simp only [hq, if_false]; exact hwf.nodup q
        · intro q x hx
          simp only [Tree.moveChild] at hx ⊢
          by_cases hq : q = p
          · subst hq
            simp only [if_true] at hx
            have hx1 := (insertAfter_perm newAfter c _).mem_iff.mp hx
            rcases List.mem_cons.mp hx1 with h1 | h1
            · subst h1; exact hwf.parent_of_child q x hc1
            · exact hwf.parent_of_child q x (List.mem_of_mem_erase h1)
          · simp only [hq, if_false] at hx
            exact hwf.parent_of_child q x hx

/-- Every mutation that is applied and recorded is undone exactly by the
inverse of its record, is reproduced by the record, and keeps the tree well
formed. -/
theorem perform_sound (m : Mutation) (t t1 : Tree) (e : Event) (hwf : t.WF)
    (h : m.perform t = some (t1, e)) :
    e.applyInverse t1 = t ∧ e.apply t = t1 ∧ t1.WF := by
  cases m with
  | setAttribute n k v => exact perform_setAttribute_sound n k v t t1 e hwf h
  | setContent n v => exact perform_setContent_sound n v t t1 e hwf h
  | appendChild p c after => exact perform_appendChild_sound p c after t t1 e hwf h
  | removeChild p c => exact perform_removeChild_sound p c t t1 e hwf h
  | reorderChild p c newAfter => exact perform_reorderChild_sound p c newAfter t t1 e hwf h

/-- The records logged by a sequence of mutations in an open transaction:
undone in reverse order they lead back to the tree before the first
mutation, replayed in order they lead to the tree after the last. -/
theorem mutateAll_log (ms : List Mutation) :
    ∀ doc : SPDocument, doc.in_transaction = true → doc.tree.WF →
      ∃ recs, (doc.mutateAll ms).log = doc.log ++ recs ∧
        undoLog recs (doc.mutateAll ms).tree = doc.tree ∧
        replayLog recs doc.tree = (doc.mutateAll ms).tree ∧
        (doc.mutateAll ms).tree.WF := by
  induction ms with
  | nil => intro doc _ hwf; exact ⟨[], by simp [SPDocument.mutateAll], rfl, rfl, hwf⟩
  | cons m ms ih =>
    intro doc ht hwf
    cases hp : m.perform doc.tree with
    | none =>
      have hm : doc.mutate m = doc := by simp [SPDocument.mutate, hp]
      simpa [SPDocument.mutateAll, hm] using ih doc ht hwf
    | some r =>
      obtain ⟨t1, e⟩ := r
      obtain ⟨hinv, happ, hwf1⟩ := perform_sound m doc.tree t1 e hwf hp
      have hm : doc.mutate m = { doc with tree := t1, log := doc.log ++ [e] } := by
        simp [SPDocument.mutate, hp, ht]
      obtain ⟨recs, hlog, hundo, hreplay, hwfn⟩ :=
        ih { doc with tree := t1, log := doc.log ++ [e] } ht hwf1
      refine ⟨e :: recs, ?_, ?_, ?_, ?_⟩
      · simp only [SPDocument.mutateAll, hm, hlog, List.append_assoc, List.singleton_append]
      · simp only [SPDocument.mutateAll, hm, undoLog]
        rw [hundo]; exact hinv
      · simp only [SPDocument.mutateAll, hm, replayLog]
        rw [happ]; exact hreplay
      · simpa only [SPDocument.mutateAll, hm] using hwfn

/-! ## Coalescing keeps the meaning of a log -/

theorem mergeRecords_sound (e1 e2 m : Event) (h : mergeRecords e1 e2 = some m) (t : Tree) :
    m.applyInverse t = e1.applyInverse (e2.applyInverse t) ∧
    m.apply t = e2.apply (e1.apply t) := by
  cases e1 <;> cases e2 <;> simp only [mergeRecords] at h <;> try cases h
  · split at h
    · rename_i hnk
      obtain ⟨rfl, rfl⟩ := hnk
      simp only [Option.some.injEq] at h
      subst h
      constructor <;>
      · apply Tree.ext_fields <;> try rfl
        funext n' k'
        simp only [Event.applyInverse, Event.apply, Tree.setAttr]
        split <;> rfl
    · cases h
  · split at h
    · rename_i hn
      subst hn
      simp only [Option.some.injEq] at h
      subst h
      constructor <;>
      · apply Tree.ext_fields <;> try rfl
        funext n'
        simp only [Event.applyInverse, Event.apply, Tree.setContent]
        split <;> rfl
    · cases h

theorem coalesceRecords_cons_nil (e : Event) (rest : Log) (h : coalesceRecords rest = []) :
    coalesceRecords (e :: rest) = [e] := by
  simp only [coalesceRecords, h]

theorem coalesceRecords_cons_keep (e e1 : Event) (rest rest1 : Log)
    (h : coalesceRecords rest = e1 :: rest1) (hm : mergeRecords e e1 = none) :
    coalesceRecords (e :: rest) = e :: e1 :: rest1 := by
  simp only [coalesceRecords, h, hm]

theorem coalesceRecords_cons_merge (e e1 m : Event) (rest rest1 : Log)
    (h : coalesceRecords rest = e1 :: rest1) (hm : mergeRecords e e1 = some m) :
    coalesceRecords (e :: rest) = m :: rest1 := by
  simp only [coalesceRecords, h, hm]

theorem coalesceRecords_sound (l : Log) :
    ∀ t : Tree, undoLog (coalesceRecords l) t = undoLog l t ∧
      replayLog (coalesceRecords l) t = replayLog l t := by
  induction l with
  | nil => intro t; exact ⟨rfl, rfl⟩
  | cons e rest ih =>
    intro t
    have h1 := (ih t).1
    have h2 := (ih (e.apply t)).2
    cases hc : coalesceRecords rest with
    | nil =>
      rw [hc] at h1 h2
      rw [coalesceRecords_cons_nil e rest hc]
      constructor
      · show e.applyInverse (undoLog [] t) = e.applyInverse (undoLog rest t)
        rw [h1]
      · show replayLog [] (e.apply t) = replayLog rest (e.apply t)
        exact h2
    | cons e1 rest1 =>
      rw [hc] at h1 h2
      cases hm : mergeRecords e e1 with
      | none =>
        rw [coalesceRecords_cons_keep e e1 rest rest1 hc hm]
        constructor
        · show e.applyInverse (undoLog (e1 :: rest1) t) = e.applyInverse (undoLog rest t)
          rw [h1]
        · show replayLog (e1 :: rest1) (e.apply t) = replayLog rest (e.apply t)
          exact h2
      | some m =>
        rw [coalesceRecords_cons_merge e e1 m rest rest1 hc hm]
        obtain ⟨hm1, -⟩ := mergeRecords_sound e e1 m hm (undoLog rest1 t)
        obtain ⟨-, hm2⟩ := mergeRecords_sound e e1 m hm t
        constructor
        · show m.applyInverse (undoLog rest1 t) = e.applyInverse (undoLog rest t)
          rw [← h1, hm1]; rfl
        · show replayLog rest1 (m.apply t) = replayLog rest (e.apply t)
          rw [← h2, hm2]; rfl

theorem coalesceRecords_ne_nil (l : Log) (h : l ≠ []) : coalesceRecords l ≠ [] := by
  cases l with
  | nil => exact absurd rfl h
  | cons e rest =>
    cases hc : coalesceRecords rest with
    | nil => rw [coalesceRecords_cons_nil e rest hc]; simp
    | cons e1 rest1 =>
      cases hm : mergeRecords e e1 with
      | none => rw [coalesceRecords_cons_keep e e1 rest rest1 hc hm]; simp
      | some m => rw [coalesceRecords_cons_merge e e1 m rest rest1 hc hm]; simp

/-! ## Trees up to the modified mark of the root -/

theorem mark_eq_iff (r : Nat) (X Y : Tree) :
    markModified r X = markModified r Y ↔
      (X.content = Y.content ∧ X.children = Y.children ∧ X.parent = Y.parent ∧
        X.count = Y.count ∧
        ∀ n k, ¬(n = r ∧ k = "sodipodi:modified") → X.attr n k = Y.attr n k) := by
  constructor
  · intro h
    have hc : (markModified r X).content = (markModified r Y).content := by rw [h]
    have hch : (markModified r X).children = (markModified r Y).children := by rw [h]
    have hp : (markModified r X).parent = (markModified r Y).parent := by rw [h]
    have hn : (markModified r X).count = (markModified r Y).count := by rw [h]
    refine ⟨hc, hch, hp, hn, ?_⟩
    intro n k hnk
    have ha := congrFun (congrFun (congrArg Tree.attr h) n) k
    simpa [markModified, Tree.setAttr, hnk] using ha
  · rintro ⟨h1, h2, h3, h4, h5⟩
    apply Tree.ext_fields
    · funext n k
      simp only [markModified, Tree.setAttr]
      by_cases hnk : n = r ∧ k = "sodipodi:modified"
      · simp [hnk]
      · simp only [hnk, if_false]; exact h5 n k hnk
    · exact h1
    · exact h2
    · exact h3
    · exact h4

theorem mark_idem (r : Nat) (X : Tree) :
    markModified r (markModified r X) = markModified r X := by
  apply (mark_eq_iff r _ X).mpr
  refine ⟨rfl, rfl, rfl, rfl, ?_⟩
  intro n k hnk
  simp [markModified, Tree.setAttr, hnk]

theorem mark_of_marked (r : Nat) (X : Tree)
    (h : X.attr r "sodipodi:modified" = some "true") : markModified r X = X := by
  apply Tree.ext_fields <;> try rfl
  funext n k
  simp only [markModified, Tree.setAttr]
  by_cases hnk : n = r ∧ k = "sodipodi:modified"
  · obtain ⟨rfl, rfl⟩ := hnk; simp [h]
  · simp [hnk]

/-- Records act on trees up to the modified mark of the root. -/
theorem mark_event (r : Nat) (e : Event) (X Y : Tree)
    (h : markModified r X = markModified r Y) :
    markModified r (e.apply X) = markModified r (e.apply Y) ∧
    markModified r (e.applyInverse X) = markModified r (e.applyInverse Y) := by
  obtain ⟨h1, h2, h3, h4, h5⟩ := (mark_eq_iff r X Y).mp h
  cases e with
  | ChildAdded p c i ref =>
    constructor <;> apply (mark_eq_iff r _ _).mpr <;>
      simp only [Event.apply, Event.applyInverse, Tree.insertChildAt, Tree.removeChildAt,
        h1, h2, h3, h4, true_and] <;> exact h5
  | ChildRemoved p c i =>
    constructor <;> apply (mark_eq_iff r _ _).mpr <;>
      simp only [Event.apply, Event.applyInverse, Tree.insertChildAt, Tree.removeChildAt,
        h1, h2, h3, h4, true_and] <;> exact h5
  | ChildOrderChanged p c o n =>
    constructor <;> apply (mark_eq_iff r _ _).mpr <;>
      simp only [Event.apply, Event.applyInverse, Tree.moveChild,
        h1, h2, h3, h4, true_and] <;> exact h5
  | AttributeChanged n k o v =>
    constructor <;> apply (mark_eq_iff r _ _).mpr <;>
      simp only [Event.apply, Event.applyInverse, Tree.setAttr,
        h1, h2, h3, h4, true_and] <;>
      · intro n' k' hnk
        split
        · rfl
        · exact h5 n' k' hnk
  | ContentChanged n o v =>
    constructor <;> apply (mark_eq_iff r _ _).mpr <;>
      simp only [Event.apply, Event.applyInverse, Tree.setContent,
        h1, h2, h3, h4, true_and] <;> exact h5

theorem mark_undoLog (r : Nat) (l : Log) :
    ∀ X Y : Tree, markModified r X = markModified r Y →
      markModified r (undoLog l X) = markModified r (undoLog l Y) := by
  induction l with
  | nil => intro X Y h; exact h
  | cons e rest ih =>
    intro X Y h
    exact (mark_event r e _ _ (ih X Y h)).2

theorem mark_replayLog (r : Nat) (l : Log) :
    ∀ X Y : Tree, markModified r X = markModified r Y →
      markModified r (replayLog l X) = markModified r (replayLog l Y) := by
  induction l with
  | nil => intro X Y h; exact h
  | cons e rest ih =>
    intro X Y h
    exact ih _ _ (mark_event r e X Y h).1

/-! ## What `finish_incomplete_transaction`, undo and redo compute -/

/-- Fields of a document that `finish_incomplete_transaction` never
touches, and the ones it always resets. -/
theorem finish_frame (doc : SPDocument) :
    (finish_incomplete_transaction doc).tree = doc.tree ∧
    (finish_incomplete_transaction doc).redo = doc.redo ∧
    (finish_incomplete_transaction doc).rroot = doc.rroot ∧
    (finish_incomplete_transaction doc).history_size = doc.history_size ∧
    (finish_incomplete_transaction doc).actionkey = doc.actionkey ∧
    (finish_incomplete_transaction doc).sensitive = doc.sensitive ∧
    (finish_incomplete_transaction doc).observed = doc.observed ∧
    (finish_incomplete_transaction doc).log = [] ∧
    (finish_incomplete_transaction doc).in_transaction = false ∧
    (finish_incomplete_transaction doc).partialLog = [] := by
  unfold finish_incomplete_transaction sp_repr_commit_undoable
  by_cases h : coalesceRecords doc.log ≠ [] ∨ doc.partialLog ≠ []
  · simp only [h]; simp
  · simp only [h]
    simp only [not_or, not_not] at h
    simp [h.2]

theorem finish_undo_idle (doc : SPDocument) (hlog : doc.log = [])
    (hpart : doc.partialLog = []) :
    (finish_incomplete_transaction doc).undo = doc.undo := by
  simp [finish_incomplete_transaction, sp_repr_commit_undoable, hlog, hpart, coalesceRecords]

theorem finished_undo_idle (doc : SPDocument) (hlog : doc.log = [])
    (hpart : doc.partialLog = []) :
    (finish_incomplete_transaction
      { doc with sensitive := false, actionkey := none }).undo = doc.undo :=
  finish_undo_idle _ hlog hpart

/-- The document handed to the pop of undo and redo: sensitivity off, action
key dropped, pending records folded into a new undo entry. -/
theorem finished_frame (doc : SPDocument) :
    let f := finish_incomplete_transaction { doc with sensitive := false, actionkey := none }
    f.tree = doc.tree ∧ f.redo = doc.redo ∧ f.rroot = doc.rroot ∧
    f.history_size = doc.history_size ∧ f.actionkey = none ∧ f.observed = doc.observed ∧
    f.log = [] ∧ f.in_transaction = false ∧ f.partialLog = [] := by
  obtain ⟨h1, h2, h3, h4, h5, _, h7, h8, h9, h10⟩ :=
    finish_frame { doc with sensitive := false, actionkey := none }
  exact ⟨h1, h2, h3, h4, h5, h7, h8, h9, h10⟩

/-- What `sp_document_undo` computes when the undo stack it pops is
`L :: rest`. -/
theorem undo_pop (doc : SPDocument) (hs : doc.sensitive = true) (L : Log) (rest : List Log)
    (h : (finish_incomplete_transaction
      { doc with sensitive := false, actionkey := none }).undo = L :: rest) :
    ∃ D, sp_document_undo doc = some (true, D) ∧ D.undo = rest ∧ D.redo = L :: doc.redo ∧
      D.tree = markModified doc.rroot (undoLog L doc.tree) ∧ D.rroot = doc.rroot ∧
      D.history_size = doc.history_size ∧ D.actionkey = none ∧ D.sensitive = true ∧
      D.log = [] ∧ D.in_transaction = true ∧ D.partialLog = [] ∧
      D.observed = doc.observed ++ [.UndoEvent L] := by
  obtain ⟨h1, h2, h3, h4, h5, h7, h8, h9, h10⟩ := finished_frame doc
  unfold sp_document_undo
  simp only [hs, Bool.not_true, Bool.false_eq_true, if_false]
  generalize finish_incomplete_transaction _ = f at *
  simp only [h]
  refine ⟨_, rfl, ?_⟩
  simp [sp_repr_begin_transaction, sp_repr_undo_log, g_slist_remove,
    g_slist_prepend, h9, h8, h10, h1, h2, h3, h4, h5, h7, sp_repr_set_attr, mutate_log_closed]
  rfl

/-- What `sp_document_undo` computes when the undo stack it pops is empty. -/
theorem undo_empty (doc : SPDocument) (hs : doc.sensitive = true)
    (h : (finish_incomplete_transaction
      { doc with sensitive := false, actionkey := none }).undo = []) :
    ∃ D, sp_document_undo doc = some (false, D) ∧ D.undo = [] ∧ D.redo = doc.redo ∧
      D.tree = doc.tree ∧ D.rroot = doc.rroot ∧
      D.history_size = doc.history_size ∧ D.actionkey = none ∧ D.sensitive = true ∧
      D.log = [] ∧ D.in_transaction = true ∧ D.partialLog = [] ∧
      D.observed = doc.observed := by
  obtain ⟨h1, h2, h3, h4, h5, h7, h8, h9, h10⟩ := finished_frame doc
  unfold sp_document_undo
  simp only [hs, Bool.not_true, Bool.false_eq_true, if_false]
  generalize finish_incomplete_transaction _ = f at *
  simp only [h]
  refine ⟨_, rfl, ?_⟩
  simp [sp_repr_begin_transaction, h9, h8, h10, h1, h2, h3, h4, h5, h7, h]

/-- What `sp_document_redo` computes when the redo stack is `L :: rest`. -/
theorem redo_pop (doc : SPDocument) (hs : doc.sensitive = true) (L : Log) (rest : List Log)
    (h : doc.redo = L :: rest) :
    ∃ D, sp_document_redo doc = some (true, D) ∧
      D.undo = L :: (finish_incomplete_transaction
        { doc with sensitive := false, actionkey := none }).undo ∧
      D.redo = rest ∧
      D.tree = markModified doc.rroot (replayLog L doc.tree) ∧ D.rroot = doc.rroot ∧
      D.history_size = doc.history_size ∧ D.actionkey = none ∧ D.sensitive = true ∧
      D.log = [] ∧ D.in_transaction = true ∧ D.partialLog = [] ∧
      D.observed = doc.observed ++ [.RedoEvent L] := by
  obtain ⟨h1, h2, h3, h4, h5, h7, h8, h9, h10⟩ := finished_frame doc
  unfold sp_document_redo
  simp only [hs, Bool.not_true, Bool.false_eq_true, if_false]
  generalize finish_incomplete_transaction _ = f at *
  rw [h] at h2
  simp only [h2]
  refine ⟨_, rfl, ?_⟩
  simp [sp_repr_begin_transaction, sp_repr_replay_log, g_slist_remove,
    g_slist_prepend, h9, h8, h10, h1, h2, h3, h4, h5, h7, sp_repr_set_attr, mutate_log_closed]
  rfl

/-- What `sp_document_redo` computes when the redo stack is empty. -/
theorem redo_empty (doc : SPDocument) (hs : doc.sensitive = true) (h : doc.redo = []) :
    ∃ D, sp_document_redo doc = some (false, D) ∧
      D.undo = (finish_incomplete_transaction
        { doc with sensitive := false, actionkey := none }).undo ∧
      D.redo = [] ∧ D.tree = doc.tree ∧ D.rroot = doc.rroot ∧
      D.history_size = doc.history_size ∧ D.actionkey = none ∧ D.sensitive = true ∧
      D.log = [] ∧ D.in_transaction = true ∧ D.partialLog = [] ∧
      D.observed = doc.observed := by
  obtain ⟨h1, h2, h3, h4, h5, h7, h8, h9, h10⟩ := finished_frame doc
  unfold sp_document_redo
  simp only [hs, Bool.not_true, Bool.false_eq_true, if_false]
  generalize finish_incomplete_transaction _ = f at *
  rw [h] at h2
  simp only [h2]
  refine ⟨_, rfl, ?_⟩
  simp [sp_repr_begin_transaction, h9, h8, h10, h1, h2, h3, h4, h5, h7]

/-! ## What the commit computes -/

theorem clear_redo_loop_eq (l : List Log) :
    ∀ doc : SPDocument, doc.redo = l →
      clear_redo_loop l doc =
        { doc with redo := [], history_size := doc.history_size - l.length } := by
  induction l with
  | nil => intro doc h; cases doc; simp_all [clear_redo_loop]
  | cons e next ih =>
    intro doc _
    rw [clear_redo_loop, ih _ rfl]
    simp only [List.length_cons, Nat.cast_add, Nat.cast_one]
    congr 1
    ring

theorem clear_undo_loop_eq (l : List Log) :
    ∀ doc : SPDocument, doc.undo = l →
      clear_undo_loop l doc =
        { doc with undo := [], history_size := doc.history_size - l.length } := by
  induction l with
  | nil => intro doc h; cases doc; simp_all [clear_undo_loop]
  | cons e next ih =>
    intro doc _
    rw [clear_undo_loop, ih _ rfl]
    simp only [List.length_cons, Nat.cast_add, Nat.cast_one]
    congr 1
    ring

theorem clear_redo_eq (doc : SPDocument) :
    sp_document_clear_redo doc =
      { doc with redo := [], history_size := doc.history_size - doc.redo.length } :=
  clear_redo_loop_eq doc.redo doc rfl

theorem clear_undo_eq (doc : SPDocument) :
    sp_document_clear_undo doc =
      { doc with undo := [], history_size := doc.history_size - doc.undo.length } :=
  clear_undo_loop_eq doc.undo doc rfl

/-- The tree a commit of a non-empty log leaves: the root is marked
modified unless it already carries a `sodipodi:modified` attribute. -/
theorem commit_tree_cases (doc : SPDocument) (t : Tree)
    (h : t = if (doc.tree.attr doc.rroot "sodipodi:modified").isNone then
      markModified doc.rroot doc.tree else doc.tree) :
    t = doc.tree ∨ t = markModified doc.rroot doc.tree := by
  split at h
  · exact Or.inr h
  · exact Or.inl h

/-- A commit with nothing pending: only the redo history is dropped. -/
theorem maybe_done_empty (doc : SPDocument) (key : Option String)
    (hs : doc.sensitive = true) (he : doc.pendingLog = []) :
    ∃ D, sp_document_maybe_done doc key = some D ∧ D.undo = doc.undo ∧ D.redo = [] ∧
      D.history_size = doc.history_size - doc.redo.length ∧ D.actionkey = doc.actionkey ∧
      D.tree = doc.tree ∧ D.rroot = doc.rroot ∧ D.sensitive = true ∧ D.log = [] ∧
      D.in_transaction = true ∧ D.partialLog = [] ∧ D.observed = doc.observed := by
  unfold SPDocument.pendingLog at he
  unfold sp_document_maybe_done
  simp only [hs, Bool.not_true, Bool.false_eq_true, if_false, clear_redo_eq,
    sp_repr_commit_undoable, he, if_true]
  refine ⟨_, rfl, ?_⟩
  simp [sp_repr_begin_transaction]

/-- A commit of a non-empty log that is pushed as a new entry. -/
theorem maybe_done_push (doc : SPDocument) (key : Option String)
    (hs : doc.sensitive = true) (hne : doc.pendingLog ≠ [])
    (hk : key = none ∨ doc.actionkey = none ∨ key ≠ doc.actionkey ∨ doc.undo = []) :
    ∃ D, sp_document_maybe_done doc key = some D ∧
      D.undo = doc.pendingLog :: doc.undo ∧ D.redo = [] ∧
      D.history_size = doc.history_size - doc.redo.length + 1 ∧ D.actionkey = key ∧
      D.tree = (if (doc.tree.attr doc.rroot "sodipodi:modified").isNone then
        markModified doc.rroot doc.tree else doc.tree) ∧
      D.rroot = doc.rroot ∧ D.sensitive = true ∧ D.log = [] ∧
      D.in_transaction = true ∧ D.partialLog = [] ∧
      D.observed = doc.observed ++ [.UndoCommitEvent doc.pendingLog] := by
  unfold SPDocument.pendingLog at hne ⊢
  unfold sp_document_maybe_done
  have hcond : (key.isSome && doc.actionkey.isSome && decide (key = doc.actionkey)
      && !doc.undo.isEmpty) = false := by
    rcases hk with h | h | h | h
    · simp [h]
    · simp [h]
    · simp [h]
    · simp [h]
  simp only [hs, Bool.not_true, Bool.false_eq_true, if_false, clear_redo_eq,
    sp_repr_commit_undoable, hne, hcond]
  refine ⟨_, rfl, ?_⟩
  by_cases hm : (doc.tree.attr doc.rroot "sodipodi:modified").isNone
  · simp [sp_repr_begin_transaction, g_slist_prepend, hm, sp_repr_set_attr, mutate_log_closed,
      markModified]
  · simp [sp_repr_begin_transaction, g_slist_prepend, hm]

/-- A commit of a non-empty log that is merged into the top entry. -/
theorem maybe_done_merge (doc : SPDocument) (k : String) (T : Log) (rest : List Log)
    (hs : doc.sensitive = true) (hne : doc.pendingLog ≠ [])
    (hk : doc.actionkey = some k) (hu : doc.undo = T :: rest) :
    ∃ D, sp_document_maybe_done doc (some k) = some D ∧
      D.undo = sp_repr_coalesce_log T doc.pendingLog :: rest ∧ D.redo = [] ∧
      D.history_size = doc.history_size - doc.redo.length ∧ D.actionkey = some k ∧
      D.tree = (if (doc.tree.attr doc.rroot "sodipodi:modified").isNone then
        markModified doc.rroot doc.tree else doc.tree) ∧
      D.rroot = doc.rroot ∧ D.sensitive = true ∧ D.log = [] ∧
      D.in_transaction = true ∧ D.partialLog = [] ∧
      D.observed = doc.observed := by
  unfold SPDocument.pendingLog at hne ⊢
  unfold sp_document_maybe_done
  simp only [hs, Bool.not_true, Bool.false_eq_true, if_false, clear_redo_eq,
    sp_repr_commit_undoable, hne, hk, hu]
  refine ⟨_, rfl, ?_⟩
  by_cases hm : (doc.tree.attr doc.rroot "sodipodi:modified").isNone
  · simp [sp_repr_begin_transaction, hm, sp_repr_set_attr, mutate_log_closed, markModified]
  · simp [sp_repr_begin_transaction, hm]

/-- Every commit on a sensitive document returns, with the redo stack
empty and a fresh transaction open; a commit of a non-empty log leaves a
non-empty undo stack. -/
theorem maybe_done_returns (doc : SPDocument) (key : Option String)
    (hs : doc.sensitive = true) :
    ∃ D, sp_document_maybe_done doc key = some D ∧ D.redo = [] ∧ D.sensitive = true ∧
      D.log = [] ∧ D.partialLog = [] ∧ D.in_transaction = true ∧
      (doc.pendingLog ≠ [] → D.undo ≠ []) := by
  by_cases he : doc.pendingLog = []
  · obtain ⟨D, hD, -, hr, -, -, -, -, h1, h2, h3, h4, -⟩ := maybe_done_empty doc key hs he
    exact ⟨D, hD, hr, h1, h2, h4, h3, fun h => absurd he h⟩
  · by_cases hk : key = none ∨ doc.actionkey = none ∨ key ≠ doc.actionkey ∨ doc.undo = []
    · obtain ⟨D, hD, hu, hr, -, -, -, -, h1, h2, h3, h4, -⟩ := maybe_done_push doc key hs he hk
      exact ⟨D, hD, hr, h1, h2, h4, h3, fun _ => by rw [hu]; simp⟩
    · simp only [not_or, not_not] at hk
      obtain ⟨hk1, hk2, hk3, hk4⟩ := hk
      obtain ⟨k, rfl⟩ := Option.ne_none_iff_exists'.mp hk1
      obtain ⟨T, rest, hu⟩ := List.exists_cons_of_ne_nil hk4
      obtain ⟨D, hD, hu1, hr, -, -, -, -, h1, h2, h3, h4, -⟩ :=
        maybe_done_merge doc k T rest hs he hk3.symm hu
      exact ⟨D, hD, hr, h1, h2, h4, h3, fun _ => by rw [hu1]; simp⟩

/-! ## Calls that return, and an invariant of reachable documents -/

theorem maybe_done_some_sensitive (doc D : SPDocument) (key : Option String)
    (h : sp_document_maybe_done doc key = some D) : doc.sensitive = true := by
  by_contra hs
  simp [sp_document_maybe_done, hs] at h

theorem undo_some_sensitive (doc : SPDocument) (r : Bool × SPDocument)
    (h : sp_document_undo doc = some r) : doc.sensitive = true := by
  by_contra hs
  simp [sp_document_undo, hs] at h

theorem redo_some_sensitive (doc : SPDocument) (r : Bool × SPDocument)
    (h : sp_document_redo doc = some r) : doc.sensitive = true := by
  by_contra hs
  simp [sp_document_redo, hs] at h

/-- After `sp_document_undo` returns, with either result, the action key is
absent, the document is sensitive and nothing is pending. -/
theorem undo_result (doc : SPDocument) (r : Bool × SPDocument)
    (h : sp_document_undo doc = some r) :
    r.2.actionkey = none ∧ r.2.sensitive = true ∧ r.2.log = [] ∧ r.2.partialLog = [] := by
  have hs := undo_some_sensitive doc r h
  cases hf : (finish_incomplete_transaction
      { doc with sensitive := false, actionkey := none }).undo with
  | nil =>
    obtain ⟨D, hD, -, -, -, -, -, hk, hsD, hl, -, hp, -⟩ := undo_empty doc hs hf
    rw [hD] at h; cases h; exact ⟨hk, hsD, hl, hp⟩
  | cons L rest =>
    obtain ⟨D, hD, -, -, -, -, -, hk, hsD, hl, -, hp, -⟩ := undo_pop doc hs L rest hf
    rw [hD] at h; cases h; exact ⟨hk, hsD, hl, hp⟩

/-- After `sp_document_redo` returns, with either result, the action key is
absent, the document is sensitive and nothing is pending. -/
theorem redo_result (doc : SPDocument) (r : Bool × SPDocument)
    (h : sp_document_redo doc = some r) :
    r.2.actionkey = none ∧ r.2.sensitive = true ∧ r.2.log = [] ∧ r.2.partialLog = [] := by
  have hs := redo_some_sensitive doc r h
  cases hf : doc.redo with
  | nil =>
    obtain ⟨D, hD, -, -, -, -, -, hk, hsD, hl, -, hp, -⟩ := redo_empty doc hs hf
    rw [hD] at h; cases h; exact ⟨hk, hsD, hl, hp⟩
  | cons L rest =>
    obtain ⟨D, hD, -, -, -, -, -, hk, hsD, hl, -, hp, -⟩ := redo_pop doc hs L rest hf
    rw [hD] at h; cases h; exact ⟨hk, hsD, hl, hp⟩

theorem set_undo_sensitive_frame (doc : SPDocument) (s : Bool) :
    (sp_document_set_undo_sensitive doc s).actionkey = doc.actionkey ∧
    (sp_document_set_undo_sensitive doc s).redo = doc.redo ∧
    (sp_document_set_undo_sensitive doc s).undo = doc.undo ∧
    (sp_document_set_undo_sensitive doc s).history_size = doc.history_size := by
  unfold sp_document_set_undo_sensitive sp_repr_begin_transaction sp_repr_commit_undoable
  split
  · exact ⟨rfl, rfl, rfl, rfl⟩
  · split
    · split <;> exact ⟨rfl, rfl, rfl, rfl⟩
    · exact ⟨rfl, rfl, rfl, rfl⟩

theorem cancel_frame (doc D : SPDocument) (h : sp_document_cancel doc = some D) :
    D.actionkey = doc.actionkey ∧ D.redo = doc.redo ∧ D.undo = doc.undo ∧
    D.history_size = doc.history_size := by
  unfold sp_document_cancel at h
  split at h
  · cases h
  · simp only [Option.some.injEq] at h
    subst h
    unfold sp_repr_begin_transaction sp_repr_undo_log sp_repr_rollback
    split <;> split <;> exact ⟨rfl, rfl, rfl, rfl⟩

/-- In every reachable document a recorded action key means an empty redo
stack: the key is only ever set by a commit, which clears the redo stack,
and the only call that refills the redo stack, undo, drops the key. -/
theorem reachable_key_redo (doc : SPDocument) (h : Reachable doc) :
    doc.actionkey = none ∨ doc.redo = [] := by
  induction h with
  | init doc h => exact Or.inl h.2.2.2.1
  | step doc doc1 op _ hrun ih =>
    cases op with
    | edit m =>
      simp only [Op.run, Option.some.injEq] at hrun; subst hrun
      simpa using ih
    | set_undo_sensitive s =>
      simp only [Op.run, Option.some.injEq] at hrun; subst hrun
      obtain ⟨h1, h2, -⟩ := set_undo_sensitive_frame doc s
      rw [h1, h2]; exact ih
    | done =>
      have hs := maybe_done_some_sensitive _ _ _ hrun
      obtain ⟨D, hD, hr, -⟩ := maybe_done_returns doc none hs
      simp only [Op.run, sp_document_done, hD, Option.some.injEq] at hrun
      subst hrun; exact Or.inr hr
    | maybe_done key =>
      have hs := maybe_done_some_sensitive _ _ _ hrun
      obtain ⟨D, hD, hr, -⟩ := maybe_done_returns doc key hs
      simp only [Op.run, hD, Option.some.injEq] at hrun
      subst hrun; exact Or.inr hr
    | reset_key =>
      simp only [Op.run, Option.some.injEq] at hrun; subst hrun
      exact Or.inl rfl
    | cancel =>
      obtain ⟨h1, h2, -⟩ := cancel_frame doc doc1 hrun
      rw [h1, h2]; exact ih
    | undo =>
      cases hr : sp_document_undo doc with
      | none => simp [Op.run, hr] at hrun
      | some r =>
        simp only [Op.run, hr, Option.map_some', Option.some.injEq] at hrun
        subst hrun
        exact Or.inl (undo_result doc r hr).1
    | redo =>
      cases hr : sp_document_redo doc with
      | none => simp [Op.run, hr] at hrun
      | some r =>
        simp only [Op.run, hr, Option.map_some', Option.some.injEq] at hrun
        subst hrun
        exact Or.inl (redo_result doc r hr).1
    | clear_undo =>
      simp only [Op.run, Option.some.injEq, clear_undo_eq] at hrun; subst hrun
      exact ih
    | clear_redo =>
      simp only [Op.run, Option.some.injEq, clear_redo_eq] at hrun; subst hrun
      exact Or.inr rfl

theorem reachable_runOps (ops : List Op) :
    ∀ doc doc1 : SPDocument, Reachable doc → runOps ops doc = some doc1 → Reachable doc1 := by
  induction ops with
  | nil => intro doc doc1 h hr; simp only [runOps, Option.some.injEq] at hr; subst hr; exact h
  | cons op ops ih =>
    intro doc doc1 h hr
    unfold runOps at hr
    cases hop : op.run doc with
    | none => simp [hop] at hr
    | some d =>
      simp only [hop] at hr
      exact ih d doc1 (Reachable.step doc d op h hop) hr

/-- Undo followed by redo, with nothing pending: both succeed and the
stacks are back where they were. -/
theorem undo_then_redo (doc : SPDocument) (L : Log) (rest : List Log)
    (hs : doc.sensitive = true) (hlog : doc.log = []) (hpart : doc.partialLog = [])
    (hundo : doc.undo = L :: rest) :
    ∃ d1 d2, sp_document_undo doc = some (true, d1) ∧
      sp_document_redo d1 = some (true, d2) ∧
      d2.undo = doc.undo ∧ d2.redo = doc.redo ∧ d2.history_size = doc.history_size ∧
      d2.actionkey = none ∧ d2.sensitive = true ∧
      d1.tree = markModified doc.rroot (undoLog L doc.tree) ∧
      d2.tree = markModified doc.rroot (replayLog L d1.tree) := by
  have hf : (finish_incomplete_transaction
      { doc with sensitive := false, actionkey := none }).undo = L :: rest := by
    rw [finished_undo_idle _ hlog hpart]; exact hundo
  obtain ⟨D, hD, hu, hr, ht, hroot, hh, -, hsens, hl, -, hp, -⟩ := undo_pop doc hs L rest hf
  obtain ⟨E, hE, hu2, hr2, ht2, -, hh2, hk2, hs2, -⟩ := redo_pop D hsens L doc.redo hr
  refine ⟨D, E, hD, hE, ?_, hr2, by rw [hh2, hh], hk2, hs2, ht, by rw [ht2, hroot]⟩
  rw [hu2, finished_undo_idle _ hl hp, hu, hundo]

/-- With no action key recorded, the next commit is a push. -/
theorem next_commit_pushes (doc : SPDocument) (hs : doc.sensitive = true)
    (hk : doc.actionkey = none) : NextCommitPushes doc := by
  intro k ms hne
  obtain ⟨h1, -, -, h4, h5, -⟩ := mutateAll_frame ms doc
  obtain ⟨D, hD, hu, -⟩ := maybe_done_push (doc.mutateAll ms) (some k) (by rw [h5, hs]) hne
    (Or.inr (Or.inl (by rw [h4, hk])))
  exact ⟨D, hD, by rw [hu, h1]⟩

/-! ## Claims on `sp_document_undo` and `sp_document_redo` -/

/-- C2: with tracking enabled, nothing uncommitted pending and the undo stack
`L :: rest`, `sp_document_undo` returns TRUE, leaves the undo stack equal to
`rest` and the redo stack equal to `L` (unmodified) on top of the old redo
stack; sensitivity is TRUE again and the root carries
`sodipodi:modified = "true"`. -/
theorem C2_undo_moves_top_log (doc : SPDocument) (L : Log) (rest : List Log)
    (hs : doc.sensitive = true) (hlog : doc.log = []) (hpart : doc.partialLog = [])
    (hundo : doc.undo = L :: rest) :
    ∃ doc1, sp_document_undo doc = some (true, doc1) ∧
      doc1.undo = rest ∧ doc1.redo = L :: doc.redo ∧
      sp_document_get_undo_sensitive doc1 = true ∧
      doc1.rroot = doc.rroot ∧
      doc1.tree.attr doc1.rroot "sodipodi:modified" = some "true" := by
  have hf : (finish_incomplete_transaction
      { doc with sensitive := false, actionkey := none }).undo = L :: rest := by
    rw [finished_undo_idle _ hlog hpart]; exact hundo
  obtain ⟨D, hD, hu, hr, ht, hroot, -, -, hsens, -⟩ := undo_pop doc hs L rest hf
  refine ⟨D, hD, hu, hr, hsens, hroot, ?_⟩
  rw [ht, hroot]
  simp [markModified, Tree.setAttr]

/-- Witness of C2 on a document with one committed log. -/
theorem C2_undo_moves_top_log_witness :
    committedDocument.sensitive = true ∧ committedDocument.log = [] ∧
    committedDocument.partialLog = [] ∧
    committedDocument.undo = [widthChange none (some "10")] :: [] ∧
    ∃ doc1, sp_document_undo committedDocument = some (true, doc1) ∧
      doc1.undo = [] ∧ doc1.redo = [widthChange none (some "10")] :: committedDocument.redo ∧
      sp_document_get_undo_sensitive doc1 = true ∧
      doc1.rroot = committedDocument.rroot ∧
      doc1.tree.attr doc1.rroot "sodipodi:modified" = some "true" :=
  ⟨rfl, rfl, rfl, rfl,
    C2_undo_moves_top_log committedDocument [widthChange none (some "10")] [] rfl rfl rfl rfl⟩

/-- C3: with tracking enabled, nothing uncommitted pending and a non-empty
undo stack, `sp_document_undo` followed by `sp_document_redo` both return
TRUE and leave the undo stack, the redo stack and `history_size` exactly as
they were before the two calls. -/
theorem C3_redo_mirrors_undo (doc : SPDocument)
    (hs : doc.sensitive = true) (hlog : doc.log = []) (hpart : doc.partialLog = [])
    (hundo : doc.undo ≠ []) :
    ∃ doc1 doc2, sp_document_undo doc = some (true, doc1) ∧
      sp_document_redo doc1 = some (true, doc2) ∧
      doc2.undo = doc.undo ∧ doc2.redo = doc.redo ∧
      doc2.history_size = doc.history_size := by
  obtain ⟨L, rest, hLr⟩ := List.exists_cons_of_ne_nil hundo
  obtain ⟨d1, d2, h1, h2, hu, hr, hh, -⟩ := undo_then_redo doc L rest hs hlog hpart hLr
  exact ⟨d1, d2, h1, h2, hu, hr, hh⟩

/-- Witness of C3 on a document with one committed log. -/
theorem C3_redo_mirrors_undo_witness :
    committedDocument.sensitive = true ∧ committedDocument.log = [] ∧
    committedDocument.partialLog = [] ∧ committedDocument.undo ≠ [] ∧
    ∃ doc1 doc2, sp_document_undo committedDocument = some (true, doc1) ∧
      sp_document_redo doc1 = some (true, doc2) ∧
      doc2.undo = committedDocument.undo ∧ doc2.redo = committedDocument.redo ∧
      doc2.history_size = committedDocument.history_size :=
  ⟨rfl, rfl, rfl, by decide, C3_redo_mirrors_undo committedDocument rfl rfl rfl (by decide)⟩

/-- C9 refuted as stated: with tracking enabled and an empty undo stack but
an uncommitted edit pending, `sp_document_undo` returns TRUE and moves the
pending records to the redo stack. -/
theorem C9_counterexample :
    editedDocument.sensitive = true ∧ editedDocument.undo = [] ∧
    (sp_document_undo editedDocument).map Prod.fst = some true ∧
    (sp_document_undo editedDocument).map (fun r => r.2.redo) =
      some [[widthChange none (some "10")]] ∧
    editedDocument.redo = [] ∧
    editedDocument.tree.attr 1 "width" = some "10" ∧
    (sp_document_undo editedDocument).map (fun r => r.2.tree.attr 1 "width") = some none := by
  refine ⟨rfl, rfl, ?_, ?_, rfl, ?_, ?_⟩ <;> decide

/-- C9 (amended): with tracking enabled, no uncommitted records pending and
an empty undo stack, `sp_document_undo` returns FALSE and leaves the tree,
the undo stack and the redo stack unchanged. -/
theorem C9_undo_on_empty_stack (doc : SPDocument)
    (hs : doc.sensitive = true) (hlog : doc.log = []) (hpart : doc.partialLog = [])
    (hundo : doc.undo = []) :
    ∃ doc1, sp_document_undo doc = some (false, doc1) ∧
      doc1.tree = doc.tree ∧ doc1.undo = doc.undo ∧ doc1.redo = doc.redo := by
  have hf : (finish_incomplete_transaction
      { doc with sensitive := false, actionkey := none }).undo = [] := by
    rw [finished_undo_idle _ hlog hpart]; exact hundo
  obtain ⟨D, hD, hu, hr, ht, -⟩ := undo_empty doc hs hf
  exact ⟨D, hD, ht, by rw [hu, hundo], hr⟩

/-- Witness of C9 (amended) on the fresh document. -/
theorem C9_undo_on_empty_stack_witness :
    freshDocument.sensitive = true ∧ freshDocument.log = [] ∧
    freshDocument.partialLog = [] ∧ freshDocument.undo = [] ∧
    ∃ doc1, sp_document_undo freshDocument = some (false, doc1) ∧
      doc1.tree = freshDocument.tree ∧ doc1.undo = freshDocument.undo ∧
      doc1.redo = freshDocument.redo :=
  ⟨rfl, rfl, rfl, rfl, C9_undo_on_empty_stack freshDocument rfl rfl rfl rfl⟩

/-- C10: with tracking enabled, `sp_document_redo` returns, and it returns
FALSE if and only if the redo stack is empty when it is called; in that case
the tree and the redo stack are unchanged. -/
theorem C10_redo_false_iff_empty (doc : SPDocument) (hs : doc.sensitive = true) :
    ∃ ret doc1, sp_document_redo doc = some (ret, doc1) ∧
      (ret = false ↔ doc.redo = []) ∧
      (doc.redo = [] → doc1.tree = doc.tree ∧ doc1.redo = doc.redo) := by
  cases hr : doc.redo with
  | nil =>
    obtain ⟨D, hD, -, hr2, ht, -⟩ := redo_empty doc hs hr
    exact ⟨false, D, hD, by simp, fun _ => ⟨ht, hr2⟩⟩
  | cons L rest =>
    obtain ⟨D, hD, -⟩ := redo_pop doc hs L rest hr
    exact ⟨true, D, hD, by simp, fun h => by simp at h⟩

/-- Witness of C10 on a document with one undone log. -/
theorem C10_redo_false_iff_empty_witness :
    undoneDocument.sensitive = true ∧
    ∃ ret doc1, sp_document_redo undoneDocument = some (ret, doc1) ∧
      (ret = false ↔ undoneDocument.redo = []) ∧
      (undoneDocument.redo = [] →
        doc1.tree = undoneDocument.tree ∧ doc1.redo = undoneDocument.redo) :=
  ⟨rfl, C10_redo_false_iff_empty undoneDocument rfl⟩

/-! ## Claims on the commit -/

/-- C4: with tracking enabled and any redo stack, a commit of a non-empty
log by `sp_document_maybe_done` (any key) or `sp_document_done` leaves the
redo stack empty, and a subsequent `sp_document_redo` returns FALSE. -/
theorem C4_commit_clears_redo (doc : SPDocument) (key : Option String)
    (hs : doc.sensitive = true) (hne : doc.pendingLog ≠ []) :
    (∃ doc1, sp_document_maybe_done doc key = some doc1 ∧ doc1.redo = [] ∧
      ∃ doc2, sp_document_redo doc1 = some (false, doc2)) ∧
    (∃ doc1, sp_document_done doc = some doc1 ∧ doc1.redo = [] ∧
      ∃ doc2, sp_document_redo doc1 = some (false, doc2)) := by
  have key_case : ∀ key, ∃ doc1, sp_document_maybe_done doc key = some doc1 ∧
      doc1.redo = [] ∧ ∃ doc2, sp_document_redo doc1 = some (false, doc2) := by
    intro key
    have _ := hne
    obtain ⟨D, hD, hr, hsD, -⟩ := maybe_done_returns doc key hs
    obtain ⟨E, hE, -⟩ := redo_empty D hsD hr
    exact ⟨D, hD, hr, E, hE⟩
  exact ⟨key_case key, key_case none⟩

/-- Witness of C4: a new edit committed after an undo. -/
theorem C4_commit_clears_redo_witness :
    reeditedDocument.sensitive = true ∧ reeditedDocument.pendingLog ≠ [] ∧
    reeditedDocument.redo ≠ [] ∧
    (∃ doc1, sp_document_maybe_done reeditedDocument (some "drag") = some doc1 ∧
      doc1.redo = [] ∧ ∃ doc2, sp_document_redo doc1 = some (false, doc2)) ∧
    (∃ doc1, sp_document_done reeditedDocument = some doc1 ∧ doc1.redo = [] ∧
      ∃ doc2, sp_document_redo doc1 = some (false, doc2)) :=
  ⟨rfl, by decide, by decide,
    C4_commit_clears_redo reeditedDocument (some "drag") rfl (by decide)⟩

/-- C5: in a (reachable) document with tracking enabled whose undo stack
is `T :: rest` and whose action key is the key `k` passed,
`sp_document_maybe_done (doc, k)` with a non-empty pending log `L` replaces
the top entry by `sp_repr_coalesce_log T L`, leaves the number of undo
entries and `history_size` unchanged and keeps `k` as the action key. -/
theorem C5_merge_on_matching_key (doc : SPDocument) (k : String) (T : Log)
    (rest : List Log) (hreach : Reachable doc) (hs : doc.sensitive = true)
    (hu : doc.undo = T :: rest) (hk : doc.actionkey = some k)
    (hne : doc.pendingLog ≠ []) :
    ∃ doc1, sp_document_maybe_done doc (some k) = some doc1 ∧
      doc1.undo = sp_repr_coalesce_log T doc.pendingLog :: rest ∧
      doc1.undo.length = doc.undo.length ∧
      doc1.history_size = doc.history_size ∧
      doc1.actionkey = some k := by
  obtain ⟨D, hD, hu1, -, hh, hk1, -⟩ := maybe_done_merge doc k T rest hs hne hk hu
  have hredo : doc.redo = [] := by
    rcases reachable_key_redo doc hreach with h | h
    · rw [hk] at h; cases h
    · exact h
  refine ⟨D, hD, hu1, by rw [hu1, hu]; rfl, ?_, hk1⟩
  rw [hh, hredo]; simp

/-- Witness of C5: a second edit after a commit under the key `"drag"`. -/
theorem C5_merge_on_matching_key_witness :
    Reachable keyedDocument ∧ keyedDocument.sensitive = true ∧
    keyedDocument.undo = [widthChange none (some "10")] :: [] ∧
    keyedDocument.actionkey = some "drag" ∧ keyedDocument.pendingLog ≠ [] ∧
    ∃ doc1, sp_document_maybe_done keyedDocument (some "drag") = some doc1 ∧
      doc1.undo = sp_repr_coalesce_log [widthChange none (some "10")]
        keyedDocument.pendingLog :: [] ∧
      doc1.undo.length = keyedDocument.undo.length ∧
      doc1.history_size = keyedDocument.history_size ∧
      doc1.actionkey = some "drag" :=
  have hreach : Reachable keyedDocument :=
    reachable_runOps
      [.edit (setWidth "10"), .maybe_done (some "drag"), .edit (setWidth "20")]
      freshDocument keyedDocument
      (Reachable.init freshDocument ⟨rfl, rfl, rfl, rfl, rfl, rfl, rfl⟩) rfl
  ⟨hreach, rfl, rfl, rfl, by decide,
    C5_merge_on_matching_key keyedDocument "drag" [widthChange none (some "10")] []
      hreach rfl rfl rfl (by decide)⟩

/-- C6 refuted as stated: a commit pushed while the redo stack holds one
entry leaves `history_size` at 1 instead of raising it to 2. -/
theorem C6_counterexample :
    reeditedDocument.sensitive = true ∧ reeditedDocument.pendingLog ≠ [] ∧
    reeditedDocument.history_size = 1 ∧ reeditedDocument.redo.length = 1 ∧
    (sp_document_done reeditedDocument).map (fun d => d.undo) =
      some (reeditedDocument.pendingLog :: reeditedDocument.undo) ∧
    (sp_document_done reeditedDocument).map (fun d => d.history_size) = some 1 := by
  decide

/-- C6 (amended): with tracking enabled and a non-empty pending log `L`, if
the key passed is NULL, or differs from the action key, or the action key is
NULL, or the undo stack is empty, the commit prepends `L` to the undo stack
(older entries untouched), records the passed key as the action key, and
`history_size` becomes its old value minus the number of redo entries
dropped plus 1, hence one more than before when the redo stack was empty;
`sp_document_done` always does so, with the NULL key. -/
theorem C6_push_otherwise (doc : SPDocument) (key : Option String)
    (hs : doc.sensitive = true) (hne : doc.pendingLog ≠ [])
    (hk : key = none ∨ key ≠ doc.actionkey ∨ doc.actionkey = none ∨ doc.undo = []) :
    (∃ doc1, sp_document_maybe_done doc key = some doc1 ∧
      doc1.undo = doc.pendingLog :: doc.undo ∧
      doc1.history_size = doc.history_size - doc.redo.length + 1 ∧
      (doc.redo = [] → doc1.history_size = doc.history_size + 1) ∧
      doc1.actionkey = key) ∧
    (∃ doc1, sp_document_done doc = some doc1 ∧
      doc1.undo = doc.pendingLog :: doc.undo ∧
      doc1.history_size = doc.history_size - doc.redo.length + 1 ∧
      (doc.redo = [] → doc1.history_size = doc.history_size + 1) ∧
      doc1.actionkey = none) := by
  have push : ∀ key : Option String,
      (key = none ∨ doc.actionkey = none ∨ key ≠ doc.actionkey ∨ doc.undo = []) →
      ∃ doc1, sp_document_maybe_done doc key = some doc1 ∧
        doc1.undo = doc.pendingLog :: doc.undo ∧
        doc1.history_size = doc.history_size - doc.redo.length + 1 ∧
        (doc.redo = [] → doc1.history_size = doc.history_size + 1) ∧
        doc1.actionkey = key := by
    intro key hk
    obtain ⟨D, hD, hu, -, hh, hkey, -⟩ := maybe_done_push doc key hs hne hk
    exact ⟨D, hD, hu, hh, fun hr => by rw [hh, hr]; simp, hkey⟩
  refine ⟨push key ?_, push none (Or.inl rfl)⟩
  rcases hk with h | h | h | h
  · exact Or.inl h
  · exact Or.inr (Or.inr (Or.inl h))
  · exact Or.inr (Or.inl h)
  · exact Or.inr (Or.inr (Or.inr h))

/-- Witness of C6 (amended): a new edit committed after an undo, under a
key. -/
theorem C6_push_otherwise_witness :
    reeditedDocument.sensitive = true ∧ reeditedDocument.pendingLog ≠ [] ∧
    (∃ doc1, sp_document_maybe_done reeditedDocument (some "drag") = some doc1 ∧
      doc1.undo = reeditedDocument.pendingLog :: reeditedDocument.undo ∧
      doc1.history_size = reeditedDocument.history_size - reeditedDocument.redo.length + 1 ∧
      (reeditedDocument.redo = [] → doc1.history_size = reeditedDocument.history_size + 1) ∧
      doc1.actionkey = some "drag") ∧
    (∃ doc1, sp_document_done reeditedDocument = some doc1 ∧
      doc1.undo = reeditedDocument.pendingLog :: reeditedDocument.undo ∧
      doc1.history_size = reeditedDocument.history_size - reeditedDocument.redo.length + 1 ∧
      (reeditedDocument.redo = [] → doc1.history_size = reeditedDocument.history_size + 1) ∧
      doc1.actionkey = none) :=
  ⟨rfl, by decide,
    C6_push_otherwise reeditedDocument (some "drag") rfl (by decide) (Or.inr (Or.inl (by decide)))⟩

/-- C8: `sp_document_undo` and `sp_document_redo` return with the action
key absent, whatever their result, so that the next
`sp_document_maybe_done (doc, k)` with a non-empty log pushes a new undo
entry for every key `k`; in particular maybe_done(k); undo; redo;
maybe_done(k) leaves the second commit as a separate entry on top of the
(non-empty) stack left by the first. -/
theorem C8_undo_redo_clear_key (doc : SPDocument) (hs : doc.sensitive = true) :
    (∃ ret doc1, sp_document_undo doc = some (ret, doc1) ∧ doc1.actionkey = none ∧
      NextCommitPushes doc1) ∧
    (∃ ret doc1, sp_document_redo doc = some (ret, doc1) ∧ doc1.actionkey = none ∧
      NextCommitPushes doc1) ∧
    (∀ k : String, doc.pendingLog ≠ [] →
      ∃ d1 d2 d3, sp_document_maybe_done doc (some k) = some d1 ∧
        sp_document_undo d1 = some (true, d2) ∧ sp_document_redo d2 = some (true, d3) ∧
        d1.undo ≠ [] ∧
        ∀ ms : List Mutation, (d3.mutateAll ms).pendingLog ≠ [] →
          ∃ d4, sp_document_maybe_done (d3.mutateAll ms) (some k) = some d4 ∧
            d4.undo = (d3.mutateAll ms).pendingLog :: d1.undo ∧
            d4.undo.length = d1.undo.length + 1) := by
  refine ⟨?_, ?_, ?_⟩
  · cases hu : sp_document_undo doc with
    | none =>
      cases hf : (finish_incomplete_transaction
          { doc with sensitive := false, actionkey := none }).undo with
      | nil => obtain ⟨D, hD, -⟩ := undo_empty doc hs hf; rw [hD] at hu; cases hu
      | cons L rest => obtain ⟨D, hD, -⟩ := undo_pop doc hs L rest hf; rw [hD] at hu; cases hu
    | some r =>
      obtain ⟨hk, hsD, -⟩ := undo_result doc r hu
      exact ⟨r.1, r.2, rfl, hk, next_commit_pushes r.2 hsD hk⟩
  · cases hu : sp_document_redo doc with
    | none =>
      cases hf : doc.redo with
      | nil => obtain ⟨D, hD, -⟩ := redo_empty doc hs hf; rw [hD] at hu; cases hu
      | cons L rest => obtain ⟨D, hD, -⟩ := redo_pop doc hs L rest hf; rw [hD] at hu; cases hu
    | some r =>
      obtain ⟨hk, hsD, -⟩ := redo_result doc r hu
      exact ⟨r.1, r.2, rfl, hk, next_commit_pushes r.2 hsD hk⟩
  · intro k hne
    obtain ⟨d1, h1, -, hs1, hl1, hp1, -, hne1⟩ := maybe_done_returns doc (some k) hs
    obtain ⟨L, rest, hLr⟩ := List.exists_cons_of_ne_nil (hne1 hne)
    obtain ⟨d2, d3, h2, h3, hu3, -, -, hk3, hs3, -⟩ := undo_then_redo d1 L rest hs1 hl1 hp1 hLr
    refine ⟨d1, d2, d3, h1, h2, h3, hne1 hne, ?_⟩
    intro ms hms
    obtain ⟨d4, h4, hu4⟩ := next_commit_pushes d3 hs3 hk3 k ms hms
    rw [hu3] at hu4
    exact ⟨d4, h4, hu4, by rw [hu4]; rfl⟩

/-- Witness of C8 on a document with one uncommitted edit. -/
theorem C8_undo_redo_clear_key_witness :
    editedDocument.sensitive = true ∧
    (∃ ret doc1, sp_document_undo editedDocument = some (ret, doc1) ∧
      doc1.actionkey = none ∧ NextCommitPushes doc1) ∧
    (∃ ret doc1, sp_document_redo editedDocument = some (ret, doc1) ∧
      doc1.actionkey = none ∧ NextCommitPushes doc1) ∧
    (∀ k : String, editedDocument.pendingLog ≠ [] →
      ∃ d1 d2 d3, sp_document_maybe_done editedDocument (some k) = some d1 ∧
        sp_document_undo d1 = some (true, d2) ∧ sp_document_redo d2 = some (true, d3) ∧
        d1.undo ≠ [] ∧
        ∀ ms : List Mutation, (d3.mutateAll ms).pendingLog ≠ [] →
          ∃ d4, sp_document_maybe_done (d3.mutateAll ms) (some k) = some d4 ∧
            d4.undo = (d3.mutateAll ms).pendingLog :: d1.undo ∧
            d4.undo.length = d1.undo.length + 1) :=
  ⟨rfl, C8_undo_redo_clear_key editedDocument rfl⟩

/-! ## Runs of commits under one key -/

/-- A run of commits on a sensitive document returns, with one finalized
log per commit. -/
theorem commitRun_returns (k : String) (batches : List (List Mutation)) :
    ∀ doc : SPDocument, doc.sensitive = true →
      ∃ Ls D, commitRun k batches doc = some (Ls, D) ∧ Ls.length = batches.length := by
  induction batches with
  | nil => intro doc _; exact ⟨[], doc, rfl, rfl⟩
  | cons ms rest ih =>
    intro doc hs
    have hse : (doc.mutateAll ms).sensitive = true := by
      rw [(mutateAll_frame ms doc).2.2.2.2.1, hs]
    obtain ⟨D1, hD1, -, hs1, -⟩ := maybe_done_returns (doc.mutateAll ms) (some k) hse
    obtain ⟨Ls, D, hrun, hlen⟩ := ih D1 hs1
    refine ⟨(doc.mutateAll ms).pendingLog :: Ls, D, ?_, by simp [hlen]⟩
    simp [commitRun, hD1, hrun]

/-- A run of commits under the key that is already recorded, on a stack of
one entry `T`: every non-empty log is merged into that entry. -/
theorem commitRun_keyed (k : String) (batches : List (List Mutation)) :
    ∀ (doc : SPDocument) (T : Log), doc.sensitive = true → doc.undo = [T] →
      doc.actionkey = some k → doc.log = [] → doc.partialLog = [] →
      ∃ Ls D, commitRun k batches doc = some (Ls, D) ∧ D.sensitive = true ∧
        D.log = [] ∧ D.partialLog = [] ∧
        ((∀ L ∈ Ls, L ≠ []) → D.undo = [Ls.foldl sp_repr_coalesce_log T]) := by
  induction batches with
  | nil => intro doc T hs hu _ hl hp; exact ⟨[], doc, rfl, hs, hl, hp, fun _ => hu⟩
  | cons ms rest ih =>
    intro doc T hs hu hk _ _
    obtain ⟨f1, -, -, f4, f5, -⟩ := mutateAll_frame ms doc
    have hse : (doc.mutateAll ms).sensitive = true := by rw [f5, hs]
    by_cases he : (doc.mutateAll ms).pendingLog = []
    · obtain ⟨D1, hD1, hu1, -, -, hk1, -, -, hs1, hl1, -, hp1, -⟩ :=
        maybe_done_empty (doc.mutateAll ms) (some k) hse he
      obtain ⟨Ls, D, hrun, hsD, hlD, hpD, -⟩ :=
        ih D1 T hs1 (by rw [hu1, f1, hu]) (by rw [hk1, f4, hk]) hl1 hp1
      refine ⟨(doc.mutateAll ms).pendingLog :: Ls, D, ?_, hsD, hlD, hpD, ?_⟩
      · simp [commitRun, hD1, hrun]
      · intro hall
        exact absurd he (hall _ (List.mem_cons_self _ _))
    · obtain ⟨D1, hD1, hu1, -, -, hk1, -, -, hs1, hl1, -, hp1, -⟩ :=
        maybe_done_merge (doc.mutateAll ms) k T [] hse he (by rw [f4, hk]) (by rw [f1, hu])
      obtain ⟨Ls, D, hrun, hsD, hlD, hpD, hund⟩ :=
        ih D1 (sp_repr_coalesce_log T (doc.mutateAll ms).pendingLog) hs1 hu1 hk1 hl1 hp1
      refine ⟨(doc.mutateAll ms).pendingLog :: Ls, D, ?_, hsD, hlD, hpD, ?_⟩
      · simp [commitRun, hD1, hrun]
      · intro hall
        rw [hund (fun L hL => hall L (List.mem_cons_of_mem _ hL))]
        rfl

/-- C7: starting from an empty undo stack, `n >= 1` consecutive
`sp_document_maybe_done (doc, k)` calls (tree edits in between, no other
call of the undo API) that each commit a non-empty log leave exactly one
undo entry, the coalescing of the `n` logs in commit order; a single
`sp_document_undo` then empties the undo stack. -/
theorem C7_coalescing_over_a_run (doc : SPDocument) (k : String)
    (batches : List (List Mutation)) (hs : doc.sensitive = true) (hu : doc.undo = [])
    (hn : batches ≠ []) :
    ∃ Ls D, commitRun k batches doc = some (Ls, D) ∧ Ls.length = batches.length ∧
      ((∀ L ∈ Ls, L ≠ []) →
        D.undo = [coalesceAll Ls] ∧
        ∃ D1, sp_document_undo D = some (true, D1) ∧ D1.undo = []) := by
  obtain ⟨ms, rest, rfl⟩ := List.exists_cons_of_ne_nil hn
  obtain ⟨f1, -, -, -, f5, -⟩ := mutateAll_frame ms doc
  have hse : (doc.mutateAll ms).sensitive = true := by rw [f5, hs]
  by_cases he : (doc.mutateAll ms).pendingLog = []
  · obtain ⟨D1, hD1, -, hs1, -⟩ := maybe_done_returns (doc.mutateAll ms) (some k) hse
    obtain ⟨Ls, D, hrun, hlen⟩ := commitRun_returns k rest D1 hs1
    refine ⟨(doc.mutateAll ms).pendingLog :: Ls, D, ?_, by simp [hlen], ?_⟩
    · simp [commitRun, hD1, hrun]
    · intro hall
      exact absurd he (hall _ (List.mem_cons_self _ _))
  · obtain ⟨D1, hD1, hu1, -, -, hk1, -, -, hs1, hl1, -, hp1, -⟩ :=
      maybe_done_push (doc.mutateAll ms) (some k) hse he
        (Or.inr (Or.inr (Or.inr (by rw [f1, hu]))))
    rw [f1, hu] at hu1
    obtain ⟨Ls, D, hrun, hsD, hlD, hpD, hund⟩ :=
      commitRun_keyed k rest D1 (doc.mutateAll ms).pendingLog hs1 hu1 hk1 hl1 hp1
    obtain ⟨Ls2, D2, hrun2, hlen2⟩ := commitRun_returns k rest D1 hs1
    rw [hrun] at hrun2
    simp only [Option.some.injEq, Prod.mk.injEq] at hrun2
    obtain ⟨rfl, rfl⟩ := hrun2
    refine ⟨(doc.mutateAll ms).pendingLog :: Ls, D, ?_, by simp [hlen2], ?_⟩
    · simp [commitRun, hD1, hrun]
    · intro hall
      have hD := hund (fun L hL => hall L (List.mem_cons_of_mem _ hL))
      refine ⟨hD, ?_⟩
      have hf : (finish_incomplete_transaction
          { D with sensitive := false, actionkey := none }).undo =
          [Ls.foldl sp_repr_coalesce_log (doc.mutateAll ms).pendingLog] := by
        rw [finished_undo_idle _ hlD hpD]; exact hD
      obtain ⟨E, hE, huE, -⟩ := undo_pop D hsD _ _ hf
      exact ⟨E, hE, huE⟩

/-- Witness of C7: three drags of `width` committed under the key `"drag"`
on the fresh document; the three logs are non-empty and the single entry
left is the net change of `width`. -/
theorem C7_coalescing_over_a_run_witness :
    freshDocument.sensitive = true ∧ freshDocument.undo = [] ∧
    [[setWidth "10"], [setWidth "20"], [setWidth "30"]] ≠ [] ∧
    (commitRun "drag" [[setWidth "10"], [setWidth "20"], [setWidth "30"]]
        freshDocument).map (fun r => r.1) =
      some [[widthChange none (some "10")], [widthChange (some "10") (some "20")],
        [widthChange (some "20") (some "30")]] ∧
    (commitRun "drag" [[setWidth "10"], [setWidth "20"], [setWidth "30"]]
        freshDocument).map (fun r => r.2.undo) =
      some [[widthChange none (some "30")]] ∧
    ∃ Ls D, commitRun "drag" [[setWidth "10"], [setWidth "20"], [setWidth "30"]]
        freshDocument = some (Ls, D) ∧
      Ls.length = [[setWidth "10"], [setWidth "20"], [setWidth "30"]].length ∧
      ((∀ L ∈ Ls, L ≠ []) →
        D.undo = [coalesceAll Ls] ∧
        ∃ D1, sp_document_undo D = some (true, D1) ∧ D1.undo = []) :=
  ⟨rfl, rfl, by decide, by decide, by decide,
    C7_coalescing_over_a_run freshDocument "drag"
      [[setWidth "10"], [setWidth "20"], [setWidth "30"]] rfl rfl (by decide)⟩

/-! ## Round trip -/

/-- C1 refuted as stated: on the fresh document, one attribute edit
committed with `sp_document_done` and undone leaves a tree that differs from
the tree before the edit: the root now carries `sodipodi:modified`. -/
theorem C1_counterexample :
    freshDocument.sensitive = true ∧ freshDocument.log = [] ∧
    freshDocument.partialLog = [] ∧
    ∃ d1 d2, sp_document_done (freshDocument.mutateAll [setWidth "10"]) = some d1 ∧
      sp_document_undo d1 = some (true, d2) ∧ d2.tree ≠ freshDocument.tree := by
  refine ⟨rfl, rfl, rfl, _, _, rfl, rfl, ?_⟩
  intro h
  have h1 := congrFun (congrFun (congrArg Tree.attr h) 0) "sodipodi:modified"
  revert h1
  decide

/-- C1 (amended): with tracking enabled, nothing uncommitted pending and a
well-formed tree, after any sequence of mutations of which at least one is
recorded, `sp_document_done` returns, `sp_document_undo` then returns TRUE
and leaves the tree equal to the tree before the first mutation with the
root marked `sodipodi:modified = "true"`, and `sp_document_redo` then
returns TRUE and leaves the tree equal to the tree after the last mutation
with the root marked likewise; where the root already carried that mark the
trees are exactly equal. -/
theorem C1_round_trip_up_to_modified_mark (doc : SPDocument) (ms : List Mutation)
    (hs : doc.sensitive = true) (ht : doc.in_transaction = true) (hlog : doc.log = [])
    (hpart : doc.partialLog = []) (hwf : doc.tree.WF)
    (hrec : (doc.mutateAll ms).log ≠ []) :
    ∃ d1 d2 d3, sp_document_done (doc.mutateAll ms) = some d1 ∧
      sp_document_undo d1 = some (true, d2) ∧
      d2.tree = markModified doc.rroot doc.tree ∧
      (doc.tree.attr doc.rroot "sodipodi:modified" = some "true" → d2.tree = doc.tree) ∧
      sp_document_redo d2 = some (true, d3) ∧
      d3.tree = markModified doc.rroot (doc.mutateAll ms).tree ∧
      ((doc.mutateAll ms).tree.attr doc.rroot "sodipodi:modified" = some "true" →
        d3.tree = (doc.mutateAll ms).tree) := by
  obtain ⟨-, -, -, -, f5, f6, -, f8⟩ := mutateAll_frame ms doc
  obtain ⟨recs, hrecs, hundo, hreplay, -⟩ := mutateAll_log ms doc ht hwf
  rw [hlog, List.nil_append] at hrecs
  have hse : (doc.mutateAll ms).sensitive = true := by rw [f5, hs]
  have hP : (doc.mutateAll ms).pendingLog = coalesceRecords (coalesceRecords recs) := by
    simp [SPDocument.pendingLog, sp_repr_coalesce_log, f6, hpart, hrecs]
  have hne : (doc.mutateAll ms).pendingLog ≠ [] := by
    rw [hP]
    exact coalesceRecords_ne_nil _ (coalesceRecords_ne_nil _ (hrecs ▸ hrec))
  have hPundo : ∀ t, undoLog (doc.mutateAll ms).pendingLog t = undoLog recs t := by
    intro t
    rw [hP, (coalesceRecords_sound _ t).1, (coalesceRecords_sound _ t).1]
  have hPreplay : ∀ t, replayLog (doc.mutateAll ms).pendingLog t = replayLog recs t := by
    intro t
    rw [hP, (coalesceRecords_sound _ t).2, (coalesceRecords_sound _ t).2]
  obtain ⟨d1, hd1, hu1, -, -, -, ht1, hr1, hs1, hl1, -, hp1, -⟩ :=
    maybe_done_push (doc.mutateAll ms) none hse hne (Or.inl rfl)
  have hf : (finish_incomplete_transaction
      { d1 with sensitive := false, actionkey := none }).undo =
      (doc.mutateAll ms).pendingLog :: (doc.mutateAll ms).undo := by
    rw [finished_undo_idle _ hl1 hp1]; exact hu1
  obtain ⟨d2, hd2, -, hredo2, ht2, hr2, -, -, hs2, -⟩ := undo_pop d1 hs1 _ _ hf
  obtain ⟨d3, hd3, -, -, ht3, -⟩ := redo_pop d2 hs2 _ _ hredo2
  have hmark1 : markModified doc.rroot d1.tree =
      markModified doc.rroot (doc.mutateAll ms).tree := by
    rcases commit_tree_cases (doc.mutateAll ms) d1.tree ht1 with h | h
    · rw [h]
    · rw [h, f8, mark_idem]
  have hT2 : d2.tree = markModified doc.rroot doc.tree := by
    rw [ht2, hr1, f8, mark_undoLog doc.rroot _ _ _ hmark1, hPundo, hundo]
  have hT3 : d3.tree = markModified doc.rroot (doc.mutateAll ms).tree := by
    rw [ht3, hr2, hr1, f8, hT2,
      mark_replayLog doc.rroot _ _ _ (mark_idem doc.rroot doc.tree), hPreplay, hreplay]
  refine ⟨d1, d2, d3, hd1, hd2, hT2, ?_, hd3, hT3, ?_⟩
  · intro h; rw [hT2, mark_of_marked _ _ h]
  · intro h; rw [hT3, mark_of_marked _ _ h]

/-- Witness of C1 (amended): an attribute edit, a node appended and a content
edit on the fresh document. -/
theorem C1_round_trip_up_to_modified_mark_witness :
    freshDocument.sensitive = true ∧ freshDocument.in_transaction = true ∧
    freshDocument.log = [] ∧ freshDocument.partialLog = [] ∧ freshDocument.tree.WF ∧
    (freshDocument.mutateAll
      [setWidth "10", .appendChild 0 1 none, .setContent 1 (some "text")]).log ≠ [] ∧
    ∃ d1 d2 d3, sp_document_done (freshDocument.mutateAll
        [setWidth "10", .appendChild 0 1 none, .setContent 1 (some "text")]) = some d1 ∧
      sp_document_undo d1 = some (true, d2) ∧
      d2.tree = markModified freshDocument.rroot freshDocument.tree ∧
      (freshDocument.tree.attr freshDocument.rroot "sodipodi:modified" = some "true" →
        d2.tree = freshDocument.tree) ∧
      sp_document_redo d2 = some (true, d3) ∧
      d3.tree = markModified freshDocument.rroot (freshDocument.mutateAll
        [setWidth "10", .appendChild 0 1 none, .setContent 1 (some "text")]).tree ∧
      ((freshDocument.mutateAll
          [setWidth "10", .appendChild 0 1 none, .setContent 1 (some "text")]).tree.attr
          freshDocument.rroot "sodipodi:modified" = some "true" →
        d3.tree = (freshDocument.mutateAll
          [setWidth "10", .appendChild 0 1 none, .setContent 1 (some "text")]).tree) :=
  have hwf : freshDocument.tree.WF :=
    ⟨fun _ => List.nodup_nil, fun _ _ h => absurd h (List.not_mem_nil _),
      ⟨fun _ => 0, fun _ _ h => Option.noConfusion h⟩,
      ⟨∅, fun _ _ h => Option.noConfusion h, Nat.le_refl _⟩⟩
  ⟨rfl, rfl, rfl, rfl, hwf, by decide,
    C1_round_trip_up_to_modified_mark freshDocument
      [setWidth "10", .appendChild 0 1 none, .setContent 1 (some "text")]
      rfl rfl rfl rfl hwf (by decide)⟩

/-! ## Empty commits, cancelling, and the sensitivity assertion -/

theorem pendingLog_idle (doc : SPDocument) (hlog : doc.log = [])
    (hpart : doc.partialLog = []) : doc.pendingLog = [] := by
  simp [SPDocument.pendingLog, sp_repr_coalesce_log, coalesceRecords, hlog, hpart]

/-- C11: with tracking enabled and no uncommitted records,
`sp_document_maybe_done` (any key) and `sp_document_done` return normally,
leave the undo stack (depth and entries) and the action key unchanged, push
and notify nothing, and leave tracking enabled with a fresh, empty
transaction open. -/
theorem C11_empty_log_commit (doc : SPDocument) (key : Option String)
    (hs : doc.sensitive = true) (hlog : doc.log = []) (hpart : doc.partialLog = []) :
    (∃ doc1, sp_document_maybe_done doc key = some doc1 ∧
      doc1.undo = doc.undo ∧ doc1.undo.length = doc.undo.length ∧
      doc1.actionkey = doc.actionkey ∧ doc1.observed = doc.observed ∧
      sp_document_get_undo_sensitive doc1 = true ∧
      doc1.in_transaction = true ∧ doc1.log = [] ∧ doc1.partialLog = []) ∧
    (∃ doc1, sp_document_done doc = some doc1 ∧
      doc1.undo = doc.undo ∧ doc1.undo.length = doc.undo.length ∧
      doc1.actionkey = doc.actionkey ∧ doc1.observed = doc.observed ∧
      sp_document_get_undo_sensitive doc1 = true ∧
      doc1.in_transaction = true ∧ doc1.log = [] ∧ doc1.partialLog = []) := by
  have commit : ∀ key : Option String, ∃ doc1, sp_document_maybe_done doc key = some doc1 ∧
      doc1.undo = doc.undo ∧ doc1.undo.length = doc.undo.length ∧
      doc1.actionkey = doc.actionkey ∧ doc1.observed = doc.observed ∧
      sp_document_get_undo_sensitive doc1 = true ∧
      doc1.in_transaction = true ∧ doc1.log = [] ∧ doc1.partialLog = [] := by
    intro key
    obtain ⟨D, hD, hu, -, -, hk, -, -, hsD, hl, ht, hp, ho⟩ :=
      maybe_done_empty doc key hs (pendingLog_idle doc hlog hpart)
    exact ⟨D, hD, hu, by rw [hu], hk, ho, hsD, ht, hl, hp⟩
  exact ⟨commit key, commit none⟩

/-- Witness of C11: a second commit right after a commit, under a key. -/
theorem C11_empty_log_commit_witness :
    committedDocument.sensitive = true ∧ committedDocument.log = [] ∧
    committedDocument.partialLog = [] ∧
    (∃ doc1, sp_document_maybe_done committedDocument (some "drag") = some doc1 ∧
      doc1.undo = committedDocument.undo ∧
      doc1.undo.length = committedDocument.undo.length ∧
      doc1.actionkey = committedDocument.actionkey ∧
      doc1.observed = committedDocument.observed ∧
      sp_document_get_undo_sensitive doc1 = true ∧
      doc1.in_transaction = true ∧ doc1.log = [] ∧ doc1.partialLog = []) ∧
    (∃ doc1, sp_document_done committedDocument = some doc1 ∧
      doc1.undo = committedDocument.undo ∧
      doc1.undo.length = committedDocument.undo.length ∧
      doc1.actionkey = committedDocument.actionkey ∧
      doc1.observed = committedDocument.observed ∧
      sp_document_get_undo_sensitive doc1 = true ∧
      doc1.in_transaction = true ∧ doc1.log = [] ∧ doc1.partialLog = []) :=
  ⟨rfl, rfl, rfl, C11_empty_log_commit committedDocument (some "drag") rfl rfl rfl⟩

theorem undoLog_append (a b : Log) (t : Tree) :
    undoLog (a ++ b) t = undoLog a (undoLog b t) := by
  induction a with
  | nil => rfl
  | cons e rest ih =>
    show e.applyInverse (undoLog (rest ++ b) t) = e.applyInverse (undoLog rest (undoLog b t))
    rw [ih]

/-- What `sp_document_cancel` computes on a sensitive document. -/
theorem cancel_returns (doc : SPDocument) (hs : doc.sensitive = true) :
    ∃ D, sp_document_cancel doc = some D ∧
      D.tree = undoLog doc.partialLog (undoLog doc.log doc.tree) ∧
      D.log = [] ∧ D.partialLog = [] ∧ D.undo = doc.undo ∧ D.redo = doc.redo ∧
      D.history_size = doc.history_size ∧ D.actionkey = doc.actionkey ∧
      D.sensitive = true ∧ D.in_transaction = true ∧ D.observed = doc.observed := by
  unfold sp_document_cancel
  simp only [hs, Bool.not_true, Bool.false_eq_true, if_false]
  refine ⟨_, rfl, ?_⟩
  by_cases hp : doc.partialLog = []
  · simp [sp_repr_rollback, sp_repr_begin_transaction, hp, undoLog, hs]
  · simp [sp_repr_rollback, sp_repr_begin_transaction, sp_repr_undo_log, hp, hs]

/-- C12: with tracking enabled, `sp_document_cancel` undoes every
uncommitted record in reverse chronological order, the records of the open
transaction first and then those of the saved partial log, leaves nothing
pending, leaves the undo stack, the redo stack, `history_size` and the
action key unchanged, and returns with tracking enabled and a fresh
transaction open. -/
theorem C12_cancel_is_rollback (doc : SPDocument) (hs : doc.sensitive = true) :
    ∃ doc1, sp_document_cancel doc = some doc1 ∧
      doc1.tree = undoLog doc.partialLog (undoLog doc.log doc.tree) ∧
      doc1.tree = undoLog (doc.partialLog ++ doc.log) doc.tree ∧
      doc1.log = [] ∧ doc1.partialLog = [] ∧
      doc1.undo = doc.undo ∧ doc1.redo = doc.redo ∧
      doc1.history_size = doc.history_size ∧ doc1.actionkey = doc.actionkey ∧
      sp_document_get_undo_sensitive doc1 = true ∧ doc1.in_transaction = true := by
  obtain ⟨D, hD, ht, hl, hp, hu, hr, hh, hk, hsD, htr, -⟩ := cancel_returns doc hs
  exact ⟨D, hD, ht, by rw [ht, undoLog_append], hl, hp, hu, hr, hh, hk, hsD, htr⟩

/-- Witness of C12: one edit saved in the partial log and one in the open
transaction; cancelling removes both from the tree. -/
theorem C12_cancel_is_rollback_witness :
    resumedDocument.sensitive = true ∧
    resumedDocument.partialLog = [widthChange none (some "10")] ∧
    resumedDocument.log = [.ContentChanged 1 none (some "text")] ∧
    (sp_document_cancel resumedDocument).map
        (fun d => (d.tree.attr 1 "width", d.tree.content 1)) = some (none, none) ∧
    ∃ doc1, sp_document_cancel resumedDocument = some doc1 ∧
      doc1.tree = undoLog resumedDocument.partialLog
        (undoLog resumedDocument.log resumedDocument.tree) ∧
      doc1.tree = undoLog (resumedDocument.partialLog ++ resumedDocument.log)
        resumedDocument.tree ∧
      doc1.log = [] ∧ doc1.partialLog = [] ∧
      doc1.undo = resumedDocument.undo ∧ doc1.redo = resumedDocument.redo ∧
      doc1.history_size = resumedDocument.history_size ∧
      doc1.actionkey = resumedDocument.actionkey ∧
      sp_document_get_undo_sensitive doc1 = true ∧ doc1.in_transaction = true :=
  ⟨rfl, by decide, by decide, by decide, C12_cancel_is_rollback resumedDocument rfl⟩

/-- C13: `sp_document_maybe_done`, `sp_document_done` and
`sp_document_cancel` fail their assertion, before any state is modified,
exactly when the undo sensitivity of the document is FALSE; when it is TRUE
the assertion does not fire and the call returns. -/
theorem C13_commit_and_cancel_assert_sensitive (doc : SPDocument) (key : Option String) :
    (sp_document_maybe_done doc key = none ↔ doc.sensitive = false) ∧
    (sp_document_done doc = none ↔ doc.sensitive = false) ∧
    (sp_document_cancel doc = none ↔ doc.sensitive = false) := by
  cases hs : doc.sensitive with
  | false =>
    refine ⟨by simp [sp_document_maybe_done, hs],
      by simp [sp_document_done, sp_document_maybe_done, hs],
      by simp [sp_document_cancel, hs]⟩
  | true =>
    obtain ⟨D1, h1, -⟩ := maybe_done_returns doc key hs
    obtain ⟨D2, h2, -⟩ := maybe_done_returns doc none hs
    obtain ⟨D3, h3, -⟩ := cancel_returns doc hs
    refine ⟨by simp [h1], by simp [sp_document_done, h2], by simp [h3]⟩

/-! ## Undo and redo over an unfinished transaction -/

/-- With uncommitted records pending, the document handed to the pop has
them as a new entry on top of the undo stack. -/
theorem finished_undo_pending (doc : SPDocument)
    (h : doc.log ≠ [] ∨ doc.partialLog ≠ []) :
    (finish_incomplete_transaction
      { doc with sensitive := false, actionkey := none }).undo =
      doc.pendingLog :: doc.undo := by
  have hc : coalesceRecords doc.log ≠ [] ∨ doc.partialLog ≠ [] := by
    rcases h with h | h
    · exact Or.inl (coalesceRecords_ne_nil _ h)
    · exact Or.inr h
  simp [finish_incomplete_transaction, sp_repr_commit_undoable, hc, g_slist_prepend,
    SPDocument.pendingLog]

/-- C14 refuted as stated: undo over one committed entry and one pending
edit leaves the committed entry on the undo stack (length 1, not 0) and puts
only the pending records on the redo stack, not a log combined with the top
entry. -/
theorem C14_counterexample :
    pendingOverUndoDocument.sensitive = true ∧
    pendingOverUndoDocument.log = [widthChange (some "10") (some "20")] ∧
    pendingOverUndoDocument.undo = [[widthChange none (some "10")]] ∧
    pendingOverUndoDocument.redo = [] ∧
    (sp_document_undo pendingOverUndoDocument).map (fun r => (r.1, r.2.undo, r.2.redo)) =
      some (true, [[widthChange none (some "10")]],
        [[widthChange (some "10") (some "20")]]) := by
  decide

/-- C14 (amended): when `sp_document_undo` is called with uncommitted
records pending and a non-empty undo stack, the pending records are pushed
as a new, separate top entry and that entry alone is popped, undone and put
on top of the redo stack; the call returns TRUE and the undo stack ends with
exactly the entries, and so the length, it had before the call. -/
theorem C14_pending_records_form_their_own_entry (doc : SPDocument)
    (hs : doc.sensitive = true) (hpend : doc.log ≠ [] ∨ doc.partialLog ≠ [])
    (hu : doc.undo ≠ []) :
    ∃ doc1, sp_document_undo doc = some (true, doc1) ∧
      doc1.undo = doc.undo ∧ doc1.undo.length = doc.undo.length ∧
      doc1.redo.head? = some doc.pendingLog ∧
      doc1.tree = markModified doc.rroot (undoLog doc.pendingLog doc.tree) := by
  have _ := hu
  obtain ⟨D, hD, hu1, hr1, ht1, -⟩ :=
    undo_pop doc hs doc.pendingLog doc.undo (finished_undo_pending doc hpend)
  exact ⟨D, hD, hu1, by rw [hu1], by rw [hr1]; rfl, ht1⟩

/-- Witness of C14 (amended): one committed entry and one pending edit. -/
theorem C14_pending_records_form_their_own_entry_witness :
    pendingOverUndoDocument.sensitive = true ∧
    (pendingOverUndoDocument.log ≠ [] ∨ pendingOverUndoDocument.partialLog ≠ []) ∧
    pendingOverUndoDocument.undo ≠ [] ∧
    ∃ doc1, sp_document_undo pendingOverUndoDocument = some (true, doc1) ∧
      doc1.undo = pendingOverUndoDocument.undo ∧
      doc1.undo.length = pendingOverUndoDocument.undo.length ∧
      doc1.redo.head? = some pendingOverUndoDocument.pendingLog ∧
      doc1.tree = markModified pendingOverUndoDocument.rroot
        (undoLog pendingOverUndoDocument.pendingLog pendingOverUndoDocument.tree) :=
  ⟨rfl, Or.inl (by decide), by decide,
    C14_pending_records_form_their_own_entry pendingOverUndoDocument rfl
      (Or.inl (by decide)) (by decide)⟩

/-- C15 refuted as stated: with an uncommitted edit pending, both
`sp_document_undo` and `sp_document_redo` return instead of aborting, and
each of them changes a stack. -/
theorem C15_counterexample :
    editedDocument.sensitive = true ∧
    editedDocument.log = [widthChange none (some "10")] ∧
    editedDocument.undo = [] ∧ editedDocument.redo = [] ∧
    (sp_document_undo editedDocument).map (fun r => (r.1, r.2.undo, r.2.redo)) =
      some (true, [], [[widthChange none (some "10")]]) ∧
    (sp_document_redo editedDocument).map (fun r => (r.1, r.2.undo, r.2.redo)) =
      some (false, [[widthChange none (some "10")]], []) := by
  decide

/-- C15 (amended): with tracking enabled, calling `sp_document_undo` or
`sp_document_redo` while uncommitted records are pending does not abort: the
call returns after the pending records have been pushed as a new undo
entry.  Undo returns TRUE, with that entry moved to the top of the redo
stack and the undo stack as it was; redo returns with that entry on the undo
stack, and when the redo stack was empty it returns FALSE with that entry on
top of the old undo stack. -/
theorem C15_pending_records_do_not_abort (doc : SPDocument)
    (hs : doc.sensitive = true) (hpend : doc.log ≠ [] ∨ doc.partialLog ≠ []) :
    (∃ doc1, sp_document_undo doc = some (true, doc1) ∧
      doc1.undo = doc.undo ∧ doc1.redo.head? = some doc.pendingLog) ∧
    (∃ ret doc1, sp_document_redo doc = some (ret, doc1) ∧
      doc.pendingLog ∈ doc1.undo ∧
      (doc.redo = [] → ret = false ∧ doc1.undo = doc.pendingLog :: doc.undo ∧
        doc1.redo = [])) := by
  constructor
  · obtain ⟨D, hD, hu1, hr1, -⟩ :=
      undo_pop doc hs doc.pendingLog doc.undo (finished_undo_pending doc hpend)
    exact ⟨D, hD, hu1, by rw [hr1]; rfl⟩
  · cases hr : doc.redo with
    | nil =>
      obtain ⟨D, hD, hu1, hr1, -⟩ := redo_empty doc hs hr
      rw [finished_undo_pending doc hpend] at hu1
      exact ⟨false, D, hD, by rw [hu1]; exact List.mem_cons_self _ _,
        fun _ => ⟨rfl, hu1, hr1⟩⟩
    | cons L rest =>
      obtain ⟨D, hD, hu1, -⟩ := redo_pop doc hs L rest hr
      rw [finished_undo_pending doc hpend] at hu1
      exact ⟨true, D, hD,
        by rw [hu1]; exact List.mem_cons_of_mem _ (List.mem_cons_self _ _),
        fun h => by cases h⟩

/-- Witness of C15 (amended): the fresh document with one uncommitted
edit. -/
theorem C15_pending_records_do_not_abort_witness :
    editedDocument.sensitive = true ∧
    (editedDocument.log ≠ [] ∨ editedDocument.partialLog ≠ []) ∧
    (∃ doc1, sp_document_undo editedDocument = some (true, doc1) ∧
      doc1.undo = editedDocument.undo ∧
      doc1.redo.head? = some editedDocument.pendingLog) ∧
    (∃ ret doc1, sp_document_redo editedDocument = some (ret, doc1) ∧
      editedDocument.pendingLog ∈ doc1.undo ∧
      (editedDocument.redo = [] → ret = false ∧
        doc1.undo = editedDocument.pendingLog :: editedDocument.undo ∧
        doc1.redo = [])) :=
  ⟨rfl, Or.inl (by decide),
    C15_pending_records_do_not_abort editedDocument rfl (Or.inl (by decide))⟩

/-- C16, the code at the failing input: two commits, two undos, then an
uncommitted edit `width = "30"`.  `sp_document_redo` puts the log of that
new edit on the undo stack (under the log it replays) and returns with the
redo stack still holding the log `"10" -> "20"`, recorded before the new
edit. -/
theorem C16_redo_keeps_older_redo_entries :
    branchedDocument.sensitive = true ∧
    branchedDocument.log = [widthChange none (some "30")] ∧
    branchedDocument.undo = [] ∧
    branchedDocument.redo =
      [[widthChange none (some "10")], [widthChange (some "10") (some "20")]] ∧
    (sp_document_redo branchedDocument).map (fun r => (r.1, r.2.undo, r.2.redo)) =
      some (true,
        [[widthChange none (some "10")], [widthChange none (some "30")]],
        [[widthChange (some "10") (some "20")]]) := by
  decide

/-! ## Sensitivity is a boolean, saved and restored by the caller -/

/-- After `sp_document_set_undo_sensitive (doc, b)` the sensitivity is
`b`. -/
theorem set_undo_sensitive_value (doc : SPDocument) (b : Bool) :
    (sp_document_set_undo_sensitive doc b).sensitive = b := by
  unfold sp_document_set_undo_sensitive
  by_cases h : b = doc.sensitive
  · simp [h]
  · cases b <;> simp [h]

/-- Inside a region entered with tracking disabled, tracking stays disabled
after every call and at the end. -/
theorem region_stays_disabled (body : Region) :
    ∀ doc : SPDocument, doc.sensitive = false →
      (body.run doc).1.sensitive = false ∧ ∀ x ∈ (body.run doc).2, x.sensitive = false := by
  induction body with
  | skip => intro doc h; exact ⟨h, fun x hx => by simp [Region.run] at hx⟩
  | edit m rest ih =>
    intro doc h
    have h1 : (doc.mutate m).sensitive = false := by rw [mutate_sensitive, h]
    obtain ⟨hf, htr⟩ := ih (doc.mutate m) h1
    refine ⟨hf, ?_⟩
    intro x hx
    simp only [Region.run, List.mem_cons] at hx
    rcases hx with rfl | hx
    · exact h1
    · exact htr x hx
  | nest inner rest ihi ihr =>
    intro doc h
    have h1 := set_undo_sensitive_value doc false
    obtain ⟨hfi, htri⟩ := ihi _ h1
    have h2 : (sp_document_set_undo_sensitive
        (inner.run (sp_document_set_undo_sensitive doc false)).1
        (sp_document_get_undo_sensitive doc)).sensitive = false := by
      rw [set_undo_sensitive_value]; exact h
    obtain ⟨hfr, htrr⟩ := ihr _ h2
    refine ⟨hfr, ?_⟩
    intro x hx
    simp only [Region.run, List.mem_cons, List.mem_append] at hx
    rcases hx with rfl | hx | rfl | hx
    · exact h1
    · exact htri x hx
    · exact h2
    · exact htrr x hx

/-- C17: the documented save/restore pattern nests.  For every document,
whatever the value `s` of its sensitivity flag, running `saved = get; set
FALSE;` a body of tree edits and properly nested occurrences of the same
pattern`; set saved` ends with the flag equal to `s`, which is also what
`sp_document_get_undo_sensitive` then returns, and after every call inside
the bracketed region the flag is FALSE. -/
theorem C17_save_restore_pattern_nests (body : Region) (doc : SPDocument) :
    (savePattern body doc).1.sensitive = doc.sensitive ∧
    sp_document_get_undo_sensitive (savePattern body doc).1 = doc.sensitive ∧
    ∀ x ∈ (savePattern body doc).2, x.sensitive = false := by
  have h1 := set_undo_sensitive_value doc false
  obtain ⟨-, htr⟩ := region_stays_disabled body _ h1
  have hend : (savePattern body doc).1.sensitive = doc.sensitive := by
    simp only [savePattern]
    rw [set_undo_sensitive_value]
    rfl
  refine ⟨hend, hend, ?_⟩
  intro x hx
  simp only [savePattern, List.mem_cons] at hx
  rcases hx with rfl | hx
  · exact h1
  · exact htr x hx

/-- C18 refuted as stated: after two consecutive disabling calls a single
enabling call enables tracking again. -/
theorem C18_counterexample :
    sp_document_get_undo_sensitive
      (sp_document_set_undo_sensitive
        (sp_document_set_undo_sensitive
          (sp_document_set_undo_sensitive freshDocument false) false) true) = true := by
  decide

/-- C18 (amended): suppression of tracking is a single boolean, not a
count: after any call `sp_document_set_undo_sensitive (doc, b)` the
sensitivity is `b`, so after two consecutive disabling calls one enabling
call enables tracking again, and a second disabling call changes nothing. -/
theorem C18_sensitivity_is_a_boolean (doc : SPDocument) (b : Bool) :
    sp_document_get_undo_sensitive (sp_document_set_undo_sensitive doc b) = b ∧
    sp_document_get_undo_sensitive
      (sp_document_set_undo_sensitive
        (sp_document_set_undo_sensitive
          (sp_document_set_undo_sensitive doc false) false) true) = true ∧
    sp_document_set_undo_sensitive (sp_document_set_undo_sensitive doc false) false =
      sp_document_set_undo_sensitive doc false := by
  refine ⟨set_undo_sensitive_value doc b, set_undo_sensitive_value _ true, ?_⟩
  have h := set_undo_sensitive_value doc false
  generalize sp_document_set_undo_sensitive doc false = d at h
  simp [sp_document_set_undo_sensitive, h]

/-! ## Clearing a stack -/

/-- C19: `sp_document_clear_undo` returns for every undo stack, leaves it
empty, decreases `history_size` by exactly the number of entries removed,
and leaves the redo stack, the pending records, the sensitivity flag and the
tree unchanged; `sp_document_clear_redo` does the same with the two stacks
exchanged. -/
theorem C19_clear_stacks (doc : SPDocument) :
    ((sp_document_clear_undo doc).undo = [] ∧
      (sp_document_clear_undo doc).history_size = doc.history_size - doc.undo.length ∧
      (sp_document_clear_undo doc).redo = doc.redo ∧
      (sp_document_clear_undo doc).log = doc.log ∧
      (sp_document_clear_undo doc).partialLog = doc.partialLog ∧
      (sp_document_clear_undo doc).sensitive = doc.sensitive ∧
      (sp_document_clear_undo doc).tree = doc.tree) ∧
    ((sp_document_clear_redo doc).redo = [] ∧
      (sp_document_clear_redo doc).history_size = doc.history_size - doc.redo.length ∧
      (sp_document_clear_redo doc).undo = doc.undo ∧
      (sp_document_clear_redo doc).log = doc.log ∧
      (sp_document_clear_redo doc).partialLog = doc.partialLog ∧
      (sp_document_clear_redo doc).sensitive = doc.sensitive ∧
      (sp_document_clear_redo doc).tree = doc.tree) := by
  rw [clear_undo_eq, clear_redo_eq]
  exact ⟨⟨rfl, rfl, rfl, rfl, rfl, rfl, rfl⟩, ⟨rfl, rfl, rfl, rfl, rfl, rfl, rfl⟩⟩

/-! ## Strict LIFO -/

/-- A run of `sp_document_done` commits on a document with an empty redo
stack: it returns, leaves nothing pending, and puts every non-empty log on
top of the undo stack, in commit order. -/
theorem doneRun_spec (batches : List (List Mutation)) :
    ∀ doc : SPDocument, doc.sensitive = true → doc.redo = [] →
      (batches = [] → doc.log = [] ∧ doc.partialLog = []) →
      ∃ Ls D, doneRun batches doc = some (Ls, D) ∧ Ls.length = batches.length ∧
        D.sensitive = true ∧ D.log = [] ∧ D.partialLog = [] ∧ D.redo = [] ∧
        ((∀ L ∈ Ls, L ≠ []) → D.undo = Ls.reverse ++ doc.undo) := by
  induction batches with
  | nil =>
    intro doc hs hr hq
    exact ⟨[], doc, rfl, rfl, hs, (hq rfl).1, (hq rfl).2, hr, fun _ => rfl⟩
  | cons ms rest ih =>
    intro doc hs _ _
    obtain ⟨f1, -, -, -, f5, -⟩ := mutateAll_frame ms doc
    have hse : (doc.mutateAll ms).sensitive = true := by rw [f5, hs]
    by_cases he : (doc.mutateAll ms).pendingLog = []
    · obtain ⟨D1, hD1, -, hr1, -, -, -, -, hs1, hl1, -, hp1, -⟩ :=
        maybe_done_empty (doc.mutateAll ms) none hse he
      obtain ⟨Ls, D, hrun, hlen, hsD, hlD, hpD, hrD, -⟩ :=
        ih D1 hs1 hr1 (fun _ => ⟨hl1, hp1⟩)
      refine ⟨(doc.mutateAll ms).pendingLog :: Ls, D, ?_, by simp [hlen],
        hsD, hlD, hpD, hrD, ?_⟩
      · simp [doneRun, sp_document_done, hD1, hrun]
      · intro hall
        exact absurd he (hall _ (List.mem_cons_self _ _))
    · obtain ⟨D1, hD1, hu1, hr1, -, -, -, -, hs1, hl1, -, hp1, -⟩ :=
        maybe_done_push (doc.mutateAll ms) none hse he (Or.inl rfl)
      obtain ⟨Ls, D, hrun, hlen, hsD, hlD, hpD, hrD, hund⟩ :=
        ih D1 hs1 hr1 (fun _ => ⟨hl1, hp1⟩)
      refine ⟨(doc.mutateAll ms).pendingLog :: Ls, D, ?_, by simp [hlen],
        hsD, hlD, hpD, hrD, ?_⟩
      · simp [doneRun, sp_document_done, hD1, hrun]
      · intro hall
        rw [hund (fun L hL => hall L (List.mem_cons_of_mem _ hL)), hu1, f1]
        simp

/-- With nothing pending, `k` undos on a stack of at least `k` entries all
return TRUE and move the `k` top entries, one by one, to the redo stack. -/
theorem undoTimes_spec (k : Nat) :
    ∀ D : SPDocument, D.sensitive = true → D.log = [] → D.partialLog = [] →
      k ≤ D.undo.length →
      ∃ Dk, undoTimes k D = some (List.replicate k true, Dk) ∧
        Dk.undo = D.undo.drop k ∧ Dk.redo = (D.undo.take k).reverse ++ D.redo ∧
        Dk.sensitive = true ∧ Dk.log = [] ∧ Dk.partialLog = [] := by
  induction k with
  | zero => intro D hs hl hp _; exact ⟨D, rfl, rfl, rfl, hs, hl, hp⟩
  | succ k ih =>
    intro D hs hl hp hk
    cases hu : D.undo with
    | nil => rw [hu] at hk; simp at hk
    | cons L rest =>
      rw [hu] at hk
      have hf : (finish_incomplete_transaction
          { D with sensitive := false, actionkey := none }).undo = L :: rest := by
        rw [finished_undo_idle _ hl hp]; exact hu
      obtain ⟨D1, hD1, hu1, hr1, -, -, -, -, hs1, hl1, -, hp1, -⟩ := undo_pop D hs L rest hf
      obtain ⟨Dk, hrun, huk, hrk, hsk, hlk, hpk⟩ :=
        ih D1 hs1 hl1 hp1 (by rw [hu1]; simpa using hk)
      refine ⟨Dk, ?_, ?_, ?_, hsk, hlk, hpk⟩
      · simp [undoTimes, hD1, hrun, List.replicate_succ]
      · rw [huk, hu1]; rfl
      · rw [hrk, hu1, hr1]; simp

/-- With nothing pending, `k` redos on a redo stack of at least `k` entries
all return TRUE and move the `k` top entries, one by one, to the undo
stack. -/
theorem redoTimes_spec (k : Nat) :
    ∀ D : SPDocument, D.sensitive = true → D.log = [] → D.partialLog = [] →
      k ≤ D.redo.length →
      ∃ Dk, redoTimes k D = some (List.replicate k true, Dk) ∧
        Dk.redo = D.redo.drop k ∧ Dk.undo = (D.redo.take k).reverse ++ D.undo ∧
        Dk.sensitive = true ∧ Dk.log = [] ∧ Dk.partialLog = [] := by
  induction k with
  | zero => intro D hs hl hp _; exact ⟨D, rfl, rfl, rfl, hs, hl, hp⟩
  | succ k ih =>
    intro D hs hl hp hk
    cases hr : D.redo with
    | nil => rw [hr] at hk; simp at hk
    | cons L rest =>
      rw [hr] at hk
      obtain ⟨D1, hD1, hu1, hr1, -, -, -, -, hs1, hl1, -, hp1, -⟩ := redo_pop D hs L rest hr
      rw [finished_undo_idle _ hl hp] at hu1
      obtain ⟨Dk, hrun, hrk, huk, hsk, hlk, hpk⟩ :=
        ih D1 hs1 hl1 hp1 (by rw [hr1]; simpa using hk)
      refine ⟨Dk, ?_, ?_, ?_, hsk, hlk, hpk⟩
      · simp [redoTimes, hD1, hrun, List.replicate_succ]
      · rw [hrk, hr1]; rfl
      · rw [huk, hr1, hu1]; simp

/-- C20: starting from empty stacks (with nothing pending unless a commit
follows), `n` commits by `sp_document_done` of non-empty logs `L1..Ln`
leave the undo stack `[Ln, ..., L1]`; then for every `k <= n`, `k` undos all
return TRUE and leave the undo stack `[L(n-k), ..., L1]` and the redo stack
`[L(n-k+1), ..., Ln]` (top first); after `n` undos a further undo returns
FALSE, and `n` redos then all return TRUE and restore the undo stack
`[Ln, ..., L1]`. -/
theorem C20_strict_lifo (doc : SPDocument) (batches : List (List Mutation))
    (hs : doc.sensitive = true) (hu : doc.undo = []) (hr : doc.redo = [])
    (hq : batches = [] → doc.log = [] ∧ doc.partialLog = []) :
    ∃ Ls D, doneRun batches doc = some (Ls, D) ∧ Ls.length = batches.length ∧
      ((∀ L ∈ Ls, L ≠ []) →
        D.undo = Ls.reverse ∧ D.redo = [] ∧
        (∀ k, k ≤ Ls.length →
          ∃ Dk, undoTimes k D = some (List.replicate k true, Dk) ∧
            Dk.undo = (Ls.take (Ls.length - k)).reverse ∧
            Dk.redo = Ls.drop (Ls.length - k)) ∧
        ∃ Dn Df Dr, undoTimes Ls.length D = some (List.replicate Ls.length true, Dn) ∧
          sp_document_undo Dn = some (false, Df) ∧
          redoTimes Ls.length Df = some (List.replicate Ls.length true, Dr) ∧
          Dr.undo = Ls.reverse ∧ Dr.redo = []) := by
  obtain ⟨Ls, D, hrun, hlen, hsD, hlD, hpD, hrD, hund⟩ := doneRun_spec batches doc hs hr hq
  refine ⟨Ls, D, hrun, hlen, ?_⟩
  intro hall
  have hD : D.undo = Ls.reverse := by rw [hund hall, hu, List.append_nil]
  have hDlen : D.undo.length = Ls.length := by rw [hD, List.length_reverse]
  refine ⟨hD, hrD, ?_, ?_⟩
  · intro k hk
    obtain ⟨Dk, hk1, hk2, hk3, -⟩ := undoTimes_spec k D hsD hlD hpD (by rw [hDlen]; exact hk)
    refine ⟨Dk, hk1, ?_, ?_⟩
    · rw [hk2, hD, List.drop_reverse]
    · rw [hk3, hD, hrD, List.append_nil, List.take_reverse, List.reverse_reverse]
  · obtain ⟨Dn, hn1, hn2, hn3, hsn, hln, hpn⟩ :=
      undoTimes_spec Ls.length D hsD hlD hpD (by rw [hDlen])
    have hn2a : Dn.undo = [] := by rw [hn2, hD]; simp
    have hn3a : Dn.redo = Ls := by
      rw [hn3, hD, hrD, List.append_nil, List.take_reverse, List.reverse_reverse]
      simp
    have hf : (finish_incomplete_transaction
        { Dn with sensitive := false, actionkey := none }).undo = [] := by
      rw [finished_undo_idle _ hln hpn]; exact hn2a
    obtain ⟨Df, hf1, hf2, hf3, -, -, -, -, hsf, hlf, -, hpf, -⟩ := undo_empty Dn hsn hf
    obtain ⟨Dr, hr1, hr2, hr3, -⟩ :=
      redoTimes_spec Ls.length Df hsf hlf hpf (by rw [hf3, hn3a])
    refine ⟨Dn, Df, Dr, hn1, hf1, hr1, ?_, ?_⟩
    · rw [hr3, hf3, hn3a, hf2]; simp
    · rw [hr2, hf3, hn3a]; simp

/-- Witness of C20: three edits of `width`, each committed with
`sp_document_done`, on the fresh document; the three logs are non-empty. -/
theorem C20_strict_lifo_witness :
    freshDocument.sensitive = true ∧ freshDocument.undo = [] ∧ freshDocument.redo = [] ∧
    (([[setWidth "10"], [setWidth "20"], [setWidth "30"]] : List (List Mutation)) = [] →
      freshDocument.log = [] ∧ freshDocument.partialLog = []) ∧
    (doneRun [[setWidth "10"], [setWidth "20"], [setWidth "30"]] freshDocument).map
        (fun r => r.1) =
      some [[widthChange none (some "10")], [widthChange (some "10") (some "20")],
        [widthChange (some "20") (some "30")]] ∧
    ∃ Ls D, doneRun [[setWidth "10"], [setWidth "20"], [setWidth "30"]] freshDocument =
        some (Ls, D) ∧
      Ls.length = [[setWidth "10"], [setWidth "20"], [setWidth "30"]].length ∧
      ((∀ L ∈ Ls, L ≠ []) →
        D.undo = Ls.reverse ∧ D.redo = [] ∧
        (∀ k, k ≤ Ls.length →
          ∃ Dk, undoTimes k D = some (List.replicate k true, Dk) ∧
            Dk.undo = (Ls.take (Ls.length - k)).reverse ∧
            Dk.redo = Ls.drop (Ls.length - k)) ∧
        ∃ Dn Df Dr, undoTimes Ls.length D = some (List.replicate Ls.length true, Dn) ∧
          sp_document_undo Dn = some (false, Df) ∧
          redoTimes Ls.length Df = some (List.replicate Ls.length true, Dr) ∧
          Dr.undo = Ls.reverse ∧ Dr.redo = []) :=
  ⟨rfl, rfl, rfl, fun _ => ⟨rfl, rfl⟩, by decide,
    C20_strict_lifo freshDocument [[setWidth "10"], [setWidth "20"], [setWidth "30"]]
      rfl rfl rfl (fun _ => ⟨rfl, rfl⟩)⟩

/-! ## Observers, suppressed phases and the size of the history -/

/-- C21 refuted as stated: a commit of a non-empty log that is merged into
the top entry under the matching key `"drag"` sends no notification: the
trace of the observers is the one from before the call. -/
theorem C21_counterexample :
    keyedDocument.sensitive = true ∧ keyedDocument.actionkey = some "drag" ∧
    keyedDocument.pendingLog = [widthChange (some "10") (some "20")] ∧
    keyedDocument.observed = [.UndoCommitEvent [widthChange none (some "10")]] ∧
    (sp_document_maybe_done keyedDocument (some "drag")).map (fun d => (d.undo, d.observed)) =
      some ([[widthChange none (some "20")]],
        [.UndoCommitEvent [widthChange none (some "10")]]) := by
  decide

/-- C21 (amended): with tracking enabled, a commit of a non-empty log that
is pushed as a new undo entry notifies the commit observers exactly once,
with the committed log; a commit that is merged into the top entry by a
matching key notifies nobody, and neither does a commit of an empty log. -/
theorem C21_commit_notifies_on_push_only (doc : SPDocument) (key : Option String)
    (hs : doc.sensitive = true) :
    (doc.pendingLog ≠ [] →
      (key = none ∨ key ≠ doc.actionkey ∨ doc.actionkey = none ∨ doc.undo = []) →
      ∃ doc1, sp_document_maybe_done doc key = some doc1 ∧
        doc1.observed = doc.observed ++ [.UndoCommitEvent doc.pendingLog]) ∧
    (doc.pendingLog ≠ [] → key ≠ none → key = doc.actionkey → doc.undo ≠ [] →
      ∃ doc1, sp_document_maybe_done doc key = some doc1 ∧ doc1.observed = doc.observed) ∧
    (doc.pendingLog = [] →
      ∃ doc1, sp_document_maybe_done doc key = some doc1 ∧ doc1.observed = doc.observed) := by
  refine ⟨?_, ?_, ?_⟩
  · intro hne hk
    have hk1 : key = none ∨ doc.actionkey = none ∨ key ≠ doc.actionkey ∨ doc.undo = [] := by
      rcases hk with h | h | h | h
      · exact Or.inl h
      · exact Or.inr (Or.inr (Or.inl h))
      · exact Or.inr (Or.inl h)
      · exact Or.inr (Or.inr (Or.inr h))
    obtain ⟨D, hD, -, -, -, -, -, -, -, -, -, -, ho⟩ := maybe_done_push doc key hs hne hk1
    exact ⟨D, hD, ho⟩
  · intro hne hk1 hk2 hu
    obtain ⟨k, rfl⟩ := Option.ne_none_iff_exists'.mp hk1
    obtain ⟨T, rest, hTr⟩ := List.exists_cons_of_ne_nil hu
    obtain ⟨D, hD, -, -, -, -, -, -, -, -, -, -, ho⟩ :=
      maybe_done_merge doc k T rest hs hne hk2.symm hTr
    exact ⟨D, hD, ho⟩
  · intro he
    obtain ⟨D, hD, -, -, -, -, -, -, -, -, -, -, ho⟩ := maybe_done_empty doc key hs he
    exact ⟨D, hD, ho⟩

/-- Witness of C21 (amended): a second edit committed under the key that is
already recorded. -/
theorem C21_commit_notifies_on_push_only_witness :
    keyedDocument.sensitive = true ∧
    (keyedDocument.pendingLog ≠ [] →
      (some "drag" = none ∨ some "drag" ≠ keyedDocument.actionkey ∨
        keyedDocument.actionkey = none ∨ keyedDocument.undo = []) →
      ∃ doc1, sp_document_maybe_done keyedDocument (some "drag") = some doc1 ∧
        doc1.observed = keyedDocument.observed ++
          [.UndoCommitEvent keyedDocument.pendingLog]) ∧
    (keyedDocument.pendingLog ≠ [] → some "drag" ≠ none →
      some "drag" = keyedDocument.actionkey → keyedDocument.undo ≠ [] →
      ∃ doc1, sp_document_maybe_done keyedDocument (some "drag") = some doc1 ∧
        doc1.observed = keyedDocument.observed) ∧
    (keyedDocument.pendingLog = [] →
      ∃ doc1, sp_document_maybe_done keyedDocument (some "drag") = some doc1 ∧
        doc1.observed = keyedDocument.observed) :=
  ⟨rfl, C21_commit_notifies_on_push_only keyedDocument (some "drag") rfl⟩

/-- C25: with tracking enabled, no uncommitted records and a non-empty redo
stack, `sp_document_maybe_done` (any key) and `sp_document_done` leave the
redo stack empty and reduce `history_size` by the number of redo entries,
while the undo stack, the action key and the tree, hence the modified
marker of the root, are left unchanged. -/
theorem C25_empty_commit_discards_redo (doc : SPDocument) (key : Option String)
    (hs : doc.sensitive = true) (hlog : doc.log = []) (hpart : doc.partialLog = [])
    (hr : doc.redo ≠ []) :
    (∃ doc1, sp_document_maybe_done doc key = some doc1 ∧ doc1.redo = [] ∧
      doc1.history_size = doc.history_size - doc.redo.length ∧
      doc1.history_size < doc.history_size ∧
      doc1.undo = doc.undo ∧ doc1.actionkey = doc.actionkey ∧ doc1.tree = doc.tree ∧
      doc1.tree.attr doc1.rroot "sodipodi:modified" =
        doc.tree.attr doc.rroot "sodipodi:modified") ∧
    (∃ doc1, sp_document_done doc = some doc1 ∧ doc1.redo = [] ∧
      doc1.history_size = doc.history_size - doc.redo.length ∧
      doc1.history_size < doc.history_size ∧
      doc1.undo = doc.undo ∧ doc1.actionkey = doc.actionkey ∧ doc1.tree = doc.tree ∧
      doc1.tree.attr doc1.rroot "sodipodi:modified" =
        doc.tree.attr doc.rroot "sodipodi:modified") := by
  have hlen : 0 < doc.redo.length := List.length_pos.mpr hr
  have commit : ∀ key : Option String, ∃ doc1, sp_document_maybe_done doc key = some doc1 ∧
      doc1.redo = [] ∧ doc1.history_size = doc.history_size - doc.redo.length ∧
      doc1.history_size < doc.history_size ∧
      doc1.undo = doc.undo ∧ doc1.actionkey = doc.actionkey ∧ doc1.tree = doc.tree ∧
      doc1.tree.attr doc1.rroot "sodipodi:modified" =
        doc.tree.attr doc.rroot "sodipodi:modified" := by
    intro key
    obtain ⟨D, hD, hu, hre, hh, hk, ht, hroot, -⟩ :=
      maybe_done_empty doc key hs (pendingLog_idle doc hlog hpart)
    refine ⟨D, hD, hre, hh, ?_, hu, hk, ht, by rw [ht, hroot]⟩
    rw [hh]
    omega
  exact ⟨commit key, commit none⟩

/-- Witness of C25: a commit right after an undo, with no edit in between. -/
theorem C25_empty_commit_discards_redo_witness :
    undoneDocument.sensitive = true ∧ undoneDocument.log = [] ∧
    undoneDocument.partialLog = [] ∧ undoneDocument.redo ≠ [] ∧
    (∃ doc1, sp_document_maybe_done undoneDocument (some "drag") = some doc1 ∧
      doc1.redo = [] ∧
      doc1.history_size = undoneDocument.history_size - undoneDocument.redo.length ∧
      doc1.history_size < undoneDocument.history_size ∧
      doc1.undo = undoneDocument.undo ∧ doc1.actionkey = undoneDocument.actionkey ∧
      doc1.tree = undoneDocument.tree ∧
      doc1.tree.attr doc1.rroot "sodipodi:modified" =
        undoneDocument.tree.attr undoneDocument.rroot "sodipodi:modified") ∧
    (∃ doc1, sp_document_done undoneDocument = some doc1 ∧ doc1.redo = [] ∧
      doc1.history_size = undoneDocument.history_size - undoneDocument.redo.length ∧
      doc1.history_size < undoneDocument.history_size ∧
      doc1.undo = undoneDocument.undo ∧ doc1.actionkey = undoneDocument.actionkey ∧
      doc1.tree = undoneDocument.tree ∧
      doc1.tree.attr doc1.rroot "sodipodi:modified" =
        undoneDocument.tree.attr undoneDocument.rroot "sodipodi:modified") :=
  ⟨rfl, rfl, rfl, by decide,
    C25_empty_commit_discards_redo undoneDocument (some "drag") rfl rfl rfl (by decide)⟩

theorem mutateAll_log_closed (ms : List Mutation) :
    ∀ doc : SPDocument, doc.in_transaction = false → (doc.mutateAll ms).log = doc.log := by
  induction ms with
  | nil => intro doc _; rfl
  | cons m ms ih =>
    intro doc h
    have h1 : (doc.mutate m).in_transaction = false := by rw [mutate_in_transaction, h]
    rw [SPDocument.mutateAll, ih _ h1, mutate_log_closed doc m h]

/-- Disabling tracking on a sensitive document closes the transaction and
saves what was pending in the partial log. -/
theorem set_undo_sensitive_off (doc : SPDocument) (hs : doc.sensitive = true) :
    (sp_document_set_undo_sensitive doc false).partialLog = doc.pendingLog ∧
    (sp_document_set_undo_sensitive doc false).log = [] ∧
    (sp_document_set_undo_sensitive doc false).in_transaction = false ∧
    (sp_document_set_undo_sensitive doc false).sensitive = false ∧
    (sp_document_set_undo_sensitive doc false).undo = doc.undo := by
  simp [sp_document_set_undo_sensitive, hs, sp_repr_commit_undoable, SPDocument.pendingLog]

/-- Enabling tracking on an insensitive document with the transaction
closed opens an empty transaction and keeps the partial log. -/
theorem set_undo_sensitive_on (doc : SPDocument) (hs : doc.sensitive = false)
    (ht : doc.in_transaction = false) :
    (sp_document_set_undo_sensitive doc true).partialLog = doc.partialLog ∧
    (sp_document_set_undo_sensitive doc true).log = [] ∧
    (sp_document_set_undo_sensitive doc true).in_transaction = true ∧
    (sp_document_set_undo_sensitive doc true).sensitive = true ∧
    (sp_document_set_undo_sensitive doc true).undo = doc.undo := by
  simp [sp_document_set_undo_sensitive, hs, sp_repr_begin_transaction, ht]

/-- C23: records made before tracking is suppressed are not lost.  With
tracking enabled, after records are logged (`ms1`), tracking is disabled,
the tree is mutated at will (`ms2`), tracking is enabled again and further
edits are made (`ms3`), `sp_document_done` pushes on the old undo stack the
coalescing of the records logged before the suppression followed by the
records logged after it; the suppressed phase logs nothing and leaves the
saved log as it was. -/
theorem C23_records_before_suppression_are_kept (doc : SPDocument)
    (ms1 ms2 ms3 : List Mutation) (hs : doc.sensitive = true)
    (h1 : (doc.mutateAll ms1).pendingLog ≠ []) :
    (afterSuppressedEdits doc ms1 ms2).log = [] ∧
    (afterSuppressedEdits doc ms1 ms2).partialLog = (doc.mutateAll ms1).pendingLog ∧
    (afterResuming doc ms1 ms2).log = [] ∧
    (afterResuming doc ms1 ms2).partialLog = (doc.mutateAll ms1).pendingLog ∧
    ∃ doc1, sp_document_done ((afterResuming doc ms1 ms2).mutateAll ms3) = some doc1 ∧
      doc1.undo =
        sp_repr_coalesce_log (doc.mutateAll ms1).pendingLog
          (coalesceRecords ((afterResuming doc ms1 ms2).mutateAll ms3).log) :: doc.undo := by
  obtain ⟨a1, -, -, -, a5, -⟩ := mutateAll_frame ms1 doc
  obtain ⟨b1, b2, b3, b4, b5⟩ := set_undo_sensitive_off (doc.mutateAll ms1) (by rw [a5, hs])
  obtain ⟨c1, -, -, -, c5, c6, c7, -⟩ :=
    mutateAll_frame ms2 (sp_document_set_undo_sensitive (doc.mutateAll ms1) false)
  have hlog3 : (afterSuppressedEdits doc ms1 ms2).log = [] := by
    unfold afterSuppressedEdits
    rw [mutateAll_log_closed ms2 _ b3, b2]
  have hpart3 : (afterSuppressedEdits doc ms1 ms2).partialLog =
      (doc.mutateAll ms1).pendingLog := by
    unfold afterSuppressedEdits
    rw [c6, b1]
  obtain ⟨d1, d2, d3, d4, d5⟩ := set_undo_sensitive_on (afterSuppressedEdits doc ms1 ms2)
    (by unfold afterSuppressedEdits; rw [c5, b4]) (by unfold afterSuppressedEdits; rw [c7, b3])
  obtain ⟨e1, -, -, -, e5, e6, -⟩ := mutateAll_frame ms3 (afterResuming doc ms1 ms2)
  have hpend : ((afterResuming doc ms1 ms2).mutateAll ms3).pendingLog =
      sp_repr_coalesce_log (doc.mutateAll ms1).pendingLog
        (coalesceRecords ((afterResuming doc ms1 ms2).mutateAll ms3).log) := by
    rw [SPDocument.pendingLog, e6]
    unfold afterResuming
    rw [d1, hpart3]
  have hne : ((afterResuming doc ms1 ms2).mutateAll ms3).pendingLog ≠ [] := by
    rw [hpend]
    unfold sp_repr_coalesce_log
    apply coalesceRecords_ne_nil
    intro h
    exact h1 (List.append_eq_nil.mp h).1
  obtain ⟨D, hD, hu, -⟩ := maybe_done_push ((afterResuming doc ms1 ms2).mutateAll ms3) none
    (by rw [e5]; exact d4) hne (Or.inl rfl)
  refine ⟨hlog3, hpart3, d2, by unfold afterResuming; rw [d1, hpart3], D, hD, ?_⟩
  rw [hu, hpend, e1]
  unfold afterResuming
  rw [d5]
  unfold afterSuppressedEdits
  rw [c1, b5, a1]

/-- Witness of C23: `width` set to `"10"`, a content edit made while
tracking is disabled, `width` set to `"20"`; the entry pushed is the net
change of `width` and has no record of the content edit. -/
theorem C23_records_before_suppression_are_kept_witness :
    freshDocument.sensitive = true ∧
    (freshDocument.mutateAll [setWidth "10"]).pendingLog ≠ [] ∧
    (sp_document_done ((afterResuming freshDocument [setWidth "10"]
        [.setContent 1 (some "text")]).mutateAll [setWidth "20"])).map
      (fun d => (d.undo, d.tree.content 1)) =
      some ([[widthChange none (some "20")]], some "text") ∧
    (afterSuppressedEdits freshDocument [setWidth "10"] [.setContent 1 (some "text")]).log
      = [] ∧
    (afterSuppressedEdits freshDocument [setWidth "10"]
      [.setContent 1 (some "text")]).partialLog =
      (freshDocument.mutateAll [setWidth "10"]).pendingLog ∧
    (afterResuming freshDocument [setWidth "10"] [.setContent 1 (some "text")]).log = [] ∧
    (afterResuming freshDocument [setWidth "10"] [.setContent 1 (some "text")]).partialLog =
      (freshDocument.mutateAll [setWidth "10"]).pendingLog ∧
    ∃ doc1, sp_document_done ((afterResuming freshDocument [setWidth "10"]
        [.setContent 1 (some "text")]).mutateAll [setWidth "20"]) = some doc1 ∧
      doc1.undo =
        sp_repr_coalesce_log (freshDocument.mutateAll [setWidth "10"]).pendingLog
          (coalesceRecords ((afterResuming freshDocument [setWidth "10"]
            [.setContent 1 (some "text")]).mutateAll [setWidth "20"]).log) ::
          freshDocument.undo :=
  ⟨rfl, by decide, by decide,
    C23_records_before_suppression_are_kept freshDocument [setWidth "10"]
      [.setContent 1 (some "text")] [setWidth "20"] rfl (by decide)⟩

/-- C24, the code at the failing input: the fresh document (both stacks
empty, `history_size = 0`), one tree edit, then `sp_document_undo`.  The
document is reachable through the API and holds one redo entry while
`history_size` is still 0; clearing the redo stack then drives
`history_size` to -1. -/
theorem C24_history_size_misses_unfinished_transaction :
    Reachable danglingDocument ∧
    danglingDocument.undo.length = 0 ∧ danglingDocument.redo.length = 1 ∧
    danglingDocument.history_size = 0 ∧
    (sp_document_clear_redo danglingDocument).history_size = -1 :=
  ⟨reachable_runOps [.edit (setWidth "10"), .undo] freshDocument danglingDocument
      (Reachable.init freshDocument ⟨rfl, rfl, rfl, rfl, rfl, rfl, rfl⟩) rfl,
    by decide, by decide, by decide, by decide⟩

/-! ## Boolean arguments of actions -/

/-- C28, the code at the failing input: for the boolean action `"toggle"`
the argument `"1"` is recorded as false and the argument `"0"` as true; only
`"true"`, `"false"` and the empty argument follow the usual convention.  No
exception is involved, whatever `std::stoi` and `std::stod` do. -/
theorem C28_boolean_digits_are_swapped (stoi : String → Option Int)
    (stod : String → Option Float) :
    parse_action_token sampleActions stoi stod "toggle" "1"
      = some [("toggle", .boolean false)] ∧
    parse_action_token sampleActions stoi stod "toggle" "0"
      = some [("toggle", .boolean true)] ∧
    parse_action_token sampleActions stoi stod "toggle" "true"
      = some [("toggle", .boolean true)] ∧
    parse_action_token sampleActions stoi stod "toggle" "false"
      = some [("toggle", .boolean false)] ∧
    parse_action_token sampleActions stoi stod "toggle" ""
      = some [("toggle", .boolean true)] ∧
    parse_actions sampleActions stoi stod [("toggle", "1"), ("toggle", "0")] [] =
      ([("toggle", .boolean false), ("toggle", .boolean true)], false) ∧
    parse_boolean_value "1" = (false, false) ∧ parse_boolean_value "0" = (true, false) :=
  ⟨rfl, rfl, rfl, rfl, rfl, rfl, rfl, rfl⟩

/-! ## References of `use` elements -/

theorem acceptObject_loop_null (tree : SPObjectTree) (obj fuel : Nat) :
    acceptObject_loop tree obj fuel none = some true := by
  cases fuel <;> rfl

/-- With enough iterations allowed, the walk from `iter` returns, and it
returns true exactly when `obj` is neither `iter` nor one of its
ancestors. -/
theorem acceptObject_loop_spec (tree : SPObjectTree) (obj : Nat) (depth : Nat → Nat)
    (hd : ∀ n p, tree.parent n = some p → depth p < depth n) (fuel : Nat) :
    ∀ iter, depth iter < fuel →
      ∃ b, acceptObject_loop tree obj fuel (some iter) = some b ∧
        (b = true ↔ ¬ SelfOrAncestor tree obj iter) := by
  induction fuel with
  | zero => intro iter h; exact absurd h (Nat.not_lt_zero _)
  | succ fuel ih =>
    intro iter h
    by_cases hio : iter = obj
    · refine ⟨false, by simp [acceptObject_loop, hio], ?_⟩
      subst hio
      simp only [Bool.false_eq_true, false_iff, not_not]
      exact SelfOrAncestor.self
    · cases hp : tree.parent iter with
      | none =>
        refine ⟨true, by simp [acceptObject_loop, hio, hp, acceptObject_loop_null], ?_⟩
        simp only [true_iff]
        intro hsa
        cases hsa with
        | self => exact hio rfl
        | up _ p h1 _ => rw [hp] at h1; cases h1
      | some p =>
        have hdp : depth p < fuel := by
          have := hd iter p hp
          omega
        obtain ⟨b, hb, hiff⟩ := ih p hdp
        refine ⟨b, by simp [acceptObject_loop, hio, hp, hb], ?_⟩
        rw [hiff]
        constructor
        · intro hn hsa
          cases hsa with
          | self => exact hio rfl
          | up _ q h1 h2 =>
            rw [hp] at h1
            cases h1
            exact hn h2
        · intro hn hsa
          exact hn (SelfOrAncestor.up iter p hp hsa)

/-- C27: in an acyclic object tree the ancestor walk of
`SPUseReference::_acceptObject` terminates (every large enough bound on
the iterations gives a result), and the result is true if and only if `obj`
is an item and is neither the owner nor an ancestor of the owner. -/
theorem C27_acceptObject_refuses_self_and_ancestors (tree : SPObjectTree)
    (owner obj : Nat) (hac : tree.Acyclic) :
    ∃ fuel0, ∀ fuel, fuel0 ≤ fuel →
      ∃ b, SPUseReference._acceptObject tree (some owner) fuel (some obj) = some b ∧
        (b = true ↔ (tree.is_item obj = true ∧ ¬ SelfOrAncestor tree obj owner)) := by
  obtain ⟨depth, hd⟩ := hac
  refine ⟨depth owner + 1, ?_⟩
  intro fuel hfuel
  by_cases hitem : tree.is_item obj = true
  · obtain ⟨b, hb, hiff⟩ := acceptObject_loop_spec tree obj depth hd fuel owner (by omega)
    refine ⟨b, by simp [SPUseReference._acceptObject, hitem, hb], ?_⟩
    rw [hiff]
    simp [hitem]
  · refine ⟨false, by simp [SPUseReference._acceptObject, hitem], ?_⟩
    simp [hitem]

/-- Witness of C27 on a chain of items: object 1 is an ancestor of the
owner 3 and is refused, object 5 is accepted. -/
theorem C27_acceptObject_refuses_self_and_ancestors_witness :
    chainTree.Acyclic ∧
    SPUseReference._acceptObject chainTree (some 3) 8 (some 1) = some false ∧
    SPUseReference._acceptObject chainTree (some 3) 8 (some 3) = some false ∧
    SPUseReference._acceptObject chainTree (some 3) 8 (some 5) = some true ∧
    ∃ fuel0, ∀ fuel, fuel0 ≤ fuel →
      ∃ b, SPUseReference._acceptObject chainTree (some 3) fuel (some 1) = some b ∧
        (b = true ↔ (chainTree.is_item 1 = true ∧ ¬ SelfOrAncestor chainTree 1 3)) :=
  have hac : chainTree.Acyclic :=
    ⟨fun n => n, fun n p h => by
      by_cases hn : n = 0
      · simp [chainTree, hn] at h
      · simp only [chainTree, hn, if_false, Option.some.injEq] at h
        show p < n
        omega⟩
  ⟨hac, by decide, by decide, by decide,
    C27_acceptObject_refuses_self_and_ancestors chainTree 3 1 hac⟩

/-! ## The palette number parser -/

theorem decimalValue_nil : decimalValue [] = 0 := by
  simp [decimalValue]

theorem decimalValue_cons (c : Nat) (ds : List Nat) :
    decimalValue (c :: ds) = (c - 48) * 10 ^ ds.length + decimalValue ds := by
  simp only [decimalValue, List.reverse_cons, List.map_append, List.map_cons, List.map_nil,
    Nat.ofDigits_append, Nat.ofDigits_singleton, List.length_map, List.length_reverse]
  ring

/-- The loop of `parseNum` leaves the cursor right after the maximal prefix
of digits, whatever the value. -/
theorem parseNum_loop_cursor (str : List Nat) :
    ∀ val : Int, (parseNum_loop str val).2 = str.dropWhile isDecimalDigit := by
  induction str with
  | nil => intro val; rfl
  | cons c rest ih =>
    intro val
    by_cases hc : 48 ≤ c ∧ c ≤ 57
    · have hd : isDecimalDigit c = true := by simp [isDecimalDigit, hc]
      simp only [parseNum_loop, hc, and_self, if_true, List.dropWhile_cons, hd]
      exact ih _
    · have hd : isDecimalDigit c = false := by simp [isDecimalDigit, hc]
      simp [parseNum_loop, hc, List.dropWhile_cons, hd]

/-- The loop of `parseNum` accumulates the decimal value of the digit
prefix as long as that value fits in an `int`. -/
theorem parseNum_loop_value (str : List Nat) :
    ∀ val : Nat,
      val * 10 ^ (str.takeWhile isDecimalDigit).length +
        decimalValue (str.takeWhile isDecimalDigit) ≤ INT_MAX →
      (parseNum_loop str (val : Int)).1 =
        ((val * 10 ^ (str.takeWhile isDecimalDigit).length +
          decimalValue (str.takeWhile isDecimalDigit) : Nat) : Int) := by
  induction str with
  | nil => intro val _; simp [parseNum_loop, decimalValue_nil]
  | cons c rest ih =>
    intro val h
    by_cases hc : 48 ≤ c ∧ c ≤ 57
    · have hd : isDecimalDigit c = true := by simp [isDecimalDigit, hc]
      simp only [List.takeWhile_cons, hd, if_true, List.length_cons, decimalValue_cons] at h ⊢
      have hpos : 0 < 10 ^ (List.takeWhile isDecimalDigit rest).length := by positivity
      have h3 : (val * 10 + (c - 48)) * 10 ^ (List.takeWhile isDecimalDigit rest).length =
          val * 10 ^ ((List.takeWhile isDecimalDigit rest).length + 1) +
            (c - 48) * 10 ^ (List.takeWhile isDecimalDigit rest).length := by ring
      have hle : val * 10 + (c - 48) ≤ INT_MAX := by
        have h2 : val * 10 + (c - 48) ≤
            (val * 10 + (c - 48)) * 10 ^ (List.takeWhile isDecimalDigit rest).length :=
          Nat.le_mul_of_pos_right _ hpos
        omega
      have hwrap : wrapInt ((val : Int) * 10 + ((c : Int) - 48)) =
          ((val * 10 + (c - 48) : Nat) : Int) := by
        unfold wrapInt
        unfold INT_MAX at hle
        omega
      have hih := ih (val * 10 + (c - 48)) (by omega)
      simp only [parseNum_loop, hc, and_self, if_true, hwrap, hih]
      congr 1
      omega
    · have hd : isDecimalDigit c = false := by simp [isDecimalDigit, hc]
      simp [parseNum_loop, hc, List.takeWhile_cons, hd, decimalValue_nil]

theorem parseNum_cursor (str : List Nat) :
    (parseNum str).2.2 = str.dropWhile isDecimalDigit := by
  simp only [parseNum]
  exact parseNum_loop_cursor str 0

theorem parseNum_flag (str : List Nat) :
    (parseNum str).1 =
      !(decide (cursorChar (str.dropWhile isDecimalDigit) = 0) ||
        decide (cursorChar (str.dropWhile isDecimalDigit) = 32) ||
        decide (cursorChar (str.dropWhile isDecimalDigit) = 9) ||
        decide (cursorChar (str.dropWhile isDecimalDigit) = 13) ||
        decide (cursorChar (str.dropWhile isDecimalDigit) = 10)) := by
  simp only [parseNum, parseNum_loop_cursor str 0]

theorem parseNum_value (str : List Nat)
    (hfit : decimalValue (str.takeWhile isDecimalDigit) ≤ INT_MAX) :
    (parseNum str).2.1 = (decimalValue (str.takeWhile isDecimalDigit) : Int) := by
  have h := parseNum_loop_value str 0 (by simpa using hfit)
  simp only [Nat.zero_mul, Nat.zero_add, Nat.cast_zero] at h
  simp only [parseNum]
  exact h

theorem cursorChar_dropWhile (str : List Nat) :
    isDecimalDigit (cursorChar (str.dropWhile isDecimalDigit)) = false := by
  induction str with
  | nil => simp [cursorChar, isDecimalDigit]
  | cons c rest ih =>
    by_cases hd : isDecimalDigit c = true
    · simpa [List.dropWhile_cons, hd] using ih
    · simp only [Bool.not_eq_true] at hd
      simp [List.dropWhile_cons, hd, cursorChar]

theorem takeWhile_at_non_digit (tail : List Nat)
    (h : isDecimalDigit (cursorChar tail) = false) :
    tail.takeWhile isDecimalDigit = [] ∧ tail.dropWhile isDecimalDigit = tail := by
  cases tail with
  | nil => simp
  | cons c rest =>
    have hc : isDecimalDigit c = false := by simpa [cursorChar] using h
    simp [List.takeWhile_cons, List.dropWhile_cons, hc]

/-- A run of digits followed by a non-digit: `parseNum` stops right after
the run, and the flag tells whether the next character may follow a
number. -/
theorem parseNum_number (ds tail : List Nat) (hds : Digits ds)
    (ht : isDecimalDigit (cursorChar tail) = false) :
    (parseNum (ds ++ tail)).2.2 = tail ∧
    (parseNum (ds ++ tail)).1 =
      !(decide (cursorChar tail = 0) || decide (cursorChar tail = 32) ||
        decide (cursorChar tail = 9) || decide (cursorChar tail = 13) ||
        decide (cursorChar tail = 10)) ∧
    (decimalValue ds ≤ INT_MAX → (parseNum (ds ++ tail)).2.1 = (decimalValue ds : Int)) := by
  obtain ⟨h1, h2⟩ := takeWhile_at_non_digit tail ht
  have htw : (ds ++ tail).takeWhile isDecimalDigit = ds := by
    rw [List.takeWhile_append_of_pos hds, h1, List.append_nil]
  have hdw : (ds ++ tail).dropWhile isDecimalDigit = tail := by
    rw [List.dropWhile_append_of_pos hds, h2]
  refine ⟨?_, ?_, ?_⟩
  · rw [parseNum_cursor, hdw]
  · rw [parseNum_flag, hdw]
  · intro hfit
    have h := parseNum_value (ds ++ tail) (by rw [htw]; exact hfit)
    rw [htw] at h
    exact h

theorem skipWhitespace_blanks (ws t : List Nat) (h : Blanks ws) :
    skipWhitespace (ws ++ t) = skipWhitespace t := by
  induction ws with
  | nil => rfl
  | cons c rest ih =>
    have hc : c = 32 ∨ c = 9 := h c (List.mem_cons_self _ _)
    simp only [List.cons_append, skipWhitespace, hc, if_true]
    exact ih (fun x hx => h x (List.mem_cons_of_mem _ hx))

theorem skipWhitespace_stop (t : List Nat)
    (h : cursorChar t ≠ 32 ∧ cursorChar t ≠ 9) : skipWhitespace t = t := by
  cases t with
  | nil => rfl
  | cons c rest =>
    have hc : ¬ (c = 32 ∨ c = 9) := by
      simp only [cursorChar, List.headD_cons] at h
      omega
    simp [skipWhitespace, hc]

theorem cursorChar_blanks (ws t : List Nat) (h : Blanks ws) (hne : ws ≠ []) :
    cursorChar (ws ++ t) = 32 ∨ cursorChar (ws ++ t) = 9 := by
  cases ws with
  | nil => exact absurd rfl hne
  | cons c rest => exact h c (List.mem_cons_self _ _)

theorem cursorChar_digits (ds t : List Nat) (h : Digits ds) (hne : ds ≠ []) :
    48 ≤ cursorChar (ds ++ t) ∧ cursorChar (ds ++ t) ≤ 57 := by
  cases ds with
  | nil => exact absurd rfl hne
  | cons c rest =>
    have := h c (List.mem_cons_self _ _)
    simpa [isDecimalDigit, cursorChar] using this

/-- One number of an entry line: after the blanks before it, `parseNum`
reads the digits `ds` and stops on the text that follows. -/
theorem number_step (ws ds rest : List Nat) (hw : Blanks ws) (hd : Digits ds)
    (hnd : isDecimalDigit (cursorChar rest) = false)
    (hstop : ds = [] → cursorChar rest ≠ 32 ∧ cursorChar rest ≠ 9) :
    skipWhitespace (ws ++ (ds ++ rest)) = ds ++ rest ∧
    (parseNum (ds ++ rest)).2.2 = rest ∧
    (parseNum (ds ++ rest)).1 =
      !(decide (cursorChar rest = 0) || decide (cursorChar rest = 32) ||
        decide (cursorChar rest = 9) || decide (cursorChar rest = 13) ||
        decide (cursorChar rest = 10)) ∧
    (decimalValue ds ≤ INT_MAX → (parseNum (ds ++ rest)).2.1 = (decimalValue ds : Int)) := by
  obtain ⟨h1, h2, h3⟩ := parseNum_number ds rest hd hnd
  refine ⟨?_, h1, h2, h3⟩
  rw [skipWhitespace_blanks ws _ hw]
  apply skipWhitespace_stop
  by_cases hne : ds = []
  · subst hne
    exact hstop rfl
  · have := cursorChar_digits ds rest hd hne
    omega

/-- The entry branch on a line whose three calls of `parseNum` all return
false. -/
theorem parsePaletteEntry_eval (line p1 p2 p3 : List Nat)
    (h1 : skipWhitespace line = p1) (hc : cursorChar p1 ≠ 0)
    (hf1 : (parseNum p1).1 = false) (h2 : skipWhitespace (parseNum p1).2.2 = p2)
    (hf2 : (parseNum p2).1 = false) (h3 : skipWhitespace (parseNum p2).2.2 = p3)
    (hf3 : (parseNum p3).1 = false) :
    parsePaletteEntry line =
      some ((parseNum p1).2.1, (parseNum p2).2.1, (parseNum p3).2.1) := by
  simp only [parsePaletteEntry, h1, hc, if_false, hf1, h2, hf2, h3, hf3, Bool.false_eq_true]

theorem parsePaletteEntry_error_1 (line p1 : List Nat)
    (h1 : skipWhitespace line = p1) (hf1 : (parseNum p1).1 = true) :
    parsePaletteEntry line = none := by
  simp only [parsePaletteEntry, h1, hf1, if_true]
  split <;> rfl

theorem parsePaletteEntry_error_2 (line p1 p2 : List Nat)
    (h1 : skipWhitespace line = p1)
    (hf1 : (parseNum p1).1 = false) (h2 : skipWhitespace (parseNum p1).2.2 = p2)
    (hf2 : (parseNum p2).1 = true) :
    parsePaletteEntry line = none := by
  simp only [parsePaletteEntry, h1, hf1, h2, hf2, if_true, Bool.false_eq_true, if_false]
  split <;> rfl

theorem parsePaletteEntry_error_3 (line p1 p2 p3 : List Nat)
    (h1 : skipWhitespace line = p1)
    (hf1 : (parseNum p1).1 = false) (h2 : skipWhitespace (parseNum p1).2.2 = p2)
    (hf2 : (parseNum p2).1 = false) (h3 : skipWhitespace (parseNum p2).2.2 = p3)
    (hf3 : (parseNum p3).1 = true) :
    parsePaletteEntry line = none := by
  simp only [parsePaletteEntry, h1, hf1, h2, hf2, h3, hf3, if_true, Bool.false_eq_true,
    if_false]
  split <;> rfl

theorem flag_false (c : Nat) (h : c = 0 ∨ c = 32 ∨ c = 9 ∨ c = 13 ∨ c = 10) :
    (!(decide (c = 0) || decide (c = 32) || decide (c = 9) || decide (c = 13) ||
      decide (c = 10))) = false := by
  rcases h with h | h | h | h | h <;> subst h <;> decide

theorem flag_true (c : Nat) (h : ¬ (c = 0 ∨ c = 32 ∨ c = 9 ∨ c = 13 ∨ c = 10)) :
    (!(decide (c = 0) || decide (c = 32) || decide (c = 9) || decide (c = 13) ||
      decide (c = 10))) = true := by
  simp only [not_or] at h
  simp [h]

theorem number_end_not_digit (c : Nat) (h : c = 0 ∨ c = 32 ∨ c = 9 ∨ c = 13 ∨ c = 10) :
    isDecimalDigit c = false := by
  rcases h with h | h | h | h | h <;> subst h <;> decide

theorem cursorChar_blanks_or (ws t : List Nat) (h : Blanks ws) :
    (ws = [] ∧ cursorChar (ws ++ t) = cursorChar t) ∨
      (ws ≠ [] ∧ (cursorChar (ws ++ t) = 32 ∨ cursorChar (ws ++ t) = 9)) := by
  by_cases hne : ws = []
  · subst hne
    exact Or.inl ⟨rfl, rfl⟩
  · exact Or.inr ⟨hne, cursorChar_blanks ws t h hne⟩

/-- The blanks before the end of the line are skipped, and `parseNum` at
the end of the line reads no digit and reports no error. -/
theorem line_end_step (ws tail : List Nat) (hw : Blanks ws)
    (ht : cursorChar tail = 0 ∨ cursorChar tail = 10 ∨ cursorChar tail = 13) :
    skipWhitespace (ws ++ tail) = tail ∧ (parseNum tail).2.2 = tail ∧
      (parseNum tail).1 = false ∧ (parseNum tail).2.1 = 0 := by
  have hE : cursorChar tail = 0 ∨ cursorChar tail = 32 ∨ cursorChar tail = 9 ∨
      cursorChar tail = 13 ∨ cursorChar tail = 10 := by omega
  obtain ⟨h1, h2, h3, h4⟩ := number_step ws [] tail hw (fun _ hc => nomatch hc)
    (number_end_not_digit _ hE) (fun _ => by omega)
  simp only [List.nil_append] at h1 h2 h3 h4
  refine ⟨h1, h2, ?_, ?_⟩
  · rw [h3]
    exact flag_false _ hE
  · have := h4 (by simp [decimalValue_nil])
    simpa [decimalValue_nil] using this

/-- An entry line that ends after one or two numbers is accepted, the
missing components read as 0. -/
theorem parsePaletteEntry_accepts (ws0 ds1 ws1 ds2 ws2 tail : List Nat)
    (hw0 : Blanks ws0) (hd1 : Digits ds1) (hne1 : ds1 ≠ []) (hw1 : Blanks ws1)
    (hd2 : Digits ds2) (hsep : ds2 ≠ [] → ws1 ≠ []) (hw2 : Blanks ws2)
    (ht : cursorChar tail = 0 ∨ cursorChar tail = 10 ∨ cursorChar tail = 13)
    (hfit1 : decimalValue ds1 ≤ INT_MAX) (hfit2 : decimalValue ds2 ≤ INT_MAX) :
    parsePaletteEntry (ws0 ++ (ds1 ++ (ws1 ++ (ds2 ++ (ws2 ++ tail))))) =
      some ((decimalValue ds1 : Int), (decimalValue ds2 : Int), 0) := by
  have hE : cursorChar tail = 0 ∨ cursorChar tail = 32 ∨ cursorChar tail = 9 ∨
      cursorChar tail = 13 ∨ cursorChar tail = 10 := by omega
  by_cases hds2 : ds2 = []
  · subst hds2
    have hW : Blanks (ws1 ++ ws2) := by
      intro c hc
      rcases List.mem_append.mp hc with h | h
      · exact hw1 c h
      · exact hw2 c h
    have hline : ws0 ++ (ds1 ++ (ws1 ++ ([] ++ (ws2 ++ tail)))) =
        ws0 ++ (ds1 ++ ((ws1 ++ ws2) ++ tail)) := by simp
    have hEW : cursorChar ((ws1 ++ ws2) ++ tail) = 0 ∨ cursorChar ((ws1 ++ ws2) ++ tail) = 32 ∨
        cursorChar ((ws1 ++ ws2) ++ tail) = 9 ∨ cursorChar ((ws1 ++ ws2) ++ tail) = 13 ∨
        cursorChar ((ws1 ++ ws2) ++ tail) = 10 := by
      rcases cursorChar_blanks_or (ws1 ++ ws2) tail hW with ⟨-, h⟩ | ⟨-, h⟩
      · rw [h]; exact hE
      · omega
    obtain ⟨a1, a2, a3, a4⟩ := number_step ws0 ds1 ((ws1 ++ ws2) ++ tail) hw0 hd1
      (number_end_not_digit _ hEW) (fun h => absurd h hne1)
    obtain ⟨b1, b2, b3, b4⟩ := line_end_step (ws1 ++ ws2) tail hW ht
    obtain ⟨c1, -, -, -⟩ := line_end_step [] tail (fun _ hc => nomatch hc) ht
    rw [hline, parsePaletteEntry_eval _ (ds1 ++ ((ws1 ++ ws2) ++ tail)) tail tail a1
      (by have := cursorChar_digits ds1 ((ws1 ++ ws2) ++ tail) hd1 hne1; omega)
      (by rw [a3]; exact flag_false _ hEW) (by rw [a2]; exact b1) b3
      (by rw [b2]; exact c1) b3, a4 hfit1, b4]
    simp [decimalValue_nil]
  · have hne : ws1 ≠ [] := hsep hds2
    have hE2 : cursorChar (ws2 ++ tail) = 0 ∨ cursorChar (ws2 ++ tail) = 32 ∨
        cursorChar (ws2 ++ tail) = 9 ∨ cursorChar (ws2 ++ tail) = 13 ∨
        cursorChar (ws2 ++ tail) = 10 := by
      rcases cursorChar_blanks_or ws2 tail hw2 with ⟨-, h⟩ | ⟨-, h⟩
      · rw [h]; exact hE
      · omega
    have hE1 : cursorChar (ws1 ++ (ds2 ++ (ws2 ++ tail))) = 0 ∨
        cursorChar (ws1 ++ (ds2 ++ (ws2 ++ tail))) = 32 ∨
        cursorChar (ws1 ++ (ds2 ++ (ws2 ++ tail))) = 9 ∨
        cursorChar (ws1 ++ (ds2 ++ (ws2 ++ tail))) = 13 ∨
        cursorChar (ws1 ++ (ds2 ++ (ws2 ++ tail))) = 10 := by
      have := cursorChar_blanks ws1 (ds2 ++ (ws2 ++ tail)) hw1 hne
      omega
    obtain ⟨a1, a2, a3, a4⟩ := number_step ws0 ds1 (ws1 ++ (ds2 ++ (ws2 ++ tail))) hw0 hd1
      (number_end_not_digit _ hE1) (fun h => absurd h hne1)
    obtain ⟨b1, b2, b3, b4⟩ := number_step ws1 ds2 (ws2 ++ tail) hw1 hd2
      (number_end_not_digit _ hE2) (fun h => absurd h hds2)
    obtain ⟨c1, -, c3, c4⟩ := line_end_step ws2 tail hw2 ht
    rw [parsePaletteEntry_eval _ (ds1 ++ (ws1 ++ (ds2 ++ (ws2 ++ tail))))
      (ds2 ++ (ws2 ++ tail)) tail a1
      (by have := cursorChar_digits ds1 (ws1 ++ (ds2 ++ (ws2 ++ tail))) hd1 hne1; omega)
      (by rw [a3]; exact flag_false _ hE1) (by rw [a2]; exact b1)
      (by rw [b3]; exact flag_false _ hE2) (by rw [b2]; exact c1) c3, a4 hfit1, b4 hfit2, c4]

/-- An entry line on which other text follows fewer than three numbers is
rejected: `hasErr` is raised. -/
theorem parsePaletteEntry_rejects (ws0 ds1 ws1 ds2 ws2 junk : List Nat)
    (hw0 : Blanks ws0) (hd1 : Digits ds1) (hne1 : ds1 ≠ []) (hw1 : Blanks ws1)
    (hd2 : Digits ds2) (hsep : ds2 ≠ [] → ws1 ≠ []) (hw2 : Blanks ws2)
    (hj : ¬ (cursorChar junk = 0 ∨ cursorChar junk = 32 ∨ cursorChar junk = 9 ∨
      cursorChar junk = 13 ∨ cursorChar junk = 10))
    (hjd : isDecimalDigit (cursorChar junk) = false) :
    parsePaletteEntry (ws0 ++ (ds1 ++ (ws1 ++ (ds2 ++ (ws2 ++ junk))))) = none := by
  have hjb : cursorChar junk ≠ 32 ∧ cursorChar junk ≠ 9 := by omega
  obtain ⟨j1, j2, j3, -⟩ := number_step [] [] junk (fun _ hc => nomatch hc)
    (fun _ hc => nomatch hc) hjd (fun _ => hjb)
  simp only [List.nil_append] at j1 j2 j3
  have hjf : (parseNum junk).1 = true := by rw [j3]; exact flag_true _ hj
  have hblank : ∀ ws : List Nat, Blanks ws → ws ≠ [] → ∀ t : List Nat,
      (cursorChar (ws ++ t) = 0 ∨ cursorChar (ws ++ t) = 32 ∨ cursorChar (ws ++ t) = 9 ∨
        cursorChar (ws ++ t) = 13 ∨ cursorChar (ws ++ t) = 10) := by
    intro ws hw hne t
    have := cursorChar_blanks ws t hw hne
    omega
  have hskip : ∀ ws : List Nat, Blanks ws → skipWhitespace (ws ++ junk) = junk := by
    intro ws hw
    rw [skipWhitespace_blanks ws _ hw]
    exact skipWhitespace_stop junk hjb
  by_cases hds2 : ds2 = []
  · subst hds2
    have hW : Blanks (ws1 ++ ws2) := by
      intro c hc
      rcases List.mem_append.mp hc with h | h
      · exact hw1 c h
      · exact hw2 c h
    have hline : ws0 ++ (ds1 ++ (ws1 ++ ([] ++ (ws2 ++ junk)))) =
        ws0 ++ (ds1 ++ ((ws1 ++ ws2) ++ junk)) := by simp
    rw [hline]
    by_cases hWe : ws1 ++ ws2 = []
    · rw [hWe, List.nil_append]
      obtain ⟨a1, -, a3, -⟩ := number_step ws0 ds1 junk hw0 hd1 hjd (fun h => absurd h hne1)
      exact parsePaletteEntry_error_1 _ _ a1 (by rw [a3]; exact flag_true _ hj)
    · have hEW := hblank (ws1 ++ ws2) hW hWe junk
      obtain ⟨a1, a2, a3, -⟩ := number_step ws0 ds1 ((ws1 ++ ws2) ++ junk) hw0 hd1
        (number_end_not_digit _ hEW) (fun h => absurd h hne1)
      exact parsePaletteEntry_error_2 _ _ junk a1 (by rw [a3]; exact flag_false _ hEW)
        (by rw [a2]; exact hskip _ hW) hjf
  · have hne : ws1 ≠ [] := hsep hds2
    have hE1 := hblank ws1 hw1 hne (ds2 ++ (ws2 ++ junk))
    obtain ⟨a1, a2, a3, -⟩ := number_step ws0 ds1 (ws1 ++ (ds2 ++ (ws2 ++ junk))) hw0 hd1
      (number_end_not_digit _ hE1) (fun h => absurd h hne1)
    by_cases hw2e : ws2 = []
    · subst hw2e
      simp only [List.nil_append] at a1 a2 a3 ⊢
      obtain ⟨b1, -, b3, -⟩ := number_step ws1 ds2 junk hw1 hd2 hjd (fun h => absurd h hds2)
      exact parsePaletteEntry_error_2 _ _ (ds2 ++ junk) a1 (by rw [a3]; exact flag_false _ hE1)
        (by rw [a2]; exact b1) (by rw [b3]; exact flag_true _ hj)
    · have hE2 := hblank ws2 hw2 hw2e junk
      obtain ⟨b1, b2, b3, -⟩ := number_step ws1 ds2 (ws2 ++ junk) hw1 hd2
        (number_end_not_digit _ hE2) (fun h => absurd h hds2)
      exact parsePaletteEntry_error_3 _ _ (ds2 ++ (ws2 ++ junk)) junk a1
        (by rw [a3]; exact flag_false _ hE1) (by rw [a2]; exact b1)
        (by rw [b3]; exact flag_false _ hE2) (by rw [b2]; exact hskip _ hw2) hjf

/-- C30 refuted as stated: the entry line `255 128 Orange` holds fewer than
three numbers and is not accepted.  The first two calls of `parseNum` read
255 and 128; the third stops on the letter `O` and raises `hasErr`, so no
colour is added. -/
theorem C30_counterexample :
    parseNum twoNumbersAndName = (false, 255, twoNumbersAndName.drop 3) ∧
    parseNum (skipWhitespace (twoNumbersAndName.drop 3)) =
      (false, 128, twoNumbersAndName.drop 7) ∧
    parseNum (skipWhitespace (twoNumbersAndName.drop 7)) =
      (true, 0, twoNumbersAndName.drop 8) ∧
    parsePaletteEntry twoNumbersAndName = none := by
  decide

/-- C30 (amended): for every NUL-terminated string, `parseNum` leaves the
cursor right after the maximal prefix of decimal digits, on a character
that is not a digit, and returns true if and only if that character is none
of end-of-string, space, tab, CR or LF; `val` is the decimal value of the
prefix whenever that value fits in an `int` (0 for the empty prefix).
Hence a palette entry line that ends (end of string, CR or LF, blanks
allowed before it) after one or two numbers is accepted with the missing
components read as 0, while a line on which other text follows fewer than
three numbers is rejected. -/
theorem C30_parseNum_reads_the_digit_prefix (str : List Nat) :
    (parseNum str).2.2 = str.dropWhile isDecimalDigit ∧
    str.takeWhile isDecimalDigit ++ str.dropWhile isDecimalDigit = str ∧
    isDecimalDigit (cursorChar (str.dropWhile isDecimalDigit)) = false ∧
    ((parseNum str).1 = true ↔
      ¬ (cursorChar (str.dropWhile isDecimalDigit) = 0 ∨
        cursorChar (str.dropWhile isDecimalDigit) = 32 ∨
        cursorChar (str.dropWhile isDecimalDigit) = 9 ∨
        cursorChar (str.dropWhile isDecimalDigit) = 13 ∨
        cursorChar (str.dropWhile isDecimalDigit) = 10)) ∧
    (decimalValue (str.takeWhile isDecimalDigit) ≤ INT_MAX →
      (parseNum str).2.1 = (decimalValue (str.takeWhile isDecimalDigit) : Int)) ∧
    decimalValue [] = 0 ∧
    (∀ ws0 ds1 ws1 ds2 ws2 tail : List Nat,
      Blanks ws0 → Digits ds1 → ds1 ≠ [] → Blanks ws1 → Digits ds2 →
      (ds2 ≠ [] → ws1 ≠ []) → Blanks ws2 →
      (cursorChar tail = 0 ∨ cursorChar tail = 10 ∨ cursorChar tail = 13) →
      decimalValue ds1 ≤ INT_MAX → decimalValue ds2 ≤ INT_MAX →
      parsePaletteEntry (ws0 ++ (ds1 ++ (ws1 ++ (ds2 ++ (ws2 ++ tail))))) =
        some ((decimalValue ds1 : Int), (decimalValue ds2 : Int), 0)) ∧
    (∀ ws0 ds1 ws1 ds2 ws2 junk : List Nat,
      Blanks ws0 → Digits ds1 → ds1 ≠ [] → Blanks ws1 → Digits ds2 →
      (ds2 ≠ [] → ws1 ≠ []) → Blanks ws2 →
      ¬ (cursorChar junk = 0 ∨ cursorChar junk = 32 ∨ cursorChar junk = 9 ∨
        cursorChar junk = 13 ∨ cursorChar junk = 10) →
      isDecimalDigit (cursorChar junk) = false →
      parsePaletteEntry (ws0 ++ (ds1 ++ (ws1 ++ (ds2 ++ (ws2 ++ junk))))) = none) := by
  refine ⟨parseNum_cursor str, List.takeWhile_append_dropWhile _ _,
    cursorChar_dropWhile str, ?_, parseNum_value str, decimalValue_nil,
    parsePaletteEntry_accepts, parsePaletteEntry_rejects⟩
  rw [parseNum_flag]
  constructor
  · intro h hE
    rw [flag_false _ hE] at h
    cases h
  · intro h
    exact flag_true _ h

/-- Witness of C30 (amended): on `255 128` followed by a line feed the first
number is read as 255 with the cursor left on the blank, and the line is
accepted as the colour (255, 128, 0); eleven digits are consumed as well,
although their value does not fit in an `int`. -/
theorem C30_parseNum_reads_the_digit_prefix_witness :
    parseNum [50, 53, 53, 32, 49, 50, 56, 10] = (false, 255, [32, 49, 50, 56, 10]) ∧
    parseNum [50, 53, 120] = (true, 25, [120]) ∧
    (parseNum [57, 57, 57, 57, 57, 57, 57, 57, 57, 57, 57, 32, 49]).2.2 = [32, 49] ∧
    (parseNum [57, 57, 57, 57, 57, 57, 57, 57, 57, 57, 57, 32, 49]).1 = false ∧
    parsePaletteEntry [50, 53, 53, 10] = some (255, 0, 0) ∧
    parsePaletteEntry [50, 53, 53, 32, 49, 50, 56, 32, 10] = some (255, 128, 0) ∧
    (decimalValue (([50, 53, 53, 32, 49, 50, 56, 10] : List Nat).takeWhile isDecimalDigit)
        ≤ INT_MAX ∧
      (parseNum [50, 53, 53, 32, 49, 50, 56, 10]).2.1 =
        (decimalValue (([50, 53, 53, 32, 49, 50, 56, 10] : List Nat).takeWhile
          isDecimalDigit) : Int)) ∧
    parsePaletteEntry ([] ++ ([50, 53, 53] ++ ([32] ++ ([49, 50, 56] ++ ([] ++ [10]))))) =
      some ((decimalValue [50, 53, 53] : Int), (decimalValue [49, 50, 56] : Int), 0) :=
  ⟨by decide, by decide, by decide, by decide, by decide, by decide,
    ⟨by decide,
      ( C30_parseNum_reads_the_digit_prefix [50, 53, 53, 32, 49, 50, 56, 10]).2.2.2.2.1
        (by decide)⟩,
    ( C30_parseNum_reads_the_digit_prefix []).2.2.2.2.2.2.1
      [] [50, 53, 53] [32] [49, 50, 56] [] [10]
      (by decide) (by decide) (by decide) (by decide) (by decide) (by decide) (by decide)
      (by decide) (by decide) (by decide)⟩

/-! ## The class registry -/

/-! ## The class registry -/

theorem sound_empty : emptyRegistry.Sound := by
  constructor
  · intro i klass h; simp [emptyRegistry] at h
  · intro i _ h; simp [emptyRegistry] at h

/-- Appending a class whose parent pointer is NULL or refers to a class
already present keeps a list of slots sound. -/
theorem sound_append (cs : List (Option NRObjectClass)) (size size1 : Nat)
    (klass : NRObjectClass) (hs : ClassRegistry.Sound { classes := cs, classes_size := size })
    (htype : klass.type = cs.length)
    (hpar : ∀ p, klass.parent = some p → p < cs.length ∧ ∃ kp, cs[p]? = some (some kp)) :
    ClassRegistry.Sound { classes := cs ++ [some klass], classes_size := size1 } := by
  obtain ⟨h1, h2⟩ := hs
  constructor
  · intro i k hk
    change (cs ++ [some klass])[i]? = some (some k) at hk
    change k.type = i ∧ ∀ p, k.parent = some p →
      p < i ∧ ∃ kp, (cs ++ [some klass])[p]? = some (some kp)
    by_cases hi : i < cs.length
    · rw [List.getElem?_append_left hi] at hk
      obtain ⟨ht, hp⟩ := h1 i k hk
      refine ⟨ht, fun p hpp => ?_⟩
      obtain ⟨hlt, kp, hkp⟩ := hp p hpp
      refine ⟨hlt, kp, ?_⟩
      rw [List.getElem?_append_left (by omega)]
      exact hkp
    · have hlen : i < (cs ++ [some klass]).length := by
        by_contra hcon
        rw [List.getElem?_eq_none (by omega)] at hk
        cases hk
      have hieq : i = cs.length := by
        simp only [List.length_append, List.length_singleton] at hlen
        omega
      subst hieq
      simp only [List.getElem?_concat_length, Option.some.injEq] at hk
      subst hk
      refine ⟨htype, fun p hpp => ?_⟩
      obtain ⟨hlt, kp, hkp⟩ := hpar p hpp
      refine ⟨hlt, kp, ?_⟩
      rw [List.getElem?_append_left hlt]
      exact hkp
  · intro i hi1 hi2
    change i < (cs ++ [some klass]).length at hi2
    change ∃ k, (cs ++ [some klass])[i]? = some (some k)
    by_cases hi : i < cs.length
    · obtain ⟨k, hk⟩ := h2 i hi1 hi
      exact ⟨k, by rw [List.getElem?_append_left hi]; exact hk⟩
    · have hieq : i = cs.length := by
        simp only [List.length_append, List.length_singleton] at hi2
        omega
      subst hieq
      exact ⟨klass, by simp⟩

theorem sound_grow (reg : ClassRegistry) (hs : reg.Sound) : (grow_classes reg).Sound := by
  unfold grow_classes
  split
  · by_cases h0 : reg.classes_len = 0
    · simp only [h0, if_true]
      constructor
      · intro i klass h
        change ([none] : List (Option NRObjectClass))[i]? = some (some klass) at h
        cases i with
        | zero => simp at h
        | succ i => simp at h
      · intro i hi1 hi2
        change i < ([none] : List (Option NRObjectClass)).length at hi2
        simp only [List.length_singleton] at hi2
        omega
    · simp only [h0, if_false]
      exact hs
  · exact hs

/-- Registering a type under a parent registered before it keeps the
registry sound. -/
theorem sound_register (reg reg1 : ClassRegistry) (parent type : Nat) (hs : reg.Sound)
    (hcall : nr_object_register_type parent reg = some (type, reg1))
    (hparent : parent < type) : reg1.Sound := by
  have hg := sound_grow reg hs
  unfold nr_object_register_type at hcall
  generalize grow_classes reg = g at hg hcall
  cases hslot : (g.classes ++ [some { type := 0, parent := none }])[parent]? with
  | none => simp [hslot] at hcall
  | some slot =>
    simp only [hslot, Option.some.injEq, Prod.mk.injEq] at hcall
    obtain ⟨rfl, rfl⟩ := hcall
    have hlt : parent < g.classes.length := hparent
    rw [List.getElem?_append_left hlt] at hslot
    apply sound_append g.classes g.classes_size g.classes_size _ hg rfl
    intro p hp
    cases slot with
    | none => simp at hp
    | some kp =>
      simp only [Option.isSome_some, if_true, Option.some.injEq] at hp
      subst hp
      exact ⟨hlt, kp, hslot⟩

theorem registered_sound (reg : ClassRegistry) (h : reg.Registered) : reg.Sound := by
  induction h with
  | empty => exact sound_empty
  | register reg reg1 parent type _ hcall hparent ih =>
    exact sound_register reg reg1 parent type ih hcall hparent

theorem nr_type_is_a_loop_null (classes : List (Option NRObjectClass)) (fuel test : Nat) :
    nr_type_is_a_loop classes fuel none test = some false := by
  cases fuel <;> rfl

/-- In a sound registry the walk from a class returns within as many
iterations as its slot number plus one, and it returns TRUE exactly when the
tested type is reached. -/
theorem nr_type_is_a_loop_spec (reg : ClassRegistry) (hs : reg.Sound) (test : Nat)
    (fuel : Nat) :
    ∀ (slot : Nat) (klass : NRObjectClass), slot < fuel →
      reg.classes[slot]? = some (some klass) →
      ∃ b, nr_type_is_a_loop reg.classes fuel (some slot) test = some b ∧
        (b = true ↔ ReachesType reg test slot) := by
  induction fuel with
  | zero => intro slot _ h; exact absurd h (Nat.not_lt_zero _)
  | succ fuel ih =>
    intro slot klass hlt hk
    obtain ⟨htype, hpar⟩ := hs.1 slot klass hk
    by_cases heq : slot = test
    · subst heq
      refine ⟨true, by simp [nr_type_is_a_loop, hk, htype], ?_⟩
      simp only [true_iff]
      exact ReachesType.self
    · have hne : ¬ klass.type = test := by rw [htype]; exact heq
      cases hp : klass.parent with
      | none =>
        refine ⟨false, by simp [nr_type_is_a_loop, hk, hne, hp, nr_type_is_a_loop_null], ?_⟩
        simp only [Bool.false_eq_true, false_iff]
        intro hr
        cases hr with
        | self => exact heq rfl
        | up _ p k2 h2 hp2 _ =>
          rw [hk] at h2
          simp only [Option.some.injEq] at h2
          subst h2
          rw [hp] at hp2
          cases hp2
      | some p =>
        obtain ⟨hplt, kp, hkp⟩ := hpar p hp
        obtain ⟨b, hb, hiff⟩ := ih p kp (by omega) hkp
        refine ⟨b, by simp [nr_type_is_a_loop, hk, hne, hp, hb], ?_⟩
        rw [hiff]
        constructor
        · intro hr
          exact ReachesType.up slot p klass hk hp hr
        · intro hr
          cases hr with
          | self => exact absurd rfl heq
          | up _ q k2 h2 hp2 hr2 =>
            rw [hk] at h2
            simp only [Option.some.injEq] at h2
            subst h2
            rw [hp] at hp2
            simp only [Option.some.injEq] at hp2
            subst hp2
            exact hr2

/-- C26: in a registry built by `nr_object_register_type` with every parent
registered before its child, the walk of `nr_type_is_a` terminates (any
bound of at least `classes_len` iterations gives a result); for registered
types `t` and `u` the result is TRUE if and only if `u = t` or `u` is
reached from `t` by following the parent links, and it is FALSE whenever
`t` or `u` is not below `classes_len`. -/
theorem C26_nr_type_is_a_decides_subtyping (reg : ClassRegistry) (hreg : reg.Registered)
    (t u fuel : Nat) (hfuel : reg.classes_len ≤ fuel) :
    ∃ b, nr_type_is_a reg fuel t u = some b ∧
      (1 ≤ t → t < reg.classes_len → 1 ≤ u → u < reg.classes_len →
        (b = true ↔ ReachesType reg u t)) ∧
      ((¬ t < reg.classes_len ∨ ¬ u < reg.classes_len) → b = false) := by
  have hs := registered_sound reg hreg
  by_cases ht : t < reg.classes_len
  · by_cases hu : u < reg.classes_len
    · by_cases ht1 : 1 ≤ t
      · obtain ⟨klass, hk⟩ := hs.2 t ht1 ht
        obtain ⟨b, hb, hiff⟩ := nr_type_is_a_loop_spec reg hs u fuel t klass
          (lt_of_lt_of_le ht hfuel) hk
        refine ⟨b, by simp [nr_type_is_a, ht, hu, hk, hb], fun _ _ _ _ => hiff, ?_⟩
        intro h
        rcases h with h | h
        · exact absurd ht h
        · exact absurd hu h
      · have ht0 : t = 0 := by omega
        subst ht0
        cases hslot : reg.classes[0]? with
        | none =>
          refine ⟨false, by simp [nr_type_is_a, ht, hu, hslot, nr_type_is_a_loop_null], ?_, ?_⟩
          · intro h; omega
          · intro _; rfl
        | some slot =>
          cases slot with
          | none =>
            refine ⟨false, by simp [nr_type_is_a, ht, hu, hslot, nr_type_is_a_loop_null],
              ?_, ?_⟩
            · intro h; omega
            · intro _; rfl
          | some klass =>
            obtain ⟨b, hb, -⟩ := nr_type_is_a_loop_spec reg hs u fuel 0 klass
              (lt_of_lt_of_le ht hfuel) hslot
            refine ⟨b, by simp [nr_type_is_a, ht, hu, hslot, hb], ?_, ?_⟩
            · intro h; omega
            · intro h
              rcases h with h | h
              · exact absurd ht h
              · exact absurd hu h
    · exact ⟨false, by simp [nr_type_is_a, ht, hu], fun _ _ _ h => absurd h hu, fun _ => rfl⟩
  · exact ⟨false, by simp [nr_type_is_a, ht], fun _ h => absurd h ht, fun _ => rfl⟩

/-- Witness of C26 on the registry with `NRObject` (1), `NRActiveObject`
(2, child of 1) and a third class (3, child of 1). -/
theorem C26_nr_type_is_a_decides_subtyping_witness :
    registryWithThree.Registered ∧ registryWithThree.classes_len ≤ 4 ∧
    nr_type_is_a registryWithThree 4 2 1 = some true ∧
    nr_type_is_a registryWithThree 4 1 2 = some false ∧
    nr_type_is_a registryWithThree 4 3 2 = some false ∧
    nr_type_is_a registryWithThree 4 3 3 = some true ∧
    nr_type_is_a registryWithThree 4 7 1 = some false ∧
    ∃ b, nr_type_is_a registryWithThree 4 2 1 = some b ∧
      (1 ≤ 2 → 2 < registryWithThree.classes_len → 1 ≤ 1 →
        1 < registryWithThree.classes_len →
        (b = true ↔ ReachesType registryWithThree 1 2)) ∧
      ((¬ 2 < registryWithThree.classes_len ∨ ¬ 1 < registryWithThree.classes_len) →
        b = false) :=
  have hreg : registryWithThree.Registered :=
    ClassRegistry.Registered.register registryWithActiveObject registryWithThree 1 3
      (ClassRegistry.Registered.register registryWithObject registryWithActiveObject 1 2
        (ClassRegistry.Registered.register emptyRegistry registryWithObject 0 1
          ClassRegistry.Registered.empty (by decide) (by decide))
        (by decide) (by decide))
      (by decide) (by decide)
  ⟨hreg, by decide, by decide, by decide, by decide, by decide, by decide,
    C26_nr_type_is_a_decides_subtyping registryWithThree hreg 2 1 4 (by decide)⟩

/-! ## Listeners of an active object -/

/-- Overwriting slot `i0` with `v` and dropping the old occupant is the same
multiset as adding `v`. -/
theorem perm_update_range (f : Nat → NRObjectListener) (v : NRObjectListener) (i0 : Nat) :
    ∀ m, i0 < m →
      List.Perm (f i0 :: (List.range m).map (Function.update f i0 v))
        (v :: (List.range m).map f) := by
  intro m
  induction m with
  | zero => intro h; exact absurd h (Nat.not_lt_zero _)
  | succ m ih =>
    intro h
    rw [List.range_succ, List.map_append, List.map_append, List.map_singleton,
      List.map_singleton]
    by_cases hi : i0 = m
    · subst hi
      have hsame : (List.range i0).map (Function.update f i0 v) = (List.range i0).map f := by
        apply List.map_congr_left
        intro a ha
        have hne : a ≠ i0 := by
          have := List.mem_range.mp ha
          omega
        exact Function.update_noteq hne v f
      rw [hsame, Function.update_same]
      have h1 : List.Perm (f i0 :: ((List.range i0).map f ++ [v]))
          (f i0 :: v :: (List.range i0).map f) :=
        List.Perm.cons _ (List.perm_append_singleton v _)
      have h2 : List.Perm (f i0 :: v :: (List.range i0).map f)
          (v :: f i0 :: (List.range i0).map f) := List.Perm.swap _ _ _
      have h3 : List.Perm (v :: f i0 :: (List.range i0).map f)
          (v :: ((List.range i0).map f ++ [f i0])) :=
        List.Perm.cons _ (List.perm_append_singleton (f i0) _).symm
      exact (h1.trans h2).trans h3
    · have hlt : i0 < m := by omega
      have hne : m ≠ i0 := fun h => hi h.symm
      rw [Function.update_noteq hne]
      exact List.Perm.append_right [f m] (ih hlt)

theorem remove_listener_loop_no_match (b : NRObjectCallbackBlock) (d : Nat) (fuel : Nat) :
    ∀ i, (∀ j, i ≤ j → j < i + fuel → (b.listeners j).data ≠ d) →
      remove_listener_loop b d fuel i = some b := by
  induction fuel with
  | zero => intro i _; rfl
  | succ fuel ih =>
    intro i h
    have hi : ¬ (b.listeners i).data = d := h i (Nat.le_refl _) (by omega)
    simp only [remove_listener_loop, hi, if_false]
    apply ih
    intro j h1 h2
    exact h j (by omega) (by omega)

theorem remove_listener_loop_first_match (b : NRObjectCallbackBlock) (d i0 : Nat)
    (hd : (b.listeners i0).data = d) (fuel : Nat) :
    ∀ i, i ≤ i0 → i0 < i + fuel → (∀ j, i ≤ j → j < i0 → (b.listeners j).data ≠ d) →
      remove_listener_loop b d fuel i = remove_listener_loop b d 1 i0 := by
  induction fuel with
  | zero => intro i h1 h2; omega
  | succ fuel ih =>
    intro i h1 h2 h
    by_cases heq : i = i0
    · subst heq
      simp only [remove_listener_loop, hd, if_true]
    · have hi : ¬ (b.listeners i).data = d := h i (Nat.le_refl _) (by omega)
      have hstep : remove_listener_loop b d (fuel + 1) i =
          remove_listener_loop b d fuel (i + 1) := by
        simp only [remove_listener_loop, hi, if_false]
      rw [hstep]
      apply ih (i + 1) (by omega) (by omega)
      intro j hj1 hj2
      exact h j (by omega) hj2

/-- What removing does when slot `i0` is the first one whose data matches. -/
theorem remove_listener_first_match (b : NRObjectCallbackBlock) (d i0 : Nat)
    (hi0 : i0 < b.length) (hd : (b.listeners i0).data = d)
    (hfirst : ∀ j, j < i0 → (b.listeners j).data ≠ d) :
    List.Perm (b.listeners i0 ::
        (nr_active_object_remove_listener_by_data { callbacks := some b } d).live) b.live ∧
    (b.length = 1 →
      (nr_active_object_remove_listener_by_data { callbacks := some b } d).callbacks = none) ∧
    (1 < b.length → ∃ b1,
      (nr_active_object_remove_listener_by_data { callbacks := some b } d).callbacks = some b1 ∧
      b1.length = b.length - 1 ∧ b1.size = b.size) := by
  have hloop := remove_listener_loop_first_match b d i0 hd b.length 0 (Nat.zero_le _)
    (by omega) (fun j _ hj => hfirst j hj)
  have hobj : nr_active_object_remove_listener_by_data { callbacks := some b } d =
      { callbacks := remove_listener_loop b d 1 i0 } := by
    simp only [nr_active_object_remove_listener_by_data, hloop]
  rw [hobj]
  obtain ⟨size, length, f⟩ := b
  change i0 < length at hi0
  change (f i0).data = d at hd
  obtain ⟨m, rfl⟩ : ∃ m, length = m + 1 := ⟨length - 1, by omega⟩
  by_cases hm : m < 1
  · have hm0 : m = 0 := by omega
    subst hm0
    have hi : i0 = 0 := by omega
    subst hi
    simp [remove_listener_loop, hd, NRActiveObject.live, NRObjectCallbackBlock.live,
      List.range_succ]
  · by_cases hne : m = i0
    · subst hne
      simp only [remove_listener_loop, hd, if_true, Nat.add_sub_cancel, hm, if_false,
        ne_eq, not_true_eq_false, NRActiveObject.live, NRObjectCallbackBlock.live]
      refine ⟨?_, by omega, fun _ => ⟨_, rfl, rfl, rfl⟩⟩
      rw [List.range_succ, List.map_append, List.map_singleton]
      exact (List.perm_append_singleton _ _).symm
    · simp only [remove_listener_loop, hd, if_true, Nat.add_sub_cancel, hm, if_false,
        ne_eq, hne, not_false_eq_true, NRActiveObject.live, NRObjectCallbackBlock.live]
      refine ⟨?_, by omega, fun _ => ⟨_, rfl, rfl, rfl⟩⟩
      rw [List.range_succ, List.map_append, List.map_singleton]
      exact (perm_update_range f (f m) i0 m (by omega)).trans
        (List.perm_append_singleton _ _).symm

theorem remove_listener_loop_bounds (b : NRObjectCallbackBlock) (d : Nat) (fuel : Nat) :
    ∀ i b1, 1 ≤ b.length → remove_listener_loop b d fuel i = some b1 →
      b1.size = b.size ∧ 1 ≤ b1.length ∧ b1.length ≤ b.length := by
  induction fuel with
  | zero =>
    intro i b1 h1 h
    simp only [remove_listener_loop, Option.some.injEq] at h
    subst h
    exact ⟨rfl, h1, Nat.le_refl _⟩
  | succ fuel ih =>
    intro i b1 h1 h
    by_cases hd : (b.listeners i).data = d
    · simp only [remove_listener_loop, hd, if_true] at h
      split at h
      · cases h
      · split at h
        · simp only [Option.some.injEq] at h
          subst h
          exact ⟨rfl, by change 1 ≤ b.length - 1; omega,
            by change b.length - 1 ≤ b.length; omega⟩
        · simp only [Option.some.injEq] at h
          subst h
          exact ⟨rfl, by change 1 ≤ b.length - 1; omega,
            by change b.length - 1 ≤ b.length; omega⟩
    · simp only [remove_listener_loop, hd, if_false] at h
      exact ih (i + 1) b1 h1 h

/-- Adding a listener keeps `1 ≤ length ≤ size` while fewer than `2 ^ 31`
listeners are held, so that neither `size << 1` nor `length += 1` wraps. -/
theorem add_listener_bounds (object : NRActiveObject) (vector size data n : Nat)
    (hn : n < 2 ^ 31)
    (h : ∀ b, object.callbacks = some b → 1 ≤ b.length ∧ b.length ≤ b.size ∧ b.length ≤ n) :
    ∀ b, (nr_active_object_add_listener object vector size data).callbacks = some b →
      1 ≤ b.length ∧ b.length ≤ b.size ∧ b.length ≤ n + 1 := by
  intro b1 hb1
  obtain ⟨cb⟩ := object
  cases cb with
  | none =>
    simp only [nr_active_object_add_listener, Option.some.injEq] at hb1
    subst hb1
    simp
  | some b =>
    obtain ⟨h1, h2, h3⟩ := h b rfl
    simp only [nr_active_object_add_listener, Option.some.injEq] at hb1
    subst hb1
    by_cases hfull : b.length ≥ b.size
    · simp only [hfull, if_true]
      have e1 : (b.size * 2) % 2 ^ 32 = b.size * 2 := Nat.mod_eq_of_lt (by omega)
      have e2 : (b.length + 1) % 2 ^ 32 = b.length + 1 := Nat.mod_eq_of_lt (by omega)
      rw [e1, e2]
      omega
    · simp only [hfull, if_false]
      have e2 : (b.length + 1) % 2 ^ 32 = b.length + 1 := Nat.mod_eq_of_lt (by omega)
      rw [e2]
      omega

theorem remove_listener_bounds (object : NRActiveObject) (data n : Nat)
    (h : ∀ b, object.callbacks = some b → 1 ≤ b.length ∧ b.length ≤ b.size ∧ b.length ≤ n) :
    ∀ b, (nr_active_object_remove_listener_by_data object data).callbacks = some b →
      1 ≤ b.length ∧ b.length ≤ b.size ∧ b.length ≤ n := by
  intro b1 hb1
  obtain ⟨cb⟩ := object
  cases cb with
  | none => simp [nr_active_object_remove_listener_by_data] at hb1
  | some b =>
    obtain ⟨h1, h2, h3⟩ := h b rfl
    simp only [nr_active_object_remove_listener_by_data] at hb1
    obtain ⟨e1, e2, e3⟩ := remove_listener_loop_bounds b data b.length 0 b1 h1 hb1
    omega

theorem runListenerOps_bounds (ops : List ListenerOp) :
    ∀ (object : NRActiveObject) (n : Nat), n + ops.length ≤ 2 ^ 31 →
      (∀ b, object.callbacks = some b → 1 ≤ b.length ∧ b.length ≤ b.size ∧ b.length ≤ n) →
      ∀ b, (runListenerOps ops object).callbacks = some b →
        1 ≤ b.length ∧ b.length ≤ b.size ∧ b.length ≤ n + ops.length := by
  induction ops with
  | nil => intro object n _ h b hb; exact h b hb
  | cons op ops ih =>
    intro object n hn h b hb
    simp only [List.length_cons] at hn
    have hstep : ∀ b, (op.run object).callbacks = some b →
        1 ≤ b.length ∧ b.length ≤ b.size ∧ b.length ≤ n + 1 := by
      cases op with
      | add vector size data =>
        exact add_listener_bounds object vector size data n (by omega) h
      | remove data =>
        intro b2 hb2
        obtain ⟨e1, e2, e3⟩ := remove_listener_bounds object data n h b2 hb2
        exact ⟨e1, e2, by omega⟩
    have := ih (op.run object) (n + 1) (by omega) hstep b hb
    simp only [List.length_cons]
    omega

/-- C29: for every listener block and data pointer `d`, when slot `i0` is
the lowest one whose data is `d`, `nr_active_object_remove_listener_by_data`
leaves the same multiset of listeners minus that one, with `length`
decreased by exactly 1 (and `size` unchanged), and it releases the block
(`callbacks = NULL`) when that was the only listener; when no listener has
data `d` the object is unchanged.  After any sequence of at most `2 ^ 31`
calls of `nr_active_object_add_listener` and
`nr_active_object_remove_listener_by_data` on an object that starts without
a block, `length <= size` holds. -/
theorem C29_remove_listener_by_data_removes_first_match
    (b : NRObjectCallbackBlock) (d : Nat) :
    (∀ i0, i0 < b.length → (b.listeners i0).data = d →
      (∀ j, j < i0 → (b.listeners j).data ≠ d) →
      List.Perm (b.listeners i0 ::
          (nr_active_object_remove_listener_by_data { callbacks := some b } d).live)
        b.live ∧
      (b.length = 1 →
        (nr_active_object_remove_listener_by_data { callbacks := some b } d).callbacks
          = none) ∧
      (1 < b.length → ∃ b1,
        (nr_active_object_remove_listener_by_data { callbacks := some b } d).callbacks
          = some b1 ∧
        b1.length = b.length - 1 ∧ b1.size = b.size)) ∧
    ((∀ j, j < b.length → (b.listeners j).data ≠ d) →
      nr_active_object_remove_listener_by_data { callbacks := some b } d
        = { callbacks := some b }) ∧
    (∀ ops : List ListenerOp, ops.length ≤ 2 ^ 31 →
      ∀ b1, (runListenerOps ops { callbacks := none }).callbacks = some b1 →
        b1.length ≤ b1.size) := by
  refine ⟨fun i0 hi0 hd hfirst => remove_listener_first_match b d i0 hi0 hd hfirst, ?_, ?_⟩
  · intro h
    have hloop := remove_listener_loop_no_match b d b.length 0
      (fun j _ hj => h j (by omega))
    simp only [nr_active_object_remove_listener_by_data, hloop]
  · intro ops hops b1 hb1
    have := runListenerOps_bounds ops { callbacks := none } 0 (by omega)
      (fun b hb => by cases hb) b1 hb1
    exact this.2.1

/-- Witness of C29: removing data pointer 7 from the block holding the
listeners with data 7, 8, 7 drops the first and moves the last into its
slot. -/
theorem C29_remove_listener_by_data_removes_first_match_witness :
    threeListeners.live = threeListenersBlock.live ∧
    (nr_active_object_remove_listener_by_data { callbacks := some threeListenersBlock } 7).live
      = [⟨3, 0, 7⟩, ⟨2, 0, 8⟩] ∧
    (nr_active_object_remove_listener_by_data oneListener 7).live = [] ∧
    List.Perm (threeListenersBlock.listeners 0 ::
        (nr_active_object_remove_listener_by_data
          { callbacks := some threeListenersBlock } 7).live)
      threeListenersBlock.live :=
  ⟨by decide, by decide, by decide,
    ((C29_remove_listener_by_data_removes_first_match threeListenersBlock 7).1 0
      (by decide) (by decide) (fun j h => absurd h (Nat.not_lt_zero j))).1⟩

/-! ## Unicode entry of the text tool -/

theorem insert_uni_char_bufferOk (N : Nat) (hN : 0 < N) (tc : SPTextContext)
    (h : tc.BufferOk N) : (insert_uni_char N tc).BufferOk N := by
  unfold insert_uni_char
  split
  · exact ⟨Nat.zero_le _, hN, fun h0 => absurd rfl h0⟩
  · exact h

theorem insert_uni_char_resets (N : Nat) (tc : SPTextContext)
    (h : tc.unipos ≠ 0 ∧ tc.unipos < N ∧ tc.uni tc.unipos = 0) :
    (insert_uni_char N tc).unipos = 0 ∧ (insert_uni_char N tc).uni 0 = 0 ∧
      (insert_uni_char N tc).unimode = tc.unimode := by
  unfold insert_uni_char
  rw [if_pos h]
  exact ⟨rfl, (Function.update_same 0 0 tc.uni : Function.update tc.uni 0 0 0 = 0), rfl⟩

/-- The switch of Unicode mode keeps the buffer invariant and calls
`insert_uni_char` only under its precondition. -/
theorem unimode_switch_bufferOk (N : Nat) (hN : 0 < N) (keyval : Nat) (tc : SPTextContext)
    (h : tc.BufferOk N) (r : SPTextContext × List SPTextContext)
    (hr : unimode_switch N keyval tc = some r) :
    r.1.BufferOk N ∧ ∀ t ∈ r.2, t.unipos ≠ 0 ∧ t.unipos < N ∧ t.uni t.unipos = 0 := by
  have hins := insert_uni_char_bufferOk N hN tc h
  have hsame : tc.BufferOk N := h
  obtain ⟨h7, hlt, hnul⟩ := h
  have hnone : ∀ t ∈ ([] : List SPTextContext),
      t.unipos ≠ 0 ∧ t.unipos < N ∧ t.uni t.unipos = 0 := fun t ht => by cases ht
  have hone : tc.unipos ≠ 0 → ∀ t ∈ [tc],
      t.unipos ≠ 0 ∧ t.unipos < N ∧ t.uni t.unipos = 0 := by
    intro h0 t ht
    simp only [List.mem_singleton] at ht
    subst ht
    exact ⟨h0, hlt, hnul h0⟩
  unfold unimode_switch at hr
  by_cases c1 : keyval = GDK_space ∨ keyval = GDK_KP_Space
  · rw [if_pos c1] at hr
    by_cases c0 : tc.unipos ≠ 0
    · rw [if_pos c0] at hr
      cases hr
      exact ⟨hins, hone c0⟩
    · rw [if_neg c0] at hr
      cases hr
      exact ⟨hsame, hnone⟩
  rw [if_neg c1] at hr
  by_cases c2 : keyval = GDK_BackSpace
  · rw [if_pos c2] at hr
    by_cases cg : ¬ tc.unipos < N
    · exact absurd hlt cg
    rw [if_neg cg] at hr
    by_cases c0 : tc.unipos ≠ 0
    · rw [if_pos c0] at hr
      cases hr
      refine ⟨⟨?_, ?_, ?_⟩, hnone⟩
      · change tc.unipos - 1 ≤ 7
        omega
      · change tc.unipos - 1 < N
        omega
      · intro _
        exact Function.update_same _ _ _
    · rw [if_neg c0] at hr
      cases hr
      exact ⟨hsame, hnone⟩
  rw [if_neg c2] at hr
  by_cases c3 : keyval = GDK_Return ∨ keyval = GDK_KP_Enter
  · rw [if_pos c3] at hr
    by_cases c0 : tc.unipos ≠ 0
    · rw [if_pos c0] at hr
      cases hr
      exact ⟨hins, hone c0⟩
    · rw [if_neg c0] at hr
      cases hr
      exact ⟨hsame, hnone⟩
  rw [if_neg c3] at hr
  by_cases c4 : keyval = GDK_Escape
  · rw [if_pos c4] at hr
    cases hr
    exact ⟨hsame, hnone⟩
  rw [if_neg c4] at hr
  by_cases c5 : keyval = GDK_Shift_L ∨ keyval = GDK_Shift_R
  · rw [if_pos c5] at hr
    cases hr
  rw [if_neg c5] at hr
  by_cases c6 : g_ascii_isxdigit keyval = true
  · rw [if_pos c6] at hr
    by_cases cg : ¬ tc.unipos < N - 1
    · rw [if_pos cg] at hr
      cases hr
      exact ⟨hsame, hnone⟩
    rw [if_neg cg] at hr
    have hok1 : tc.unipos + 1 < N := by omega
    dsimp only at hr
    by_cases h8 : tc.unipos + 1 = 8
    · rw [if_pos h8] at hr
      cases hr
      refine ⟨?_, ?_⟩
      · have hpre : (insert_uni_char N
            { unimode := tc.unimode, unipos := tc.unipos + 1,
              uni := Function.update (Function.update tc.uni tc.unipos (keyval % 256))
                (tc.unipos + 1) 0 }).unipos = 0 :=
          (insert_uni_char_resets N _
            ⟨Nat.succ_ne_zero _, hok1, Function.update_same _ _ _⟩).1
        refine ⟨?_, ?_, ?_⟩
        · change (insert_uni_char N _).unipos ≤ 7
          rw [hpre]
          exact Nat.zero_le _
        · change (insert_uni_char N _).unipos < N
          rw [hpre]
          exact hN
        · intro hne
          exact absurd hpre hne
      · intro t ht
        simp only [List.mem_singleton] at ht
        subst ht
        exact ⟨Nat.succ_ne_zero _, hok1, Function.update_same _ _ _⟩
    · rw [if_neg h8] at hr
      cases hr
      refine ⟨⟨?_, hok1, fun _ => Function.update_same _ _ _⟩, hnone⟩
      change tc.unipos + 1 ≤ 7
      omega
  · rw [if_neg c6] at hr
    cases hr
    exact ⟨hsame, hnone⟩

theorem shortcut_switch_bufferOk (N : Nat) (hN : 0 < N) (ev : KeyPress) (tc : SPTextContext)
    (h : tc.BufferOk N) : (shortcut_switch ev tc).BufferOk N := by
  unfold shortcut_switch
  split
  · split
    · exact h
    · exact ⟨Nat.zero_le _, hN, fun h0 => absurd rfl h0⟩
  · exact h

/-- One key press keeps the buffer invariant and calls `insert_uni_char`
only under its precondition. -/
theorem key_press_bufferOk (N : Nat) (hN : 0 < N) (ev : KeyPress) (tc : SPTextContext)
    (h : tc.BufferOk N) :
    (key_press N ev tc).1.BufferOk N ∧
      ∀ t ∈ (key_press N ev tc).2, t.unipos ≠ 0 ∧ t.unipos < N ∧ t.uni t.unipos = 0 := by
  have hnone : ∀ t ∈ ([] : List SPTextContext),
      t.unipos ≠ 0 ∧ t.unipos < N ∧ t.uni t.unipos = 0 := fun t ht => by cases ht
  unfold key_press
  split
  · exact ⟨h, hnone⟩
  · split
    · exact ⟨h, hnone⟩
    · split
      · cases hsw : unimode_switch N ev.group0_keyval tc with
        | none => exact ⟨shortcut_switch_bufferOk N hN ev tc h, hnone⟩
        | some r => exact unimode_switch_bufferOk N hN ev.group0_keyval tc h r hsw
      · exact ⟨shortcut_switch_bufferOk N hN ev tc h, hnone⟩

/-- A key press that takes the tool into Unicode mode leaves an empty
buffer position and calls nothing. -/
theorem key_press_enters (N : Nat) (hN : 0 < N) (ev : KeyPress) (tc : SPTextContext)
    (h0 : tc.unimode = false) (h1 : (key_press N ev tc).1.unimode = true) :
    (key_press N ev tc).1.BufferOk N ∧ (key_press N ev tc).2 = [] := by
  have hcontra : tc.unimode = true → False := by
    intro h
    rw [h0] at h
    cases h
  unfold key_press at h1 ⊢
  split
  · rename_i c
    rw [if_pos c] at h1
    exact (hcontra h1).elim
  · rename_i c
    rw [if_neg c] at h1
    split
    · rename_i c2
      rw [if_pos c2] at h1
      exact (hcontra h1).elim
    · rename_i c2
      rw [if_neg c2] at h1
      have c3 : ¬ (¬ ev.ctrl_only = true ∧ tc.unimode = true) := fun hc => hcontra hc.2
      rw [if_neg c3] at h1 ⊢
      refine ⟨?_, rfl⟩
      unfold shortcut_switch at h1 ⊢
      split
      · rename_i c4
        rw [if_pos c4] at h1
        simp only [h0, Bool.false_eq_true, if_false]
        exact ⟨Nat.zero_le _, hN, fun h => absurd rfl h⟩
      · rename_i c4
        rw [if_neg c4] at h1
        exact (hcontra h1).elim

theorem runKeys_bufferOk (N : Nat) (hN : 0 < N) (evs : List KeyPress) :
    ∀ tc : SPTextContext, tc.BufferOk N →
      ∀ r ∈ runKeys N evs tc, r.1.BufferOk N ∧
        ∀ t ∈ r.2, t.unipos ≠ 0 ∧ t.unipos < N ∧ t.uni t.unipos = 0 := by
  induction evs with
  | nil => intro tc _ r hr; cases hr
  | cons ev evs ih =>
    intro tc h r hr
    have hstep := key_press_bufferOk N hN ev tc h
    simp only [runKeys, List.mem_cons] at hr
    rcases hr with hr | hr
    · subst hr
      exact hstep
    · exact ih _ hstep.1 r hr

theorem xdigit_not_special (keyval : Nat) (hx : g_ascii_isxdigit keyval = true) :
    ¬ (keyval = GDK_space ∨ keyval = GDK_KP_Space) ∧ ¬ keyval = GDK_BackSpace ∧
    ¬ (keyval = GDK_Return ∨ keyval = GDK_KP_Enter) ∧ ¬ keyval = GDK_Escape ∧
    ¬ (keyval = GDK_Shift_L ∨ keyval = GDK_Shift_R) := by
  refine ⟨?_, ?_, ?_, ?_, ?_⟩
  · rintro (rfl | rfl) <;> revert hx <;> decide
  · rintro rfl; revert hx; decide
  · rintro (rfl | rfl) <;> revert hx <;> decide
  · rintro rfl; revert hx; decide
  · rintro (rfl | rfl) <;> revert hx <;> decide

/-- With a buffer of at least 9 bytes the eighth hex digit calls
`insert_uni_char` once, with 8 buffered digits, and leaves the buffer
empty. -/
theorem eighth_digit_inserts (N : Nat) (hN : 9 ≤ N) (ev : KeyPress) (tc : SPTextContext)
    (hobj : ev.has_object = true) (hctrl : ev.ctrl_only = false)
    (hx : g_ascii_isxdigit ev.group0_keyval = true)
    (hmode : tc.unimode = true) (h7 : tc.unipos = 7) :
    (key_press N ev tc).1.unipos = 0 ∧ (key_press N ev tc).1.uni 0 = 0 ∧
      (key_press N ev tc).1.unimode = true ∧
      (key_press N ev tc).2.map (fun t => t.unipos) = [8] := by
  obtain ⟨c1, c2, c3, c4, c5⟩ := xdigit_not_special ev.group0_keyval hx
  have hg : ¬ ¬ tc.unipos < N - 1 := by omega
  have h8 : tc.unipos + 1 = 8 := by omega
  have hsw : unimode_switch N ev.group0_keyval tc = some
      (insert_uni_char N
        { unimode := tc.unimode, unipos := tc.unipos + 1,
          uni := Function.update (Function.update tc.uni tc.unipos (ev.group0_keyval % 256))
            (tc.unipos + 1) 0 },
       [{ unimode := tc.unimode, unipos := tc.unipos + 1,
          uni := Function.update (Function.update tc.uni tc.unipos (ev.group0_keyval % 256))
            (tc.unipos + 1) 0 }]) := by
    unfold unimode_switch
    rw [if_neg c1, if_neg c2, if_neg c3, if_neg c4, if_neg c5, if_pos hx, if_neg hg]
    dsimp only
    rw [if_pos h8]
  have hres := insert_uni_char_resets N
    { unimode := tc.unimode, unipos := tc.unipos + 1,
      uni := Function.update (Function.update tc.uni tc.unipos (ev.group0_keyval % 256))
        (tc.unipos + 1) 0 }
    ⟨Nat.succ_ne_zero _, by change tc.unipos + 1 < N; omega, Function.update_same _ _ _⟩
  have hkp : key_press N ev tc =
      (insert_uni_char N
        { unimode := tc.unimode, unipos := tc.unipos + 1,
          uni := Function.update (Function.update tc.uni tc.unipos (ev.group0_keyval % 256))
            (tc.unipos + 1) 0 },
       [{ unimode := tc.unimode, unipos := tc.unipos + 1,
          uni := Function.update (Function.update tc.uni tc.unipos (ev.group0_keyval % 256))
            (tc.unipos + 1) 0 }]) := by
    unfold key_press
    simp [hobj, hctrl, hmode, hsw]
  rw [hkp]
  refine ⟨hres.1, hres.2.1, ?_, ?_⟩
  · rw [hres.2.2]
    exact hmode
  · simp only [List.map_cons, List.map_nil, h8]

/-- C22: let a key press take the text tool into Unicode mode (Ctrl+U) and
let any key presses follow.  After each of them at most 7 hex digits are
buffered, and every call of `insert_uni_char` finds its precondition true:
`unipos` is not zero, `unipos` is below the size `N` of the buffer, and the
buffer holds NUL at `unipos`.  When the buffer has at least 9 bytes, the
eighth digit calls `insert_uni_char` with 8 buffered digits and leaves the
buffer empty, the tool staying in Unicode mode. -/
theorem C22_unicode_buffer_invariant (N : Nat) (hN : 0 < N) (tc0 : SPTextContext)
    (ev0 : KeyPress) (evs : List KeyPress) (h0 : tc0.unimode = false)
    (henter : (key_press N ev0 tc0).1.unimode = true) :
    (∀ r ∈ runKeys N (ev0 :: evs) tc0,
      r.1.unipos ≤ 7 ∧
      ∀ t ∈ r.2, t.unipos ≠ 0 ∧ t.unipos < N ∧ t.uni t.unipos = 0) ∧
    (9 ≤ N → ∀ (ev : KeyPress) (tc : SPTextContext),
      ev.has_object = true → ev.ctrl_only = false →
      g_ascii_isxdigit ev.group0_keyval = true →
      tc.unimode = true → tc.unipos = 7 →
      (key_press N ev tc).1.unipos = 0 ∧ (key_press N ev tc).1.uni 0 = 0 ∧
        (key_press N ev tc).1.unimode = true ∧
        (key_press N ev tc).2.map (fun t => t.unipos) = [8]) := by
  refine ⟨?_, fun h9 ev tc hobj hctrl hx hmode h7 =>
    eighth_digit_inserts N h9 ev tc hobj hctrl hx hmode h7⟩
  intro r hr
  obtain ⟨hok, hcalls⟩ := key_press_enters N hN ev0 tc0 h0 henter
  simp only [runKeys, List.mem_cons] at hr
  rcases hr with hr | hr
  · subst hr
    refine ⟨hok.1, ?_⟩
    rw [hcalls]
    intro t ht
    cases ht
  · obtain ⟨h1, h2⟩ := runKeys_bufferOk N hN evs _ hok r hr
    exact ⟨h1.1, h2⟩

/-- Witness of C22 with the 9-byte buffer: Ctrl+U on a tool with stale
buffer contents, then `4`, `1` and space; and Ctrl+U followed by eight
digits. -/
theorem C22_unicode_buffer_invariant_witness :
    idleTextContext.unimode = false ∧
    (key_press 9 ctrlU idleTextContext).1.unimode = true ∧
    (runKeys 9 typeLetterA idleTextContext).map
        (fun r => (r.1.unipos, r.2.map (fun t => t.unipos)))
      = [(0, []), (1, []), (2, []), (0, [2])] ∧
    (runKeys 9 typeEightDigits idleTextContext).map
        (fun r => (r.1.unipos, r.2.map (fun t => t.unipos)))
      = [(0, []), (1, []), (2, []), (3, []), (4, []), (5, []), (6, []), (7, []), (0, [8])] ∧
    (key_press 9 ctrlU idleTextContext).1.unipos ≤ 7 :=
  ⟨by decide, by decide, by decide, by decide,
    ((C22_unicode_buffer_invariant 9 (by decide) idleTextContext ctrlU
        [plainKey 52, plainKey 49, plainKey GDK_space] (by decide) (by decide)).1
      (key_press 9 ctrlU idleTextContext) (List.mem_cons_self _ _)).1⟩

end Inkscape
